import Mathlib

/-!
# cpp-spreadsheet: the cell graph of `Sheet` and `Cell`

A shallow embedding of `src/spreadsheet/{sheet,cell,formula}.cpp`.

* A `Sheet` is the `std::map<Position, std::unique_ptr<Cell>>` of `sheet.h`, kept as an
  association list; a stored cell is identified by the key it is stored under, which is
  what the pointers `existing_cell`, `ref_cell` and `main_cell` of the source denote.
* Every operation that mutates the sheet returns the new sheet next to its result.  A C++
  exception is an `Except.error` carrying a `Fault`; the sheet returned with it is the
  state the exception leaves behind.
* The recursive member functions take a fuel argument that bounds the depth of the
  recursion; `Fault.OutOfFuel` reports that the bound was hit.
* `formula.h`, `FormulaAST.h` and `common.h` are not among the sources.  The parsed
  expression is therefore a parameter (`FormulaLib`).
-/

namespace Spreadsheet

/-! ## common.h -/

/-- A grid coordinate: `struct Position` with its two `int` fields. -/
structure Position where
  row : Int
  col : Int
deriving DecidableEq, Repr

/-- Modelled from the spec: `Position::MAX_ROWS` of common.h, which is not among the
sources; the spec names 16384. -/
def MAX_ROWS : Int := 16384

/-- Modelled from the spec: `Position::MAX_COLS` of common.h, which is not among the
sources; the spec names 16384. -/
def MAX_COLS : Int := 16384

/-- Modelled from the spec: `Position::IsValid` of common.h, which is not among the
sources: both coordinates are non-negative and below the maximum. -/
def Position.IsValid (p : Position) : Bool :=
  decide (0 ≤ p.row) && decide (0 ≤ p.col) && decide (p.row < MAX_ROWS) && decide (p.col < MAX_COLS)

/-- Modelled from the spec: `Position::operator<` of common.h, which is not among the
sources: the lexicographic order on (row, col). -/
def Position.lt (a b : Position) : Bool :=
  decide (a.row < b.row) || (decide (a.row = b.row) && decide (a.col < b.col))

/-- The `struct Size` of common.h (`rows` and `cols`, both zero by default). -/
structure Size where
  rows : Int
  cols : Int
deriving DecidableEq, Repr

/-- The categories of a `FormulaError`. -/
inductive Category where
  | Ref
  | Value
  | Div0
deriving DecidableEq, Repr

/-- The alternatives of `CellInterface::Value`, a
`std::variant<std::string, double, FormulaError>`; `F` stands for `double`. -/
inductive Value (F : Type) where
  | number (d : F)
  | text (s : String)
  | error (fe : Category)
deriving DecidableEq, Repr

/-- The constant `FORMULA_SIGN` of common.h. -/
def FORMULA_SIGN : Char := '='

/-- The constant `ESCAPE_SIGN` of common.h, the apostrophe. -/
def ESCAPE_SIGN : Char := Char.ofNat 39

/-- How a call can end other than by returning: the three exceptions of common.h, the
dereference of a null pointer (undefined behaviour in the source), and the exhaustion of
the recursion bound of this embedding. -/
inductive Fault where
  | InvalidPositionException
  | FormulaException
  | CircularDependencyException
  | NullDereference
  | OutOfFuel
deriving DecidableEq, Repr

deriving instance DecidableEq for Except

/-! ## The formula collaborator -/

/-- The walk `FormulaAST::Execute(cell_func)` performs, as the lookups it makes: `ask p k`
calls `cell_func(p)` and goes on with `k` applied to the number returned; `done r` ends the
walk with a number or with a thrown `FormulaError`. -/
inductive Run (F : Type) where
  | done (r : Except Category F)
  | ask (pos : Position) (k : F → Run F)

/-- What formula.cpp uses of `FormulaAST.h`, `<cmath>` and `<string>`, none of which is
among the sources: the parser (`none` when it throws), the cells and the printed form of a
parsed tree, its evaluation, and on `double` the constant `0.0`, `std::isinf` and
`std::stod` (`none` when it throws). -/
structure FormulaLib (F AST : Type) where
  ParseFormulaAST : String → Option AST
  GetCells : AST → List Position
  PrintFormula : AST → String
  Execute : AST → Run F
  zero : F
  isinf : F → Bool
  stod : String → Option F

/-! ## formula.cpp -/

/-- The private members of `class Formula`. -/
structure Formula (AST : Type) where
  ast_ : AST
  referenced_cells_ : List Position
deriving DecidableEq, Repr

/-- The function `ParseFormula`: the constructor of `Formula` parses the expression and
copies the cells of the tree; `none` stands for the `FormulaException` thrown when the
parser throws. -/
def ParseFormula {F AST : Type} (L : FormulaLib F AST) (expression : String) :
    Option (Formula AST) :=
  match L.ParseFormulaAST expression with
  | some a => some ⟨a, L.GetCells a⟩
  | none => none

/-- One `insert` into a `std::set<Position>`, kept as its increasing list of elements. -/
def setInsert (p : Position) : List Position → List Position
  | [] => [p]
  | q :: qs =>
    if p.lt q then p :: q :: qs
    else if q.lt p then q :: setInsert p qs
    else q :: qs

/-- The range constructor of `std::set<Position>`. -/
def toSet (ps : List Position) : List Position :=
  ps.foldl (fun acc p => setInsert p acc) []

/-- The member `Formula::GetReferencedCells`: the cells are put into a `std::set` and copied
out in its order. -/
def Formula.GetReferencedCells {AST : Type} (f : Formula AST) : List Position :=
  toSet f.referenced_cells_

/-- The member `Formula::GetExpression`. -/
def Formula.GetExpression {F AST : Type} (L : FormulaLib F AST) (f : Formula AST) : String :=
  L.PrintFormula f.ast_

/-! ## cell.cpp: the three implementations and the cell -/

/-- The enumeration `ImplType`. -/
inductive ImplType where
  | EMPTY
  | TEXT
  | FORMULA
deriving DecidableEq, Repr

/-- The classes `EmptyImpl`, `TextImpl` and `FormulaImpl` with their data members. -/
inductive Impl (F AST : Type) where
  | EmptyImpl
  | TextImpl (text_value_ : String)
  | FormulaImpl (formula_ : Formula AST) (cache_value_ : Option (Value F))
deriving DecidableEq, Repr

/-- The data members of `class Cell` (the reference to the sheet is the sheet argument of
the operations). -/
structure Cell (F AST : Type) where
  cell_value_ : Impl F AST
  dependenced_cells_ : List Position
deriving DecidableEq, Repr

/-- The sheet: `std::map<Position, std::unique_ptr<Cell>> sheet_`. -/
abbrev Sheet (F AST : Type) := List (Position × Cell F AST)

section
variable {F AST : Type}

/-- The member `Impl::GetType`. -/
def Impl.GetType : Impl F AST → ImplType
  | .EmptyImpl => .EMPTY
  | .TextImpl _ => .TEXT
  | .FormulaImpl _ _ => .FORMULA

/-- The member `Impl::ImplGetText`. -/
def Impl.ImplGetText (L : FormulaLib F AST) : Impl F AST → String
  | .EmptyImpl => ""
  | .TextImpl t => t
  | .FormulaImpl f _ => String.mk (FORMULA_SIGN :: (f.GetExpression L).data)

/-- The member `Impl::GetReferencedCells`. -/
def Impl.GetReferencedCells : Impl F AST → List Position
  | .EmptyImpl => []
  | .TextImpl _ => []
  | .FormulaImpl f _ => f.GetReferencedCells

/-- The member `Impl::isCacheValid`. -/
def Impl.isCacheValid : Impl F AST → Bool
  | .FormulaImpl _ c => c.isSome
  | _ => true

/-- The member `Impl::ResetCache`. -/
def Impl.ResetCache : Impl F AST → Impl F AST
  | .FormulaImpl f _ => .FormulaImpl f none
  | i => i

/-- The assignment `cache_value_ = v` inside `FormulaImpl::ImplGetValue`. -/
def Impl.setCache (v : Value F) : Impl F AST → Impl F AST
  | .FormulaImpl f _ => .FormulaImpl f (some v)
  | i => i

/-- The member `TextImpl::ImplGetValue`: the text without a leading apostrophe. -/
def textValue (t : String) : String :=
  match t.data with
  | c :: rest => if c = ESCAPE_SIGN then String.mk rest else t
  | [] => t

/-- The member `Cell::GetText`. -/
def Cell.GetText (L : FormulaLib F AST) (c : Cell F AST) : String :=
  c.cell_value_.ImplGetText L

/-- The member `Cell::GetReferencedCells`. -/
def Cell.GetReferencedCells (c : Cell F AST) : List Position :=
  c.cell_value_.GetReferencedCells

/-- The member `Cell::GetType`. -/
def Cell.GetType (c : Cell F AST) : ImplType :=
  c.cell_value_.GetType

/-- The member `Cell::InvalidateCache`. -/
def Cell.InvalidateCache (c : Cell F AST) : Cell F AST :=
  { c with cell_value_ := c.cell_value_.ResetCache }

/-- The member `Cell::AddDependencedCell`. -/
def Cell.AddDependencedCell (c : Cell F AST) (pos : Position) : Cell F AST :=
  { c with dependenced_cells_ := setInsert pos c.dependenced_cells_ }

/-- The member `Cell::DeleteDependencedCells`. -/
def Cell.DeleteDependencedCells (c : Cell F AST) : Cell F AST :=
  { c with dependenced_cells_ := [] }

/-- The member `Cell::Clear`. -/
def Cell.Clear (c : Cell F AST) : Cell F AST :=
  { c with cell_value_ := .EmptyImpl }

/-- The member `Cell::Set`.  When the constructor of `FormulaImpl` throws, `cell_value_` has
not been assigned and the `FormulaException` leaves the cell as it was. -/
def Cell.Set (L : FormulaLib F AST) (c : Cell F AST) (text : String) :
    Except Fault (Cell F AST) :=
  match text.data with
  | [] => .ok { c with cell_value_ := .EmptyImpl }
  | ch :: rest =>
    if ch ≠ FORMULA_SIGN ∨ (ch = FORMULA_SIGN ∧ rest = []) then
      .ok { c with cell_value_ := .TextImpl text }
    else
      match ParseFormula L (String.mk rest) with
      | some f => .ok { c with cell_value_ := .FormulaImpl f none }
      | none => .error .FormulaException

/-- The constructor `Cell::Cell(sheet, text)`: an empty cell on which `Set(text)` is called. -/
def Cell.new (L : FormulaLib F AST) (text : String) : Except Fault (Cell F AST) :=
  Cell.Set L ⟨.EmptyImpl, []⟩ text

/-- The loops of `Sheet::SetCell` that call `AddDependencedCell` on every referenced cell. -/
def Cell.addReferenced (c : Cell F AST) : Cell F AST :=
  c.GetReferencedCells.foldl Cell.AddDependencedCell c

/-! ## sheet.cpp: the map -/

/-- The lookup `sheet_.find(pos)`. -/
def Sheet.find : Sheet F AST → Position → Option (Cell F AST)
  | [], _ => none
  | (q, d) :: rest, pos => if q = pos then some d else Sheet.find rest pos

/-- The assignment `sheet_[pos] = cell`, also used for a change made through a pointer to
the cell stored at `pos`. -/
def Sheet.insert (pos : Position) (c : Cell F AST) : Sheet F AST → Sheet F AST
  | [] => [(pos, c)]
  | (q, d) :: rest =>
    if q = pos then (pos, c) :: rest
    else if pos.lt q then (pos, c) :: (q, d) :: rest
    else (q, d) :: Sheet.insert pos c rest

/-- The removal `sheet_.erase(pos)`. -/
def Sheet.erase (pos : Position) (s : Sheet F AST) : Sheet F AST :=
  s.filter (fun e => decide (e.1 ≠ pos))

/-- The object a pointer to the cell stored at `pos` denotes in the state `s`. -/
def Sheet.cellAt (s : Sheet F AST) (pos : Position) (c : Cell F AST) : Cell F AST :=
  (s.find pos).getD c

/-- The member `Sheet::GetCell`: `PositionCorrect`, then the stored cell or the null
pointer. -/
def GetCell (s : Sheet F AST) (pos : Position) : Except Fault (Option (Cell F AST)) :=
  if pos.IsValid then .ok (s.find pos) else .error .InvalidPositionException

/-- The member `Sheet::ClearCell`. -/
def ClearCell (s : Sheet F AST) (pos : Position) : Except Fault Unit × Sheet F AST :=
  if pos.IsValid then
    (if (s.find pos).isSome then (.ok (), s.erase pos) else (.ok (), s))
  else (.error .InvalidPositionException, s)

/-- The member `Sheet::GetPrintableSize`. -/
def GetPrintableSize (s : Sheet F AST) : Size :=
  s.foldl (fun sz e => ⟨max sz.rows (e.1.row + 1), max sz.cols (e.1.col + 1)⟩) ⟨0, 0⟩

/-- The member `Sheet::GetDependencedCellByPos`: an exception of `GetCell` is caught and
gives the empty vector. -/
def GetDependencedCellByPos (s : Sheet F AST) (pos : Position) : List Position :=
  if pos.IsValid then
    match s.find pos with
    | some c => c.GetReferencedCells
    | none => []
  else []

/-- The loop of `Sheet::InvalidateCellsByPos`; `recur` is the recursive call. -/
def InvalidateLoop (recur : Sheet F AST → Position → Except Fault Unit × Sheet F AST) :
    List Position → Sheet F AST → Except Fault Unit × Sheet F AST
  | [], s => (.ok (), s)
  | cell_pos :: rest, s =>
    if cell_pos.IsValid then
      match s.find cell_pos with
      | none => (.error .NullDereference, s)
      | some cell =>
        match recur (s.insert cell_pos cell.InvalidateCache) cell_pos with
        | (.ok (), s2) => InvalidateLoop recur rest s2
        | (.error e, s2) => (.error e, s2)
    else (.error .InvalidPositionException, s)

/-- The member `Sheet::InvalidateCellsByPos`, with a bound on the depth of its recursion. -/
def InvalidateCellsByPos : Nat → Sheet F AST → Position → Except Fault Unit × Sheet F AST
  | 0, s, _ => (.error .OutOfFuel, s)
  | n + 1, s, pos => InvalidateLoop (InvalidateCellsByPos n) (GetDependencedCellByPos s pos) s

/-- The loop of `Cell::hasCircularDependency` over the referenced cells of `this`;
`setCell` is `sheet_.SetCell` and `recur` the recursive call on `ref_cell`.  `main_cell` is
the key the main cell is stored under, or `none` for the temporary cell of `SetCell`. -/
def hasCircularLoop
    (setCell : Sheet F AST → Position → String → Except Fault Unit × Sheet F AST)
    (recur : List Position → Sheet F AST → Except Fault Bool × Sheet F AST)
    (main_cell : Option Position) (pos : Position) :
    List Position → Sheet F AST → Except Fault Bool × Sheet F AST
  | [], s => (.ok false, s)
  | cell_pos :: rest, s =>
    if cell_pos.IsValid then
      if pos = cell_pos then (.ok true, s)
      else
        match (match s.find cell_pos with
               | some _ => (Except.ok (), s)
               | none => setCell s cell_pos "") with
        | (.error e, s1) => (.error e, s1)
        | (.ok (), s1) =>
          match s1.find cell_pos with
          | none => (.error .NullDereference, s1)
          | some ref_cell =>
            if main_cell = some cell_pos then (.ok true, s1)
            else
              match recur ref_cell.GetReferencedCells s1 with
              | (.ok true, s2) => (.ok true, s2)
              | (.ok false, s2) => hasCircularLoop setCell recur main_cell pos rest s2
              | (.error e, s2) => (.error e, s2)
    else (.error .InvalidPositionException, s)

/-- The body of `Sheet::SetCell`; `has this_refs main_cell pos` is
`Cell::hasCircularDependency` called on a cell whose referenced cells are `this_refs`, and
`inval` is `Sheet::InvalidateCellsByPos`. -/
def SetCellWith (L : FormulaLib F AST)
    (has : List Position → Option Position → Position → Sheet F AST →
      Except Fault Bool × Sheet F AST)
    (inval : Sheet F AST → Position → Except Fault Unit × Sheet F AST)
    (s : Sheet F AST) (pos : Position) (text : String) : Except Fault Unit × Sheet F AST :=
  if pos.IsValid then
    match s.find pos with
    | some existing_cell =>
      if existing_cell.GetText L = text then (.ok (), s)
      else
        let old_text := existing_cell.GetText L
        match inval s pos with
        | (.error e, s1) => (.error e, s1)
        | (.ok (), s1) =>
          let c2 := (s1.cellAt pos existing_cell).DeleteDependencedCells
          let s2 := s1.insert pos c2
          match c2.Set L text with
          | .error e => (.error e, s2)
          | .ok c3 =>
            let s3 := s2.insert pos c3
            match has c3.GetReferencedCells (some pos) pos s3 with
            | (.error e, s4) => (.error e, s4)
            | (.ok true, s4) =>
              match (s4.cellAt pos c3).Set L old_text with
              | .error e => (.error e, s4)
              | .ok c5 => (.error .CircularDependencyException, s4.insert pos c5)
            | (.ok false, s4) => (.ok (), s4.insert pos (s4.cellAt pos c3).addReferenced)
    | none =>
      match Cell.new L text with
      | .error e => (.error e, s)
      | .ok tmp_cell =>
        match has tmp_cell.GetReferencedCells none pos s with
        | (.error e, s1) => (.error e, s1)
        | (.ok true, s1) => (.error .CircularDependencyException, s1)
        | (.ok false, s1) => (.ok (), s1.insert pos tmp_cell.addReferenced)
  else (.error .InvalidPositionException, s)

/-- The member `Cell::hasCircularDependency`, called on a cell whose referenced cells are
`this_refs`, with a bound on the depth of the recursion (through itself and through
`Sheet::SetCell`). -/
def hasCircularDependency (L : FormulaLib F AST) :
    Nat → List Position → Option Position → Position → Sheet F AST →
      Except Fault Bool × Sheet F AST
  | 0 => fun this_refs main_cell pos s =>
    hasCircularLoop (fun s1 _ _ => (.error .OutOfFuel, s1))
      (fun _ s1 => (.error .OutOfFuel, s1)) main_cell pos this_refs s
  | n + 1 => fun this_refs main_cell pos s =>
    hasCircularLoop
      (SetCellWith L (hasCircularDependency L n) (InvalidateCellsByPos n))
      (fun refs s1 => hasCircularDependency L n refs main_cell pos s1)
      main_cell pos this_refs s

/-- The member `Sheet::SetCell`. -/
def SetCell (L : FormulaLib F AST) (fuel : Nat) (s : Sheet F AST) (pos : Position)
    (text : String) : Except Fault Unit × Sheet F AST :=
  SetCellWith L (hasCircularDependency L fuel) (InvalidateCellsByPos fuel) s pos text

/-! ## Reading a value: `Cell::GetValue` -/

/-- The lambda `cell_func` of `Formula::Evaluate`; `getValue` is
`sheet.GetCell(pos)->GetValue()`.  The inner result is the number returned or the
`FormulaError` thrown. -/
def cell_func (L : FormulaLib F AST)
    (getValue : Sheet F AST → Position → Except Fault (Value F) × Sheet F AST)
    (pos : Position) (s : Sheet F AST) : Except Fault (Except Category F) × Sheet F AST :=
  if pos.IsValid then
    match s.find pos with
    | none => (.ok (.ok L.zero), s)
    | some _ =>
      match getValue s pos with
      | (.error e, s1) => (.error e, s1)
      | (.ok (.number d), s1) => (.ok (.ok d), s1)
      | (.ok (.text str), s1) =>
        match L.stod str with
        | some d => (.ok (.ok d), s1)
        | none => (.ok (.error .Value), s1)
      | (.ok (.error fe), s1) => (.ok (.error fe), s1)
  else (.error .InvalidPositionException, s)

/-- The call `ast_.Execute(cell_func)` of `Formula::Evaluate`: the lookups of the walk are
made one after the other, and a `FormulaError` thrown by one of them ends the walk. -/
def runExecute
    (lookup : Position → Sheet F AST → Except Fault (Except Category F) × Sheet F AST) :
    Run F → Sheet F AST → Except Fault (Except Category F) × Sheet F AST
  | .done r, s => (.ok r, s)
  | .ask p k, s =>
    match lookup p s with
    | (.error e, s1) => (.error e, s1)
    | (.ok (.error fe), s1) => (.ok (.error fe), s1)
    | (.ok (.ok d), s1) => runExecute lookup (k d) s1

/-- The member `Formula::Evaluate`: the result of the walk, a thrown `FormulaError` being
caught and returned. -/
def Formula.Evaluate (L : FormulaLib F AST)
    (getValue : Sheet F AST → Position → Except Fault (Value F) × Sheet F AST)
    (f : Formula AST) (s : Sheet F AST) : Except Fault (Except Category F) × Sheet F AST :=
  runExecute (cell_func L getValue) (L.Execute f.ast_) s

/-- The first loop of `FormulaImpl::ImplGetValue`: whether one of the referenced cells has
type `TEXT`.  The result of `GetCell` is dereferenced unchecked. -/
def hasTextReference (s : Sheet F AST) : List Position → Except Fault Bool
  | [] => .ok false
  | pos :: rest =>
    if pos.IsValid then
      match s.find pos with
      | none => .error .NullDereference
      | some c => if c.GetType = .TEXT then .ok true else hasTextReference s rest
    else .error .InvalidPositionException

/-- The assignment to `cache_value_` of the cell stored at `self`. -/
def Sheet.setCache (s : Sheet F AST) (self : Position) (v : Value F) : Sheet F AST :=
  match s.find self with
  | some c => s.insert self { c with cell_value_ := c.cell_value_.setCache v }
  | none => s

/-- The body of `Cell::GetValue` for the cell stored at `self` (`ImplGetValue` of its
implementation); `getValue` is the same call on another cell, made during the evaluation of
a formula.  A call on the null pointer `GetCell` returns for an absent position is a
`NullDereference`. -/
def GetValueWith (L : FormulaLib F AST)
    (getValue : Sheet F AST → Position → Except Fault (Value F) × Sheet F AST)
    (s : Sheet F AST) (self : Position) : Except Fault (Value F) × Sheet F AST :=
  match s.find self with
  | none => (.error .NullDereference, s)
  | some c =>
    match c.cell_value_ with
    | .EmptyImpl => (.ok (.number L.zero), s)
    | .TextImpl t => (.ok (.text (textValue t)), s)
    | .FormulaImpl _ (some v) => (.ok v, s)
    | .FormulaImpl f none =>
      match hasTextReference s f.GetReferencedCells with
      | .error e => (.error e, s)
      | .ok true => (.ok (.error .Value), s.setCache self (.error .Value))
      | .ok false =>
        match f.Evaluate L getValue s with
        | (.error e, s1) => (.error e, s1)
        | (.ok (.ok res), s1) =>
          if L.isinf res then (.ok (.error .Div0), s1.setCache self (.error .Div0))
          else (.ok (.number res), s1.setCache self (.number res))
        | (.ok (.error fe), s1) => (.ok (.error fe), s1.setCache self (.error fe))

/-- The member `Cell::GetValue` of the cell stored at a position, with a bound on the depth
of the recursion through the formulas. -/
def GetValue (L : FormulaLib F AST) :
    Nat → Sheet F AST → Position → Except Fault (Value F) × Sheet F AST
  | 0 => GetValueWith L (fun s _ => (.error .OutOfFuel, s))
  | n + 1 => GetValueWith L (GetValue L n)

end

/-! ## A formula collaborator for the expressions without brackets

The concrete runs below need a parser.  This one accepts the expressions built from cell
names and unsigned integer literals with the four binary operators, written without
blanks, signs or brackets; on these the canonical text of an expression is the text
itself. -/

/-- An operand: a cell inside the sheet bounds, or a literal. -/
inductive Atom where
  | cell (p : Position) (valid : p.IsValid = true)
  | number (n : Nat)
deriving DecidableEq

/-- A parsed expression: its text, its first operand, and the following operators with
their right operands. -/
structure PlainAST where
  src : String
  first : Atom
  rest : List (Char × Atom)
deriving DecidableEq

/-- The four binary operators. -/
def isOperator (c : Char) : Bool :=
  c = '+' || c = '-' || c = '*' || c = '/'

/-- A decimal digit. -/
def isDigit (c : Char) : Bool :=
  decide (48 ≤ c.toNat) && decide (c.toNat ≤ 57)

/-- A capital letter. -/
def isCapital (c : Char) : Bool :=
  decide (65 ≤ c.toNat) && decide (c.toNat ≤ 90)

/-- The text up to the first operator, and the operators with the texts that follow them. -/
def splitOperands : List Char → List Char × List (Char × List Char)
  | [] => ([], [])
  | c :: cs =>
    if isOperator c then ([], (c, (splitOperands cs).1) :: (splitOperands cs).2)
    else (c :: (splitOperands cs).1, (splitOperands cs).2)

/-- The number written by a list of decimal digits. -/
def digitsValue (cs : List Char) : Nat :=
  cs.foldl (fun acc c => 10 * acc + (c.toNat - 48)) 0

/-- The number written by capital letters in bijective base 26 (A = 1, Z = 26, AA = 27). -/
def lettersValue (cs : List Char) : Nat :=
  cs.foldl (fun acc c => 26 * acc + (c.toNat - 64)) 0

/-- Modelled from the spec: `Position::FromString` of common.h, which is not among the
sources: capital letters for the column, then the 1-based row without a leading zero. -/
def parseCell (cs : List Char) : Option Position :=
  let letters := cs.takeWhile isCapital
  let digits := cs.dropWhile isCapital
  match letters, digits with
  | _ :: _, d :: ds =>
    if d ≠ '0' ∧ (d :: ds).all isDigit then
      some ⟨(digitsValue (d :: ds) : Int) - 1, (lettersValue letters : Int) - 1⟩
    else none
  | _, _ => none

/-- An unsigned integer literal of at most six digits without a leading zero. -/
def parseNumber (cs : List Char) : Option Nat :=
  match cs with
  | [] => none
  | d :: ds =>
    if (d :: ds).all isDigit ∧ (d ≠ '0' ∨ ds = []) ∧ ds.length < 6 then
      some (digitsValue (d :: ds))
    else none

/-- An operand: a literal, or the name of a cell inside the bounds. -/
def parseAtom (cs : List Char) : Option Atom :=
  match parseNumber cs with
  | some n => some (.number n)
  | none =>
    match parseCell cs with
    | some p => if h : p.IsValid = true then some (.cell p h) else none
    | none => none

/-- The operands that follow the first one. -/
def parseRest : List (Char × List Char) → Option (List (Char × Atom))
  | [] => some []
  | (op, cs) :: more =>
    match parseAtom cs, parseRest more with
    | some a, some as => some ((op, a) :: as)
    | _, _ => none

/-- Modelled from the spec: `ParseFormulaAST` of FormulaAST.h, which is not among the
sources, on the expressions without blanks, signs, brackets and fractions. -/
def parsePlain (e : String) : Option PlainAST :=
  match parseAtom (splitOperands e.data).1, parseRest (splitOperands e.data).2 with
  | some a, some as => some ⟨e, a, as⟩
  | _, _ => none

/-- The cell of an operand. -/
def Atom.cells : Atom → List Position
  | .cell p _ => [p]
  | .number _ => []

/-- Modelled from the spec: `FormulaAST::GetCells`, the cells named in the expression. -/
def PlainAST.cells (a : PlainAST) : List Position :=
  a.first.cells ++ a.rest.flatMap (fun e => e.2.cells)

/-- The expression tree of the evaluation. -/
inductive Tree where
  | atom (a : Atom)
  | binary (op : Char) (lhs rhs : Tree)

/-- The precedence of the operators and their left associativity: `done` is the sum built so
far with the operator that follows it, `term` the product being built. -/
def toTree (done : Option (Tree × Char)) (term : Tree) : List (Char × Atom) → Tree
  | [] =>
    match done with
    | some (l, op) => .binary op l term
    | none => term
  | (op, a) :: more =>
    if op = '*' ∨ op = '/' then toTree done (.binary op term (.atom a)) more
    else
      match done with
      | some (l, op0) => toTree (some (.binary op0 l term, op)) (.atom a) more
      | none => toTree (some (term, op)) (.atom a) more

/-- Modelled from the spec: the evaluation of a tree, left operand first; a division by zero
throws `Div0`.  The numbers are exact rationals here. -/
def Tree.run : Tree → (ℚ → Run ℚ) → Run ℚ
  | .atom (.number n), k => k n
  | .atom (.cell p _), k => .ask p k
  | .binary op l r, k =>
    l.run (fun a => r.run (fun b =>
      if op = '+' then k (a + b)
      else if op = '-' then k (a - b)
      else if op = '*' then k (a * b)
      else if b = 0 then .done (.error .Div0) else k (a / b)))

/-- Modelled from the spec: the whole string read as a decimal number, with an optional
minus sign and an optional fraction. -/
def stodPlain (s : String) : Option ℚ :=
  let unsigned : List Char → Option ℚ := fun cs =>
    match cs.takeWhile isDigit, cs.dropWhile isDigit with
    | _ :: _, [] => some (digitsValue cs : ℚ)
    | ip, '.' :: fr =>
      if fr.all isDigit ∧ (ip ≠ [] ∨ fr ≠ []) then
        some ((digitsValue ip : ℚ) + (digitsValue fr : ℚ) / (10 : ℚ) ^ fr.length)
      else none
    | _, _ => none
  match s.data with
  | '-' :: cs => (unsigned cs).map (fun q => -q)
  | cs => unsigned cs

/-- The collaborator on the expressions without brackets, with rational numbers. -/
def plainLib : FormulaLib ℚ PlainAST where
  ParseFormulaAST := parsePlain
  GetCells := PlainAST.cells
  PrintFormula := fun a => a.src
  Execute := fun a => (toTree none (.atom a.first) a.rest).run (fun v => .done (.ok v))
  zero := 0
  isinf := fun _ => false
  stod := stodPlain

/-! ## The reference graph and the states of a sheet -/

section
variable {F AST : Type}

/-- The referenced cells of the cell stored at a position; none for an absent position. -/
def refsAt (s : Sheet F AST) (p : Position) : List Position :=
  match s.find p with
  | some c => c.GetReferencedCells
  | none => []

/-- The reference relation: a cell is stored at `p` and its `GetReferencedCells` contains
`q`. -/
def edge (s : Sheet F AST) (p q : Position) : Prop :=
  q ∈ refsAt s p

/-- No stored cell reaches itself through one or more references. -/
def Acyclic (s : Sheet F AST) : Prop :=
  ∀ p, ¬ Relation.TransGen (edge s) p p

/-- Every referenced position is a valid position. -/
def RefsValid (s : Sheet F AST) : Prop :=
  ∀ p q, edge s p q → q.IsValid = true

/-- The cached value of the formula cell stored at a position, if it has one. -/
def cachedValue (s : Sheet F AST) (p : Position) : Option (Value F) :=
  match s.find p with
  | some ⟨.FormulaImpl _ c, _⟩ => c
  | _ => none

/-- Every referenced position is a stored position. -/
def RefClosed (s : Sheet F AST) : Prop :=
  ∀ p q, edge s p q → (s.find q).isSome = true

/-- The check of `RefClosed` on a given sheet. -/
def refClosedCheck (s : Sheet F AST) : Bool :=
  s.all (fun e => e.2.GetReferencedCells.all (fun q => (s.find q).isSome))

/-- The cell `Cell(sheet, "")` that `hasCircularDependency` stores for a missing reference. -/
def emptyCell : Cell F AST := ⟨.EmptyImpl, []⟩

/-- What a call leaves of the position `p`: a stored cell stays stored with the same
content, up to its cache and its `dependenced_cells_`; an absent position stays absent or,
when it is a valid position, receives an `EmptyImpl` cell. -/
def Keeps (s s1 : Sheet F AST) (p : Position) : Prop :=
  (∃ c c1, s.find p = some c ∧ s1.find p = some c1 ∧
      c1.cell_value_.ResetCache = c.cell_value_.ResetCache) ∨
  (s.find p = none ∧
    (s1.find p = none ∨ (p.IsValid = true ∧ ∃ d, s1.find p = some ⟨.EmptyImpl, d⟩)))

/-- The two states store the same positions with the same cells up to the caches. -/
def CacheOnly (s s1 : Sheet F AST) : Prop :=
  ∀ p, (s1.find p).map Cell.InvalidateCache = (s.find p).map Cell.InvalidateCache

/-- What `hasCircularDependency` called for `pos` leaves of a state: every stored cell as
it was, and some absent valid positions other than `pos` with the cell `Cell(sheet, "")`. -/
def Ext (pos : Position) (s s1 : Sheet F AST) : Prop :=
  ∀ p, s1.find p = s.find p ∨
    (p ≠ pos ∧ p.IsValid = true ∧ s.find p = none ∧ s1.find p = some emptyCell)

/-- What a call of `hasCircularDependency` on a cell with the referenced cells `refs`
establishes: the state is extended; the call returns, runs out of fuel, or throws
`InvalidPositionException` because of an invalid referenced position; and when it returns
`false` no position reached from `refs` is `pos` and each of them is stored. -/
def DfsPost (pos : Position) (refs : List Position) (s : Sheet F AST)
    (res : Except Fault Bool × Sheet F AST) : Prop :=
  Ext pos s res.2 ∧
  (res.1 = .ok true ∨ res.1 = .ok false ∨ res.1 = .error .OutOfFuel ∨
    (res.1 = .error .InvalidPositionException ∧
      ¬ ((∀ q ∈ refs, q.IsValid = true) ∧ RefsValid s))) ∧
  (res.1 = .ok false → ∀ x ∈ refs, ∀ q, Relation.ReflTransGen (edge res.2) x q →
    q ≠ pos ∧ (res.2.find q).isSome = true)

/-- The parser contract that every cell of a parsed expression is a valid position. -/
def LibCellsValid (L : FormulaLib F AST) : Prop :=
  ∀ e a, L.ParseFormulaAST e = some a → ∀ p ∈ L.GetCells a, p.IsValid = true

/-- The parser contract that the printed form of a parsed expression parses again, to an
expression with the same cells and the same printed form. -/
def LibReparses (L : FormulaLib F AST) : Prop :=
  ∀ e a, L.ParseFormulaAST e = some a →
    ∃ a1, L.ParseFormulaAST (L.PrintFormula a) = some a1 ∧
      L.GetCells a1 = L.GetCells a ∧ L.PrintFormula a1 = L.PrintFormula a

/-- The content of a cell is one `Cell::Set` builds: a text that `Set` stores as text, or a
formula the parser returned. -/
def Impl.FromSet (L : FormulaLib F AST) : Impl F AST → Prop
  | .EmptyImpl => True
  | .TextImpl t => ∃ ch rest, t.data = ch :: rest ∧ (ch ≠ FORMULA_SIGN ∨ rest = [])
  | .FormulaImpl f _ => ∃ e, ParseFormula L e = some f

/-- Every stored cell has a content built by `Cell::Set`. -/
def CellsFromSet (L : FormulaLib F AST) (s : Sheet F AST) : Prop :=
  ∀ p c, s.find p = some c → c.cell_value_.FromSet L

/-- Every stored position is a valid position. -/
def StoredValid (s : Sheet F AST) : Prop :=
  ∀ p, (s.find p).isSome = true → p.IsValid = true

/-- The invariant of the reachable sheets: no reference cycle, valid referenced positions,
contents built by `Cell::Set`, valid stored positions. -/
def SheetInv (L : FormulaLib F AST) (s : Sheet F AST) : Prop :=
  Acyclic s ∧ RefsValid s ∧ CellsFromSet L s ∧ StoredValid s

/-- The sheets reached from the empty sheet by calls of `SetCell` and `ClearCell` that
return or throw. -/
inductive Reachable (L : FormulaLib F AST) : Sheet F AST → Prop where
  | empty : Reachable L []
  | setCell {s : Sheet F AST} (fuel : Nat) (pos : Position) (text : String) :
      Reachable L s →
      (SetCell L fuel s pos text).1 ≠ .error .OutOfFuel →
      (SetCell L fuel s pos text).1 ≠ .error .NullDereference →
      Reachable L (SetCell L fuel s pos text).2
  | clearCell {s : Sheet F AST} (pos : Position) :
      Reachable L s → Reachable L (ClearCell s pos).2

end

/-! ## The positions of the scenarios -/

/-- The cell A1. -/
def A1 : Position := ⟨0, 0⟩

/-- The cell B1. -/
def B1 : Position := ⟨0, 1⟩

/-- The cell C1. -/
def C1 : Position := ⟨0, 2⟩

/-- The cell A2. -/
def A2 : Position := ⟨1, 0⟩

/-- The cell B2. -/
def B2 : Position := ⟨1, 1⟩

/-- The cell A3. -/
def A3 : Position := ⟨2, 0⟩

/-- The sheet after `A1 := "=B1"` and `B1 := "=C1"`. -/
def chainSheet : Sheet ℚ PlainAST :=
  (SetCell plainLib 2 (SetCell plainLib 2 [] A1 "=B1").2 B1 "=C1").2

/-- The sheet after `A1 := "=B1"` and `ClearCell(B1)`. -/
def danglingSheet : Sheet ℚ PlainAST :=
  (ClearCell (SetCell plainLib 1 [] A1 "=B1").2 B1).2

/-- The sheet after `A1 := "10"`, `A2 := "=A1+5"` and `A3 := "=A2*2"`. -/
def textChainSheet : Sheet ℚ PlainAST :=
  (SetCell plainLib 2 (SetCell plainLib 2 (SetCell plainLib 2 [] A1 "10").2 A2 "=A1+5").2
    A3 "=A2*2").2

/-- The sheet after `A1 := "=10"`, `A2 := "=A1+5"` and `A3 := "=A2*2"`. -/
def formulaChainSheet : Sheet ℚ PlainAST :=
  (SetCell plainLib 2 (SetCell plainLib 2 (SetCell plainLib 2 [] A1 "=10").2 A2 "=A1+5").2
    A3 "=A2*2").2

/-- The sheet after `A1 := "3.14"`, `A2 := "'hello"`, `B1 := "=A1+1"` and `B2 := "=A2+1"`;
the second text begins with the apostrophe. -/
def coercionSheet : Sheet ℚ PlainAST :=
  (SetCell plainLib 2 (SetCell plainLib 2 (SetCell plainLib 2 (SetCell plainLib 2 [] A1 "3.14").2
    A2 (String.mk (ESCAPE_SIGN :: "hello".data))).2 B1 "=A1+1").2 B2 "=A2+1").2

/-- The sheet after `A1 := "=7"`, `A2 := "=A1"` and a read of the value of A2. -/
def staleSheet : Sheet ℚ PlainAST :=
  (GetValue plainLib 1 (SetCell plainLib 1 (SetCell plainLib 1 [] A1 "=7").2 A2 "=A1").2 A2).2

/-- The printable size in the words of the specification: the rectangle of the positions
whose cell has a non-empty text. -/
def textPrintableSize {F AST : Type} (L : FormulaLib F AST) (s : Sheet F AST) : Size :=
  GetPrintableSize (s.filter (fun e => decide (e.2.GetText L ≠ "")))

/-! ## sheet.cpp: printing the texts -/

section
variable {F AST : Type}

/-- The values of the variable of `for (int i = 0; i < n; ++i)`. -/
def intRange (n : Int) : List Int :=
  (List.range n.toNat).map Int.ofNat

/-- The inner loop of `Sheet::PrintTexts` over the columns still to come; `flag` is the
variable of that name and `output` what the stream holds.  An exception of `GetCell` leaves
the stream as it is. -/
def PrintTextsCols (L : FormulaLib F AST) (s : Sheet F AST) (row : Int) :
    List Int → Bool → String → Except Fault Unit × String
  | [], _, output => (.ok (), output)
  | col :: rest, flag, output =>
    match GetCell s ⟨row, col⟩ with
    | .error e => (.error e, if flag then output.push '\t' else output)
    | .ok none => PrintTextsCols L s row rest true (if flag then output.push '\t' else output)
    | .ok (some cell) =>
      PrintTextsCols L s row rest true
        ((if flag then output.push '\t' else output) ++ cell.GetText L)

/-- The outer loop of `Sheet::PrintTexts` over the rows still to come. -/
def PrintTextsRows (L : FormulaLib F AST) (s : Sheet F AST) (cols : List Int) :
    List Int → String → Except Fault Unit × String
  | [], output => (.ok (), output)
  | row :: rest, output =>
    match PrintTextsCols L s row cols false output with
    | (.error e, o) => (.error e, o)
    | (.ok (), o) => PrintTextsRows L s cols rest (o.push '\n')

/-- The member `Sheet::PrintTexts`: the result and what has been written to the stream. -/
def PrintTexts (L : FormulaLib F AST) (s : Sheet F AST) : Except Fault Unit × String :=
  PrintTextsRows L s (intRange (GetPrintableSize s).cols) (intRange (GetPrintableSize s).rows) ""

/-- The text of a position: `GetText()` of the stored cell, the empty string when no cell is
stored. -/
def textAt (L : FormulaLib F AST) (s : Sheet F AST) (p : Position) : String :=
  match s.find p with
  | some c => c.GetText L
  | none => ""

/-- The output of `PrintTexts` in the words of the specification: for every row of the
printable size the texts of its columns, joined by a tab and followed by a newline. -/
def printedTexts (L : FormulaLib F AST) (s : Sheet F AST) : String :=
  String.join ((intRange (GetPrintableSize s).rows).map (fun row =>
    String.intercalate "\t"
      ((intRange (GetPrintableSize s).cols).map (fun col => textAt L s ⟨row, col⟩)) ++ "\n"))

end

/-- The sheet after `B2 := "hi"`. -/
def hiSheet : Sheet ℚ PlainAST :=
  (SetCell plainLib 0 [] B2 "hi").2

/-- The sheet after `A1 := "=B1"`, `B1 := "=C1"` and `ClearCell(C1)`. -/
def clearedChainSheet : Sheet ℚ PlainAST :=
  (ClearCell chainSheet C1).2

section
variable {F AST : Type}

/-- The sheets reached from the empty sheet by calls of `SetCell` that return or throw and
by reads of the value of a cell, without any call of `ClearCell`. -/
inductive SetReachable (L : FormulaLib F AST) : Sheet F AST → Prop where
  | empty : SetReachable L []
  | setCell {s : Sheet F AST} (fuel : Nat) (pos : Position) (text : String) :
      SetReachable L s →
      (SetCell L fuel s pos text).1 ≠ .error .OutOfFuel →
      SetReachable L (SetCell L fuel s pos text).2
  | getValue {s : Sheet F AST} (fuel : Nat) (pos : Position) :
      SetReachable L s → SetReachable L (GetValue L fuel s pos).2

end

/-! # Properties -/

/-! ## The map: lookup after a change -/

section
variable {F AST : Type}

theorem find_insert_self (s : Sheet F AST) (pos : Position) (c : Cell F AST) :
    (s.insert pos c).find pos = some c := by
  induction s with
  | nil => simp [Sheet.insert, Sheet.find]
  | cons e rest ih =>
    obtain ⟨q, d⟩ := e
    by_cases h1 : q = pos
    · simp [Sheet.insert, Sheet.find, h1]
    · by_cases h2 : pos.lt q = true
      · simp [Sheet.insert, Sheet.find, h1, h2]
      · simp [Sheet.insert, Sheet.find, h1, h2, ih]

theorem find_insert_ne (s : Sheet F AST) (pos p : Position) (c : Cell F AST) (h : p ≠ pos) :
    (s.insert pos c).find p = s.find p := by
  induction s with
  | nil => simp [Sheet.insert, Sheet.find, Ne.symm h]
  | cons e rest ih =>
    obtain ⟨q, d⟩ := e
    by_cases h1 : q = pos
    · subst h1
      simp [Sheet.insert, Sheet.find, Ne.symm h]
    · by_cases h2 : pos.lt q = true
      · simp [Sheet.insert, Sheet.find, h1, h2, Ne.symm h]
      · by_cases h3 : q = p
        · subst h3
          simp [Sheet.insert, Sheet.find, h1, h2]
        · simp [Sheet.insert, Sheet.find, h1, h2, h3, ih]

theorem find_insert (s : Sheet F AST) (pos p : Position) (c : Cell F AST) :
    (s.insert pos c).find p = if p = pos then some c else s.find p := by
  by_cases h : p = pos
  · subst h; simp [find_insert_self]
  · simp [h, find_insert_ne s pos p c h]

theorem find_erase (s : Sheet F AST) (pos p : Position) :
    (s.erase pos).find p = if p = pos then none else s.find p := by
  induction s with
  | nil => simp [Sheet.erase, Sheet.find]
  | cons e rest ih =>
    obtain ⟨q, d⟩ := e
    have hc : Sheet.erase pos ((q, d) :: rest) =
        if q = pos then Sheet.erase pos rest else (q, d) :: Sheet.erase pos rest := by
      by_cases h1 : q = pos <;> simp [Sheet.erase, List.filter, h1]
    rw [hc]
    by_cases h1 : q = pos
    · subst h1
      by_cases h2 : p = q
      · subst h2; simpa [Sheet.find] using ih
      · have h3 : q ≠ p := fun h => h2 h.symm
        simpa [Sheet.find, h2, h3] using ih
    · by_cases h2 : q = p
      · subst h2; simp [Sheet.find, h1]
      · simp [Sheet.find, h1, h2, ih]

theorem find_isSome_iff (s : Sheet F AST) (p : Position) :
    (s.find p).isSome = true ↔ p ∈ s.map Prod.fst := by
  induction s with
  | nil => simp [Sheet.find]
  | cons e rest ih =>
    obtain ⟨q, d⟩ := e
    by_cases h : q = p
    · simp [Sheet.find, h]
    · have h2 : p ≠ q := fun h3 => h h3.symm
      simp [Sheet.find, h, h2, ih]

end

/-! ## Contents up to the cache -/

section
variable {F AST : Type}

theorem refs_ResetCache (i : Impl F AST) :
    i.ResetCache.GetReferencedCells = i.GetReferencedCells := by
  cases i <;> rfl

theorem text_ResetCache (L : FormulaLib F AST) (i : Impl F AST) :
    i.ResetCache.ImplGetText L = i.ImplGetText L := by
  cases i <;> rfl

theorem fromSet_ResetCache (L : FormulaLib F AST) (i : Impl F AST) :
    i.ResetCache.FromSet L ↔ i.FromSet L := by
  cases i <;> exact Iff.rfl

theorem ResetCache_idem (i : Impl F AST) : i.ResetCache.ResetCache = i.ResetCache := by
  cases i <;> rfl

theorem refs_of_ResetCache_eq {i j : Impl F AST} (h : i.ResetCache = j.ResetCache) :
    i.GetReferencedCells = j.GetReferencedCells := by
  rw [← refs_ResetCache i, h, refs_ResetCache]

theorem text_of_ResetCache_eq (L : FormulaLib F AST) {i j : Impl F AST}
    (h : i.ResetCache = j.ResetCache) : i.ImplGetText L = j.ImplGetText L := by
  rw [← text_ResetCache L i, h, text_ResetCache]

theorem fromSet_of_ResetCache_eq (L : FormulaLib F AST) {i j : Impl F AST}
    (h : i.ResetCache = j.ResetCache) (hj : j.FromSet L) : i.FromSet L := by
  rw [← fromSet_ResetCache] at hj ⊢
  rw [h]; exact hj

theorem Keeps.same (s : Sheet F AST) (p : Position) : Keeps s s p := by
  unfold Keeps
  cases h : s.find p with
  | none => exact Or.inr ⟨rfl, Or.inl rfl⟩
  | some c => exact Or.inl ⟨c, c, rfl, rfl, rfl⟩

theorem Keeps.comp {s s1 s2 : Sheet F AST} {p : Position}
    (h1 : Keeps s s1 p) (h2 : Keeps s1 s2 p) : Keeps s s2 p := by
  unfold Keeps at *
  rcases h1 with ⟨c, c1, hc, hc1, he⟩ | ⟨hn, hn1 | ⟨hv, d, hd⟩⟩
  · rcases h2 with ⟨c1', c2, hc1', hc2, he2⟩ | ⟨hn1, _⟩
    · rw [hc1] at hc1'
      cases hc1'
      exact Or.inl ⟨c, c2, hc, hc2, he2.trans he⟩
    · rw [hc1] at hn1; cases hn1
  · rcases h2 with ⟨c1', c2, hc1', _, _⟩ | ⟨_, h⟩
    · rw [hn1] at hc1'; cases hc1'
    · exact Or.inr ⟨hn, h⟩
  · rcases h2 with ⟨c1', c2, hc1', hc2, he2⟩ | ⟨hn1, _⟩
    · rw [hd] at hc1'
      cases hc1'
      refine Or.inr ⟨hn, Or.inr ⟨hv, c2.dependenced_cells_, ?_⟩⟩
      rw [hc2]
      obtain ⟨i2, d2⟩ := c2
      cases i2 <;> simp_all [Impl.ResetCache]
    · rw [hd] at hn1; cases hn1

theorem Keeps.refs_eq {s s1 : Sheet F AST} {p : Position} (h : Keeps s s1 p) :
    refsAt s1 p = refsAt s p := by
  unfold Keeps at h
  rcases h with ⟨c, c1, hc, hc1, he⟩ | ⟨hn, hn1 | ⟨_, d, hd⟩⟩
  · simp only [refsAt, hc, hc1, Cell.GetReferencedCells]
    exact refs_of_ResetCache_eq he
  · simp [refsAt, hn, hn1]
  · simp [refsAt, hn, hd, Cell.GetReferencedCells, Impl.GetReferencedCells]

theorem Keeps.still_stored {s s1 : Sheet F AST} {p : Position} (h : Keeps s s1 p)
    (hp : (s.find p).isSome = true) : (s1.find p).isSome = true := by
  unfold Keeps at h
  rcases h with ⟨c, c1, _, hc1, _⟩ | ⟨hn, _⟩
  · simp [hc1]
  · simp [hn] at hp

/-! ## The reference graph -/

theorem edge_congr {s s1 : Sheet F AST} (h : ∀ p, refsAt s1 p = refsAt s p) :
    edge s1 = edge s := by
  funext p q
  simp only [edge, h]

theorem Acyclic.mono {s s1 : Sheet F AST} (hs : Acyclic s)
    (h : ∀ p q, edge s1 p q → edge s p q) : Acyclic s1 := by
  intro p hp
  exact hs p (Relation.TransGen.mono h hp)

/-- A path to `pos` can be cut at its first visit of `pos`: it then never leaves `pos`. -/
theorem reach_of_agree {E E1 : Position → Position → Prop} {pos : Position}
    (hagree : ∀ a b, a ≠ pos → E1 a b → E a b) {a : Position}
    (h : Relation.ReflTransGen E1 a pos) : Relation.ReflTransGen E a pos := by
  induction h using Relation.ReflTransGen.head_induction_on with
  | refl => exact Relation.ReflTransGen.refl
  | @head a0 c0 hab _ ih =>
    by_cases ha : a0 = pos
    · subst ha; exact Relation.ReflTransGen.refl
    · exact Relation.ReflTransGen.head (hagree _ _ ha hab) ih

/-- Changing the references of one position `pos` of an acyclic graph leaves it acyclic when
`pos` cannot be reached from its new references. -/
theorem acyclic_of_agree {E E1 : Position → Position → Prop} {pos : Position}
    (hagree : ∀ a b, a ≠ pos → E1 a b → E a b)
    (hac : ∀ p, ¬ Relation.TransGen E p p)
    (hnew : ∀ r, E1 pos r → ¬ Relation.ReflTransGen E1 r pos) :
    ∀ p, ¬ Relation.TransGen E1 p p := by
  have key : ∀ a b, Relation.TransGen E1 a b →
      Relation.TransGen E a b ∨
        (Relation.ReflTransGen E1 a pos ∧ ∃ r, E1 pos r ∧ Relation.ReflTransGen E1 r b) := by
    intro a b hab
    induction hab with
    | single h =>
      rename_i b0
      by_cases ha : a = pos
      · subst ha
        exact Or.inr ⟨Relation.ReflTransGen.refl, b0, h, Relation.ReflTransGen.refl⟩
      · exact Or.inl (Relation.TransGen.single (hagree _ _ ha h))
    | tail hac1 hcb ih =>
      rename_i c0 b0
      rcases ih with ih | ⟨h1, r, hr, h2⟩
      · by_cases hc : c0 = pos
        · subst hc
          exact Or.inr ⟨hac1.to_reflTransGen, b0, hcb, Relation.ReflTransGen.refl⟩
        · exact Or.inl (Relation.TransGen.tail ih (hagree _ _ hc hcb))
      · exact Or.inr ⟨h1, r, hr, Relation.ReflTransGen.tail h2 hcb⟩
  intro p hp
  rcases key p p hp with h | ⟨h1, r, hr, h2⟩
  · exact hac p h
  · exact hnew r hr (h2.trans h1)

end

/-! ## `InvalidateCellsByPos` touches caches only -/

section
variable {F AST : Type}

theorem InvalidateCache_idem (c : Cell F AST) :
    c.InvalidateCache.InvalidateCache = c.InvalidateCache := by
  simp [Cell.InvalidateCache, ResetCache_idem]

theorem CacheOnly.same_cache (s : Sheet F AST) : CacheOnly s s := fun _ => rfl

theorem CacheOnly.comp_cache {s s1 s2 : Sheet F AST} (h1 : CacheOnly s s1) (h2 : CacheOnly s1 s2) :
    CacheOnly s s2 := fun p => (h2 p).trans (h1 p)

theorem CacheOnly.insert_invalidate {s : Sheet F AST} {pos : Position} {c : Cell F AST}
    (h : s.find pos = some c) : CacheOnly s (s.insert pos c.InvalidateCache) := by
  intro p
  rw [find_insert]
  by_cases hp : p = pos
  · subst hp; simp [h, InvalidateCache_idem]
  · simp [hp]

theorem CacheOnly.to_keeps {s s1 : Sheet F AST} (h : CacheOnly s s1) (p : Position) :
    Keeps s s1 p := by
  have hp := h p
  unfold Keeps
  cases h0 : s.find p with
  | none =>
    rw [h0] at hp
    cases h1 : s1.find p with
    | none => exact Or.inr ⟨rfl, Or.inl rfl⟩
    | some c1 => rw [h1] at hp; simp at hp
  | some c =>
    rw [h0] at hp
    cases h1 : s1.find p with
    | none => rw [h1] at hp; simp at hp
    | some c1 =>
      rw [h1] at hp
      simp only [Option.map_some', Option.some.injEq] at hp
      refine Or.inl ⟨c, c1, rfl, rfl, ?_⟩
      exact congrArg Cell.cell_value_ hp

theorem CacheOnly.find_none {s s1 : Sheet F AST} (h : CacheOnly s s1) (p : Position) :
    s1.find p = none ↔ s.find p = none := by
  have hp := h p
  cases h0 : s.find p <;> cases h1 : s1.find p <;> simp_all

theorem CacheOnly.text (L : FormulaLib F AST) {s s1 : Sheet F AST} (h : CacheOnly s s1)
    (p : Position) : (s1.find p).map (Cell.GetText L) = (s.find p).map (Cell.GetText L) := by
  have hp := h p
  cases h0 : s.find p with
  | none => rw [(h.find_none p).2 h0]
  | some c =>
    cases h1 : s1.find p with
    | none => rw [(h.find_none p).1 h1] at h0; cases h0
    | some c1 =>
      rw [h0, h1] at hp
      simp only [Option.map_some', Option.some.injEq] at hp ⊢
      have := congrArg Cell.cell_value_ hp
      exact text_of_ResetCache_eq L this

theorem InvalidateLoop_cacheOnly
    {recur : Sheet F AST → Position → Except Fault Unit × Sheet F AST}
    (hrec : ∀ s pos, CacheOnly s (recur s pos).2) :
    ∀ (refs : List Position) (s : Sheet F AST), CacheOnly s (InvalidateLoop recur refs s).2 := by
  intro refs
  induction refs with
  | nil => intro s; exact CacheOnly.same_cache s
  | cons cell_pos rest ih =>
    intro s
    unfold InvalidateLoop
    split
    · split
      · exact CacheOnly.same_cache s
      · rename_i cell hcell
        have h1 := CacheOnly.insert_invalidate hcell
        have h2 := hrec (s.insert cell_pos cell.InvalidateCache) cell_pos
        split
        · rename_i s2 heq
          rw [heq] at h2
          exact (h1.comp_cache h2).comp_cache (ih s2)
        · rename_i e s2 heq
          rw [heq] at h2
          exact h1.comp_cache h2
    · exact CacheOnly.same_cache s

theorem InvalidateCellsByPos_cacheOnly (n : Nat) :
    ∀ (s : Sheet F AST) (pos : Position), CacheOnly s (InvalidateCellsByPos n s pos).2 := by
  induction n with
  | zero => intro s pos; exact CacheOnly.same_cache s
  | succ n ih =>
    intro s pos
    unfold InvalidateCellsByPos
    exact InvalidateLoop_cacheOnly ih _ s

end

/-! ## The search of `hasCircularDependency` -/

section
variable {F AST : Type}

theorem Ext.same_ext (pos : Position) (s : Sheet F AST) : Ext pos s s := fun _ => Or.inl rfl

theorem Ext.comp_ext {pos : Position} {s s1 s2 : Sheet F AST} (h1 : Ext pos s s1)
    (h2 : Ext pos s1 s2) : Ext pos s s2 := by
  intro p
  rcases h2 p with h | ⟨hp, hv, hn, he⟩
  · rcases h1 p with h0 | ⟨hp, hv, hn, he⟩
    · exact Or.inl (h.trans h0)
    · exact Or.inr ⟨hp, hv, hn, h.trans he⟩
  · rcases h1 p with h0 | ⟨_, _, _, he0⟩
    · exact Or.inr ⟨hp, hv, h0 ▸ hn, he⟩
    · rw [he0] at hn; cases hn

theorem Ext.insert_empty {pos q : Position} {s : Sheet F AST} (hq : q ≠ pos)
    (hv : q.IsValid = true) (hn : s.find q = none) : Ext pos s (s.insert q emptyCell) := by
  intro p
  rw [find_insert]
  by_cases hp : p = q
  · subst hp; exact Or.inr ⟨hq, hv, hn, by simp⟩
  · exact Or.inl (by simp [hp])

theorem Ext.refsAt_eq {pos : Position} {s s1 : Sheet F AST} (h : Ext pos s s1) (p : Position) :
    refsAt s1 p = refsAt s p := by
  rcases h p with h | ⟨_, _, hn, he⟩
  · simp [refsAt, h]
  · simp [refsAt, hn, he, emptyCell, Cell.GetReferencedCells, Impl.GetReferencedCells]

theorem Ext.edge_eq {pos : Position} {s s1 : Sheet F AST} (h : Ext pos s s1) :
    edge s1 = edge s := edge_congr h.refsAt_eq

theorem Ext.stored {pos : Position} {s s1 : Sheet F AST} (h : Ext pos s s1) {p : Position}
    (hp : (s.find p).isSome = true) : (s1.find p).isSome = true := by
  rcases h p with h | ⟨_, _, _, he⟩
  · rw [h]; exact hp
  · simp [he]

theorem Ext.find_pos {pos : Position} {s s1 : Sheet F AST} (h : Ext pos s s1) :
    s1.find pos = s.find pos := by
  rcases h pos with h | ⟨hp, _⟩
  · exact h
  · exact absurd rfl hp

theorem Ext.keeps {pos : Position} {s s1 : Sheet F AST} (h : Ext pos s s1) (p : Position) :
    Keeps s s1 p := by
  rcases h p with h | ⟨_, hv, hn, he⟩
  · rw [Keeps, h]; exact Keeps.same s p
  · exact Or.inr ⟨hn, Or.inr ⟨hv, [], he⟩⟩

theorem RefsValid.ext {pos : Position} {s s1 : Sheet F AST} (h : Ext pos s s1)
    (hs : RefsValid s) : RefsValid s1 := by
  intro p q hpq
  rw [h.edge_eq] at hpq
  exact hs p q hpq

end

section
variable {F AST : Type}

theorem hasCircularLoop_post
    {setCell : Sheet F AST → Position → String → Except Fault Unit × Sheet F AST}
    {recur : List Position → Sheet F AST → Except Fault Bool × Sheet F AST}
    (main_cell : Option Position) (pos : Position)
    (hset : ∀ s q, q.IsValid = true → s.find q = none →
      setCell s q "" = (.ok (), s.insert q emptyCell) ∨
        setCell s q "" = (.error .OutOfFuel, s))
    (hrec : ∀ refs s, DfsPost pos refs s (recur refs s)) :
    ∀ (refs : List Position) (s : Sheet F AST),
      DfsPost pos refs s (hasCircularLoop setCell recur main_cell pos refs s) := by
  intro refs
  induction refs with
  | nil =>
    intro s
    refine ⟨Ext.same_ext pos s, Or.inr (Or.inl rfl), ?_⟩
    intro _ x hx
    cases hx
  | cons cell_pos rest ih =>
    intro s
    unfold hasCircularLoop
    by_cases hv : cell_pos.IsValid = true
    swap
    · simp only [hv, if_false]
      refine ⟨Ext.same_ext _ s, Or.inr (Or.inr (Or.inr ⟨rfl, ?_⟩)), fun h => by cases h⟩
      intro h
      exact hv (h.1 cell_pos (List.mem_cons_self _ _))
    simp only [hv, if_true]
    by_cases hpos : pos = cell_pos
    · simp only [hpos, if_true]
      exact ⟨Ext.same_ext _ s, Or.inl rfl, fun h => by cases h⟩
    · simp only [hpos, if_false]
      -- the state after the missing cell has been stored
      have hmat : ∃ s1, Ext pos s s1 ∧
          (((match s.find cell_pos with
               | some _ => (Except.ok (), s)
               | none => setCell s cell_pos "") = (Except.ok (), s1) ∧
              (s1.find cell_pos).isSome = true) ∨
           ((match s.find cell_pos with
               | some _ => (Except.ok (), s)
               | none => setCell s cell_pos "") = (Except.error Fault.OutOfFuel, s1))) := by
        cases hf : s.find cell_pos with
        | some c => exact ⟨s, Ext.same_ext _ s, Or.inl ⟨rfl, by simp [hf]⟩⟩
        | none =>
          rcases hset s cell_pos hv hf with h | h
          · exact ⟨_, Ext.insert_empty (Ne.symm hpos) hv hf,
              Or.inl ⟨h, by simp [find_insert_self]⟩⟩
          · exact ⟨s, Ext.same_ext _ s, Or.inr h⟩
      obtain ⟨s1, hext1, hcase⟩ := hmat
      rcases hcase with ⟨heq, hstored⟩ | heq
      · rw [heq]
        simp only
        cases hf1 : s1.find cell_pos with
        | none => simp [hf1] at hstored
        | some ref_cell =>
          simp only
          by_cases hmain : main_cell = some cell_pos
          · simp only [hmain, if_true]
            exact ⟨hext1, Or.inl rfl, fun h => by cases h⟩
          · simp only [hmain, if_false]
            have hrv : RefsValid s → (∀ q ∈ ref_cell.GetReferencedCells, q.IsValid = true) ∧
                RefsValid s1 := by
              intro hs
              have hs1 : RefsValid s1 := RefsValid.ext hext1 hs
              refine ⟨?_, hs1⟩
              intro q hq
              apply hs1 cell_pos q
              simp [edge, refsAt, hf1, hq]
            obtain ⟨hext2, hres2, hsound2⟩ := hrec ref_cell.GetReferencedCells s1
            generalize hgen : recur ref_cell.GetReferencedCells s1 = res2 at hext2 hres2 hsound2
            obtain ⟨r2, s2⟩ := res2
            simp only at hext2 hres2 hsound2
            rcases hres2 with h | h | h | ⟨h, hinv⟩
            · subst h
              exact ⟨hext1.comp_ext hext2, Or.inl rfl, fun h => by cases h⟩
            · subst h
              simp only
              obtain ⟨hext3, hres3, hsound3⟩ := ih s2
              refine ⟨(hext1.comp_ext hext2).comp_ext hext3, ?_, ?_⟩
              · rcases hres3 with h | h | h | ⟨h, hinv⟩
                · exact Or.inl h
                · exact Or.inr (Or.inl h)
                · exact Or.inr (Or.inr (Or.inl h))
                · refine Or.inr (Or.inr (Or.inr ⟨h, ?_⟩))
                  intro hall
                  apply hinv
                  exact ⟨fun q hq => hall.1 q (List.mem_cons_of_mem _ hq),
                    RefsValid.ext hext2 (hrv hall.2).2⟩
              · intro hfalse x hx q hxq
                rcases List.mem_cons.1 hx with hx | hx
                · subst hx
                  -- paths from the cell just searched
                  have hedge : edge
                      (hasCircularLoop setCell recur main_cell pos rest s2).2 = edge s2 :=
                    hext3.edge_eq
                  rw [hedge] at hxq
                  have hq : q ≠ pos ∧ (s2.find q).isSome = true := by
                    rcases Relation.ReflTransGen.cases_head hxq with hxq | ⟨y, hxy, hyq⟩
                    · subst hxq
                      exact ⟨Ne.symm hpos, hext2.stored hstored⟩
                    · apply hsound2 rfl y _ q hyq
                      have hxy1 : y ∈ refsAt s2 x := hxy
                      rw [hext2.refsAt_eq x] at hxy1
                      simpa [refsAt, hf1] using hxy1
                  exact ⟨hq.1, hext3.stored hq.2⟩
                · exact hsound3 hfalse x hx q hxq
            · subst h
              exact ⟨hext1.comp_ext hext2, Or.inr (Or.inr (Or.inl rfl)), fun h => by cases h⟩
            · subst h
              refine ⟨hext1.comp_ext hext2, Or.inr (Or.inr (Or.inr ⟨rfl, ?_⟩)),
                fun h => by cases h⟩
              intro hall
              exact hinv (hrv hall.2)
      · rw [heq]
        exact ⟨hext1, Or.inr (Or.inr (Or.inl rfl)), fun h => by cases h⟩

end

section
variable {F AST : Type}

theorem hasCircularDependency_nil (L : FormulaLib F AST) (n : Nat) (main_cell : Option Position)
    (pos : Position) (s : Sheet F AST) :
    hasCircularDependency L n [] main_cell pos s = (.ok false, s) := by
  cases n <;> rfl

/-- The call `sheet_.SetCell(cell_pos, "")` on an absent valid position stores the empty
cell. -/
theorem SetCell_empty_absent (L : FormulaLib F AST) (n : Nat) (s : Sheet F AST) (q : Position)
    (hv : q.IsValid = true) (hn : s.find q = none) :
    SetCellWith L (hasCircularDependency L n) (InvalidateCellsByPos n) s q "" =
      (.ok (), s.insert q emptyCell) := by
  simp [SetCellWith, hv, hn, Cell.new, Cell.Set, hasCircularDependency_nil,
    Cell.GetReferencedCells, Impl.GetReferencedCells, Cell.addReferenced, emptyCell]

theorem hasCircularDependency_post (L : FormulaLib F AST) (n : Nat) :
    ∀ (main_cell : Option Position) (pos : Position) (refs : List Position) (s : Sheet F AST),
      DfsPost pos refs s (hasCircularDependency L n refs main_cell pos s) := by
  induction n with
  | zero =>
    intro main_cell pos refs s
    unfold hasCircularDependency
    apply hasCircularLoop_post main_cell pos _ _ refs s
    · intro s q _ _; exact Or.inr rfl
    · intro refs s
      exact ⟨Ext.same_ext _ s, Or.inr (Or.inr (Or.inl rfl)), fun h => by cases h⟩
  | succ n ih =>
    intro main_cell pos refs s
    unfold hasCircularDependency
    apply hasCircularLoop_post main_cell pos _ _ refs s
    · intro s q hq hn; exact Or.inl (SetCell_empty_absent L n s q hq hn)
    · intro refs s
      exact ih main_cell pos refs s

end

/-! ## `Cell::Set` -/

section
variable {F AST : Type}

theorem mem_setInsert {p q : Position} {l : List Position} (h : q ∈ setInsert p l) :
    q = p ∨ q ∈ l := by
  induction l with
  | nil => simpa [setInsert] using h
  | cons a l ih =>
    unfold setInsert at h
    split at h
    · rcases List.mem_cons.1 h with h | h
      · exact Or.inl h
      · exact Or.inr h
    · split at h
      · rcases List.mem_cons.1 h with h | h
        · exact Or.inr (h ▸ List.mem_cons_self _ _)
        · rcases ih h with h | h
          · exact Or.inl h
          · exact Or.inr (List.mem_cons_of_mem _ h)
      · exact Or.inr h

theorem mem_foldl_setInsert {q : Position} (l acc : List Position)
    (h : q ∈ l.foldl (fun acc p => setInsert p acc) acc) : q ∈ acc ∨ q ∈ l := by
  induction l generalizing acc with
  | nil => exact Or.inl h
  | cons a l ih =>
    rcases ih _ h with h | h
    · rcases mem_setInsert h with h | h
      · exact Or.inr (h ▸ List.mem_cons_self _ _)
      · exact Or.inl h
    · exact Or.inr (List.mem_cons_of_mem _ h)

theorem mem_of_mem_toSet {q : Position} {l : List Position} (h : q ∈ toSet l) : q ∈ l := by
  rcases mem_foldl_setInsert l [] h with h | h
  · cases h
  · exact h

theorem ParseFormula_some {L : FormulaLib F AST} {e : String} {f : Formula AST}
    (h : ParseFormula L e = some f) :
    ∃ a, L.ParseFormulaAST e = some a ∧ f = ⟨a, L.GetCells a⟩ := by
  unfold ParseFormula at h
  split at h
  · rename_i a ha
    exact ⟨a, ha, by cases h; rfl⟩
  · cases h

/-- What `Set` returns: the three kinds of content. -/
theorem Cell.Set_ok {L : FormulaLib F AST} {c c1 : Cell F AST} {text : String}
    (h : Cell.Set L c text = .ok c1) :
    c1.dependenced_cells_ = c.dependenced_cells_ ∧
    ((text.data = [] ∧ c1.cell_value_ = .EmptyImpl) ∨
     (∃ ch rest, text.data = ch :: rest ∧ (ch ≠ FORMULA_SIGN ∨ rest = []) ∧
        c1.cell_value_ = .TextImpl text) ∨
     (∃ rest f, text.data = FORMULA_SIGN :: rest ∧ rest ≠ [] ∧
        ParseFormula L (String.mk rest) = some f ∧ c1.cell_value_ = .FormulaImpl f none)) := by
  unfold Cell.Set at h
  split at h
  · rename_i hd
    cases h
    exact ⟨rfl, Or.inl ⟨hd, rfl⟩⟩
  · rename_i ch rest hd
    split at h
    · rename_i hc
      cases h
      refine ⟨rfl, Or.inr (Or.inl ⟨ch, rest, hd, ?_, rfl⟩)⟩
      rcases hc with hc | hc
      · exact Or.inl hc
      · exact Or.inr hc.2
    · rename_i hc
      have hc1 : ch = FORMULA_SIGN := by
        by_contra hne
        exact hc (Or.inl hne)
      have hc2 : rest ≠ [] := by
        intro hr
        exact hc (Or.inr ⟨hc1, hr⟩)
      split at h
      · rename_i f hf
        cases h
        exact ⟨rfl, Or.inr (Or.inr ⟨rest, f, by rw [hd, hc1], hc2, hf, rfl⟩)⟩
      · cases h

theorem Cell.Set_fromSet {L : FormulaLib F AST} {c c1 : Cell F AST} {text : String}
    (h : Cell.Set L c text = .ok c1) : c1.cell_value_.FromSet L := by
  rcases (Cell.Set_ok h).2 with ⟨_, h⟩ | ⟨ch, rest, hd, hc, h⟩ | ⟨rest, f, _, _, hf, h⟩
  · rw [h]; trivial
  · rw [h]; exact ⟨ch, rest, hd, hc⟩
  · rw [h]; exact ⟨_, hf⟩

theorem Cell.Set_refs_valid {L : FormulaLib F AST} (hL : LibCellsValid L)
    {c c1 : Cell F AST} {text : String} (h : Cell.Set L c text = .ok c1) :
    ∀ q ∈ c1.GetReferencedCells, q.IsValid = true := by
  intro q hq
  unfold Cell.GetReferencedCells at hq
  rcases (Cell.Set_ok h).2 with ⟨_, h⟩ | ⟨ch, rest, hd, hc, h⟩ | ⟨rest, f, _, _, hf, h⟩
  · rw [h] at hq; cases hq
  · rw [h] at hq; cases hq
  · rw [h] at hq
    obtain ⟨a, ha, hfa⟩ := ParseFormula_some hf
    subst hfa
    exact hL _ a ha q (mem_of_mem_toSet hq)

/-- Setting the text of a content built by `Set` builds a content with the same text and no
further referenced cell. -/
theorem Cell.Set_GetText {L : FormulaLib F AST} (hL : LibReparses L) (i : Impl F AST)
    (hi : i.FromSet L) (c : Cell F AST) :
    ∃ c1, Cell.Set L c (i.ImplGetText L) = .ok c1 ∧
      c1.cell_value_.ImplGetText L = i.ImplGetText L ∧
      (∀ q ∈ c1.GetReferencedCells, q ∈ i.GetReferencedCells) := by
  cases i with
  | EmptyImpl =>
    exact ⟨{ c with cell_value_ := .EmptyImpl }, rfl, rfl, fun q hq => hq⟩
  | TextImpl t =>
    obtain ⟨ch, rest, hd, hc⟩ := hi
    refine ⟨{ c with cell_value_ := .TextImpl t }, ?_, rfl, fun q hq => hq⟩
    simp only [Impl.ImplGetText, Cell.Set, hd]
    rcases hc with hc | hc
    · simp [hc]
    · simp [hc]
  | FormulaImpl f cache =>
    obtain ⟨e, he⟩ := hi
    obtain ⟨a, ha, hfa⟩ := ParseFormula_some he
    subst hfa
    obtain ⟨a1, ha1, hcells, hprint⟩ := hL e a ha
    by_cases hr : (L.PrintFormula a).data = []
    · refine ⟨{ c with cell_value_ := .TextImpl (String.mk [FORMULA_SIGN]) }, ?_, ?_, ?_⟩
      · simp [Impl.ImplGetText, Cell.Set, Formula.GetExpression, hr]
      · simp [Impl.ImplGetText, Formula.GetExpression, hr]
      · intro q hq; cases hq
    · refine ⟨{ c with cell_value_ := .FormulaImpl ⟨a1, L.GetCells a1⟩ none }, ?_, ?_, ?_⟩
      · simp [Impl.ImplGetText, Cell.Set, Formula.GetExpression, hr, ParseFormula, ha1]
      · simp [Impl.ImplGetText, Formula.GetExpression, hprint]
      · intro q hq
        simpa [Cell.GetReferencedCells, Impl.GetReferencedCells, Formula.GetReferencedCells,
          hcells] using hq

end

/-! ## The invariant of the sheet -/

section
variable {F AST : Type}

theorem refsAt_insert (s : Sheet F AST) (pos p : Position) (c : Cell F AST) :
    refsAt (s.insert pos c) p = if p = pos then c.GetReferencedCells else refsAt s p := by
  unfold refsAt
  rw [find_insert]
  by_cases h : p = pos <;> simp [h]

theorem Keeps.fromSet {L : FormulaLib F AST} {s s1 : Sheet F AST} {p : Position}
    (h : Keeps s s1 p) (hs : CellsFromSet L s) {c1 : Cell F AST} (hc1 : s1.find p = some c1) :
    c1.cell_value_.FromSet L := by
  rcases h with ⟨c, c1', hc, hc1', he⟩ | ⟨_, hn1 | ⟨_, d, hd⟩⟩
  · rw [hc1] at hc1'
    cases hc1'
    exact fromSet_of_ResetCache_eq L he (hs p c hc)
  · rw [hc1] at hn1; cases hn1
  · rw [hc1] at hd
    cases hd
    trivial

theorem Keeps.valid {s s1 : Sheet F AST} {p : Position} (h : Keeps s s1 p)
    (hs : StoredValid s) (hp : (s1.find p).isSome = true) : p.IsValid = true := by
  rcases h with ⟨c, _, hc, _, _⟩ | ⟨_, hn1 | ⟨hv, _⟩⟩
  · exact hs p (by simp [hc])
  · simp [hn1] at hp
  · exact hv

/-- The invariant survives a change that keeps every position but the valid position `pos`
and leaves at `pos` a content built by `Set` that references no further cell. -/
theorem SheetInv.of_keeps_off {L : FormulaLib F AST} {s s1 : Sheet F AST} {pos : Position}
    (h : SheetInv L s) (hpos : pos.IsValid = true) (hk : ∀ p, p ≠ pos → Keeps s s1 p)
    (hrefs : ∀ q ∈ refsAt s1 pos, q ∈ refsAt s pos)
    (hfs : ∀ c, s1.find pos = some c → c.cell_value_.FromSet L) : SheetInv L s1 := by
  obtain ⟨hac, hrv, hcs, hsv⟩ := h
  have hsub : ∀ p q, edge s1 p q → edge s p q := by
    intro p q hpq
    by_cases hp : p = pos
    · subst hp; exact hrefs q hpq
    · unfold edge at hpq ⊢
      rw [← (hk p hp).refs_eq]; exact hpq
  refine ⟨hac.mono hsub, fun p q hpq => hrv p q (hsub p q hpq), ?_, ?_⟩
  · intro p c hc
    by_cases hp : p = pos
    · subst hp; exact hfs c hc
    · exact (hk p hp).fromSet hcs hc
  · intro p hp
    by_cases hpp : p = pos
    · subst hpp; exact hpos
    · exact (hk p hpp).valid hsv hp

theorem SheetInv.of_keeps {L : FormulaLib F AST} {s s1 : Sheet F AST}
    (h : SheetInv L s) (hk : ∀ p, Keeps s s1 p) : SheetInv L s1 := by
  obtain ⟨hac, hrv, hcs, hsv⟩ := h
  have hsub : ∀ p q, edge s1 p q → edge s p q := by
    intro p q hpq
    unfold edge at hpq ⊢
    rw [← (hk p).refs_eq]; exact hpq
  exact ⟨hac.mono hsub, fun p q hpq => hrv p q (hsub p q hpq),
    fun p c hc => (hk p).fromSet hcs hc, fun p hp => (hk p).valid hsv hp⟩

/-- The invariant survives storing at the valid position `pos` a content built by `Set` from
whose referenced cells `pos` cannot be reached. -/
theorem SheetInv.insert_new {L : FormulaLib F AST} {s s4 : Sheet F AST} {pos : Position}
    {c : Cell F AST} (h : SheetInv L s) (hpos : pos.IsValid = true)
    (hk : ∀ p, p ≠ pos → Keeps s s4 p)
    (hc : c.cell_value_.FromSet L) (hcv : ∀ q ∈ c.GetReferencedCells, q.IsValid = true)
    (hsound : ∀ x ∈ c.GetReferencedCells, ¬ Relation.ReflTransGen (edge s4) x pos) :
    SheetInv L (s4.insert pos c) := by
  obtain ⟨hac, hrv, hcs, hsv⟩ := h
  have hoff : ∀ a b, a ≠ pos → edge (s4.insert pos c) a b → edge s4 a b := by
    intro a b ha hab
    unfold edge at hab ⊢
    rw [refsAt_insert] at hab
    simpa [ha] using hab
  have hagree : ∀ a b, a ≠ pos → edge (s4.insert pos c) a b → edge s a b := by
    intro a b ha hab
    have := hoff a b ha hab
    unfold edge at this ⊢
    rw [← (hk a ha).refs_eq]; exact this
  have hat : ∀ r, edge (s4.insert pos c) pos r → r ∈ c.GetReferencedCells := by
    intro r hr
    unfold edge at hr
    rw [refsAt_insert] at hr
    simpa using hr
  refine ⟨?_, ?_, ?_, ?_⟩
  · apply acyclic_of_agree hagree hac
    intro r hr hreach
    exact hsound r (hat r hr) (reach_of_agree hoff hreach)
  · intro p q hpq
    by_cases hp : p = pos
    · subst hp; exact hcv q (hat q hpq)
    · exact hrv p q (hagree p q hp hpq)
  · intro p c1 hc1
    rw [find_insert] at hc1
    by_cases hp : p = pos
    · simp only [hp, if_true, Option.some.injEq] at hc1
      subst hc1; exact hc
    · simp only [hp, if_false] at hc1
      exact (hk p hp).fromSet hcs hc1
  · intro p hp
    by_cases hpp : p = pos
    · subst hpp; exact hpos
    · rw [find_insert_ne _ _ _ _ hpp] at hp
      exact (hk p hpp).valid hsv hp

end

section
variable {F AST : Type}

theorem addReferenced_value (c : Cell F AST) :
    c.addReferenced.cell_value_ = c.cell_value_ := by
  unfold Cell.addReferenced
  generalize c.GetReferencedCells = l
  induction l generalizing c with
  | nil => rfl
  | cons a l ih => simp only [List.foldl_cons]; rw [ih]; rfl

theorem addReferenced_refs (c : Cell F AST) :
    c.addReferenced.GetReferencedCells = c.GetReferencedCells := by
  unfold Cell.GetReferencedCells
  rw [addReferenced_value]

theorem Keeps.insert_same {s : Sheet F AST} {pos : Position} {c : Cell F AST}
    (c1 : Cell F AST) (hc : s.find pos = some c) (he : c1.cell_value_.ResetCache = c.cell_value_.ResetCache)
    (p : Position) : Keeps s (s.insert pos c1) p := by
  by_cases hp : p = pos
  · subst hp
    exact Or.inl ⟨c, c1, hc, find_insert_self _ _ _, he⟩
  · rw [Keeps, find_insert_ne _ _ _ _ hp]
    exact Keeps.same s p

theorem Keeps.insert_off {s s1 : Sheet F AST} {pos p : Position} (c : Cell F AST)
    (hp : p ≠ pos) (h : Keeps s s1 p) : Keeps s (s1.insert pos c) p := by
  rw [Keeps, find_insert_ne _ _ _ _ hp]
  exact h

theorem SetCell_inv (L : FormulaLib F AST) (hV : LibCellsValid L) (hR : LibReparses L)
    (n : Nat) (s : Sheet F AST) (pos : Position) (text : String) (h : SheetInv L s)
    (hfuel : (SetCell L n s pos text).1 ≠ .error .OutOfFuel) :
    SheetInv L (SetCell L n s pos text).2 := by
  unfold SetCell SetCellWith at hfuel ⊢
  by_cases hv : pos.IsValid = true
  swap
  · simp only [hv]; exact h
  simp only [hv, if_true] at hfuel ⊢
  cases hfind : s.find pos with
  | none =>
    simp only [hfind] at hfuel ⊢
    cases hnew : Cell.new L text with
    | error e => exact h
    | ok tmp =>
      simp only [hnew] at hfuel ⊢
      obtain ⟨hext, hres, hsound⟩ :=
        hasCircularDependency_post L n none pos tmp.GetReferencedCells s
      generalize hasCircularDependency L n tmp.GetReferencedCells none pos s = res
        at hext hres hsound hfuel ⊢
      obtain ⟨r, s1⟩ := res
      simp only at hext hres hsound hfuel ⊢
      rcases hres with hr | hr | hr | ⟨hr, hinv⟩
      · subst hr
        exact h.of_keeps hext.keeps
      · subst hr
        apply SheetInv.insert_new h hv (fun p _ => hext.keeps p)
        · rw [addReferenced_value]; exact Cell.Set_fromSet hnew
        · rw [addReferenced_refs]; exact Cell.Set_refs_valid hV hnew
        · rw [addReferenced_refs]
          intro x hx hreach
          exact (hsound rfl x hx pos hreach).1 rfl
      · subst hr; exact absurd rfl hfuel
      · subst hr
        exact absurd ⟨Cell.Set_refs_valid hV hnew, h.2.1⟩ hinv
  | some existing_cell =>
    simp only [hfind] at hfuel ⊢
    by_cases htext : existing_cell.GetText L = text
    · simp only [htext, if_true]; exact h
    simp only [htext, if_false] at hfuel ⊢
    have hco := InvalidateCellsByPos_cacheOnly n s pos
    generalize InvalidateCellsByPos n s pos = ri at hco hfuel ⊢
    obtain ⟨r1, s1⟩ := ri
    simp only at hco
    cases r1 with
    | error e => exact h.of_keeps hco.to_keeps
    | ok u =>
      simp only at hfuel ⊢
      -- the cell at pos after the invalidation
      obtain ⟨c1, hc1, he1⟩ : ∃ c1, s1.find pos = some c1 ∧
          c1.cell_value_.ResetCache = existing_cell.cell_value_.ResetCache := by
        rcases hco.to_keeps pos with ⟨c, c1, hc, hc1, he⟩ | ⟨hn, _⟩
        · rw [hfind] at hc; cases hc; exact ⟨c1, hc1, he⟩
        · rw [hfind] at hn; cases hn
      have hcell : s1.cellAt pos existing_cell = c1 := by simp [Sheet.cellAt, hc1]
      rw [hcell] at hfuel ⊢
      have hk2 : ∀ p, Keeps s (s1.insert pos c1.DeleteDependencedCells) p := by
        intro p
        exact (hco.to_keeps p).comp (Keeps.insert_same c1.DeleteDependencedCells hc1 rfl p)
      cases hset : c1.DeleteDependencedCells.Set L text with
      | error e => exact h.of_keeps hk2
      | ok c3 =>
        simp only [hset] at hfuel ⊢
        have hk3 : ∀ p, p ≠ pos →
            Keeps s ((s1.insert pos c1.DeleteDependencedCells).insert pos c3) p :=
          fun p hp => (hk2 p).insert_off c3 hp
        obtain ⟨hext, hres, hsound⟩ :=
          hasCircularDependency_post L n (some pos) pos c3.GetReferencedCells
            ((s1.insert pos c1.DeleteDependencedCells).insert pos c3)
        generalize hasCircularDependency L n c3.GetReferencedCells (some pos) pos
          ((s1.insert pos c1.DeleteDependencedCells).insert pos c3) = res
          at hext hres hsound hfuel ⊢
        obtain ⟨r, s4⟩ := res
        simp only at hext hres hsound hfuel ⊢
        have hk4 : ∀ p, p ≠ pos → Keeps s s4 p := fun p hp => (hk3 p hp).comp (hext.keeps p)
        have hc4 : s4.find pos = some c3 := by
          rw [hext.find_pos, find_insert_self]
        have hcell4 : s4.cellAt pos c3 = c3 := by simp [Sheet.cellAt, hc4]
        have hs3 : RefsValid ((s1.insert pos c1.DeleteDependencedCells).insert pos c3) := by
          intro p q hpq
          unfold edge at hpq
          rw [refsAt_insert] at hpq
          by_cases hp : p = pos
          · simp only [hp, if_true] at hpq
            exact Cell.Set_refs_valid hV hset q hpq
          · simp only [hp, if_false] at hpq
            rw [(hk2 p).refs_eq] at hpq
            exact h.2.1 p q hpq
        rcases hres with hr | hr | hr | ⟨hr, hinv⟩
        · subst hr
          simp only [hcell4] at hfuel ⊢
          obtain ⟨c5, hc5, _, hrefs5⟩ :=
            Cell.Set_GetText hR existing_cell.cell_value_ (h.2.2.1 pos _ hfind) c3
          have hc5' : c3.Set L (existing_cell.GetText L) = .ok c5 := hc5
          simp only [hc5']
          apply h.of_keeps_off hv (fun p hp => (hk4 p hp).insert_off c5 hp)
          · intro q hq
            rw [refsAt_insert] at hq
            simp only [if_true] at hq
            simpa [refsAt, hfind] using hrefs5 q hq
          · intro c hc
            rw [find_insert_self] at hc
            cases hc
            exact Cell.Set_fromSet hc5
        · subst hr
          simp only [hcell4]
          apply SheetInv.insert_new h hv hk4
          · rw [addReferenced_value]; exact Cell.Set_fromSet hset
          · rw [addReferenced_refs]; exact Cell.Set_refs_valid hV hset
          · rw [addReferenced_refs]
            intro x hx hreach
            exact (hsound rfl x hx pos hreach).1 rfl
        · subst hr; exact absurd rfl hfuel
        · subst hr
          exact absurd ⟨Cell.Set_refs_valid hV hset, hs3⟩ hinv

theorem SheetInv.empty (L : FormulaLib F AST) : SheetInv L ([] : Sheet F AST) := by
  refine ⟨?_, ?_, ?_, ?_⟩
  · intro p hp
    rcases Relation.TransGen.head'_iff.1 hp with ⟨q, hq, _⟩
    simp [edge, refsAt, Sheet.find] at hq
  · intro p q hpq
    simp [edge, refsAt, Sheet.find] at hpq
  · intro p c hc
    simp [Sheet.find] at hc
  · intro p hp
    simp [Sheet.find] at hp

theorem ClearCell_inv (L : FormulaLib F AST) (s : Sheet F AST) (pos : Position)
    (h : SheetInv L s) : SheetInv L (ClearCell s pos).2 := by
  unfold ClearCell
  split
  · split
    · simp only
      obtain ⟨hac, hrv, hcs, hsv⟩ := h
      have hsub : ∀ p q, edge (s.erase pos) p q → edge s p q := by
        intro p q hpq
        unfold edge refsAt at hpq ⊢
        rw [find_erase] at hpq
        by_cases hp : p = pos
        · simp [hp] at hpq
        · simpa [hp] using hpq
      refine ⟨hac.mono hsub, fun p q hpq => hrv p q (hsub p q hpq), ?_, ?_⟩
      · intro p c hc
        rw [find_erase] at hc
        by_cases hp : p = pos
        · simp [hp] at hc
        · simp only [hp, if_false] at hc
          exact hcs p c hc
      · intro p hp
        rw [find_erase] at hp
        by_cases hpp : p = pos
        · simp [hpp] at hp
        · simp only [hpp, if_false] at hp
          exact hsv p hp
    · exact h
  · exact h

theorem Reachable.inv {L : FormulaLib F AST} (hV : LibCellsValid L) (hR : LibReparses L)
    {s : Sheet F AST} (h : Reachable L s) : SheetInv L s := by
  induction h with
  | empty => exact SheetInv.empty L
  | setCell fuel pos text _ hfuel _ ih => exact SetCell_inv L hV hR fuel _ pos text ih hfuel
  | clearCell pos _ ih => exact ClearCell_inv L _ pos ih

end

/-! ## The collaborator on the expressions without brackets keeps the parser contracts -/

theorem plainLib_cellsValid : LibCellsValid plainLib := by
  intro e a _ p hp
  have hatom : ∀ (x : Atom), ∀ q ∈ x.cells, q.IsValid = true := by
    intro x q hq
    cases x with
    | cell p0 valid =>
      simp only [Atom.cells, List.mem_singleton] at hq
      rw [hq]; exact valid
    | number n => cases hq
  have hp1 : p ∈ a.first.cells ++ a.rest.flatMap (fun e => e.2.cells) := hp
  rcases List.mem_append.1 hp1 with h | h
  · exact hatom _ p h
  · obtain ⟨x, _, hx⟩ := List.mem_flatMap.1 h
    exact hatom _ p hx

theorem parsePlain_src {e : String} {a : PlainAST} (h : parsePlain e = some a) : a.src = e := by
  unfold parsePlain at h
  split at h
  · cases h; rfl
  · cases h

theorem plainLib_reparses : LibReparses plainLib := by
  intro e a h
  have hsrc : a.src = e := parsePlain_src h
  exact ⟨a, by show parsePlain a.src = some a; rw [hsrc]; exact h, rfl, rfl⟩

/-! ## Acyclicity -/

/-- C2: in every sheet reached from the empty sheet by calls of `SetCell` and `ClearCell`,
whether they return or throw, no stored cell reaches itself by following one or more times
the positions in `GetReferencedCells` of the stored cells.  The parser is any parser whose
expressions name valid cells only and print to a text that parses to the same cells. -/
theorem acyclic_of_reachable {F AST : Type} (L : FormulaLib F AST) (hV : LibCellsValid L)
    (hR : LibReparses L) (s : Sheet F AST) (h : Reachable L s) : Acyclic s :=
  (h.inv hV hR).1

/-- C2 at the sheet left by `A1 := "=B1"`, `B1 := "=C1"` and the rejected `C1 := "=A1"`. -/
theorem acyclic_of_reachable_witness :
    Acyclic (SetCell plainLib 3 chainSheet C1 "=A1").2 :=
  acyclic_of_reachable plainLib plainLib_cellsValid plainLib_reparses _
    (Reachable.setCell 3 C1 "=A1"
      (Reachable.setCell 2 B1 "=C1"
        (Reachable.setCell 2 A1 "=B1" Reachable.empty (by decide) (by decide))
        (by decide) (by decide))
      (by decide) (by decide))

/-! ## Setting a cell to its own text -/

/-- C10: for every sheet and every valid position `pos` at which a cell is stored (every
stored position of a reachable sheet is valid), `SetCell(pos, GetCell(pos).GetText())`
returns without raising and leaves the sheet as it was: the same stored positions, the
same contents, the same cached values. -/
theorem SetCell_same_text {F AST : Type} (L : FormulaLib F AST) (fuel : Nat) (s : Sheet F AST)
    (pos : Position) (cell : Cell F AST) (hv : pos.IsValid = true)
    (hc : s.find pos = some cell) :
    SetCell L fuel s pos (cell.GetText L) = (.ok (), s) := by
  simp [SetCell, SetCellWith, hv, hc]

/-- C10 at the cell A1 of the sheet `A1 := "=B1"`, `B1 := "=C1"`. -/
theorem SetCell_same_text_witness :
    ∃ cell, chainSheet.find A1 = some cell ∧
      SetCell plainLib 0 chainSheet A1 (cell.GetText plainLib) = (.ok (), chainSheet) :=
  ⟨_, rfl, SetCell_same_text plainLib 0 chainSheet A1 _ (by decide) rfl⟩

/-! ## The printable size -/

section
variable {F AST : Type}

theorem foldl_size (s : Sheet F AST) (acc : Size) :
    let r := s.foldl (fun sz e => (⟨max sz.rows (e.1.row + 1), max sz.cols (e.1.col + 1)⟩ : Size))
      acc
    (acc.rows ≤ r.rows ∧ acc.cols ≤ r.cols) ∧
    (∀ e ∈ s, e.1.row + 1 ≤ r.rows ∧ e.1.col + 1 ≤ r.cols) ∧
    (r.rows = acc.rows ∨ ∃ e ∈ s, r.rows = e.1.row + 1) ∧
    (r.cols = acc.cols ∨ ∃ e ∈ s, r.cols = e.1.col + 1) := by
  induction s generalizing acc with
  | nil => simp
  | cons e rest ih =>
    obtain ⟨⟨h1, h2⟩, h3, h4, h5⟩ := ih ⟨max acc.rows (e.1.row + 1), max acc.cols (e.1.col + 1)⟩
    simp only [List.foldl_cons] at h1 h2 h3 h4 h5 ⊢
    refine ⟨⟨le_trans (le_max_left _ _) h1, le_trans (le_max_left _ _) h2⟩, ?_, ?_, ?_⟩
    · intro e1 he1
      rcases List.mem_cons.1 he1 with he1 | he1
      · subst he1
        exact ⟨le_trans (le_max_right _ _) h1, le_trans (le_max_right _ _) h2⟩
      · exact h3 e1 he1
    · rcases h4 with h4 | ⟨e1, he1, h4⟩
      · rcases max_cases acc.rows (e.1.row + 1) with ⟨hm, _⟩ | ⟨hm, _⟩
        · exact Or.inl (h4.trans hm)
        · exact Or.inr ⟨e, List.mem_cons_self _ _, h4.trans hm⟩
      · exact Or.inr ⟨e1, List.mem_cons_of_mem _ he1, h4⟩
    · rcases h5 with h5 | ⟨e1, he1, h5⟩
      · rcases max_cases acc.cols (e.1.col + 1) with ⟨hm, _⟩ | ⟨hm, _⟩
        · exact Or.inl (h5.trans hm)
        · exact Or.inr ⟨e, List.mem_cons_self _ _, h5.trans hm⟩
      · exact Or.inr ⟨e1, List.mem_cons_of_mem _ he1, h5⟩

theorem stored_iff_mem (s : Sheet F AST) (p : Position) :
    (s.find p).isSome = true ↔ ∃ e ∈ s, e.1 = p := by
  rw [find_isSome_iff]
  simp

/-- C8, as the code has it: `GetPrintableSize` returns the smallest rectangle anchored at
(0,0) that encloses all stored positions, whatever the text of their cells: every stored
position lies inside it, and each side is zero or one more than the row, respectively the
column, of a stored position; it is (0,0) when nothing is stored.  A stored cell with
`Empty` content enlarges it like any other. -/
theorem GetPrintableSize_stored (s : Sheet F AST) :
    (∀ p, (s.find p).isSome = true →
      p.row + 1 ≤ (GetPrintableSize s).rows ∧ p.col + 1 ≤ (GetPrintableSize s).cols) ∧
    ((GetPrintableSize s).rows = 0 ∨
      ∃ p, (s.find p).isSome = true ∧ (GetPrintableSize s).rows = p.row + 1) ∧
    ((GetPrintableSize s).cols = 0 ∨
      ∃ p, (s.find p).isSome = true ∧ (GetPrintableSize s).cols = p.col + 1) ∧
    ((∀ p, s.find p = none) → GetPrintableSize s = ⟨0, 0⟩) := by
  obtain ⟨_, h3, h4, h5⟩ := foldl_size s ⟨0, 0⟩
  have hr : (GetPrintableSize s).rows = 0 ∨
      ∃ p, (s.find p).isSome = true ∧ (GetPrintableSize s).rows = p.row + 1 := by
    rcases h4 with h4 | ⟨e, he, h4⟩
    · exact Or.inl h4
    · exact Or.inr ⟨e.1, (stored_iff_mem s e.1).2 ⟨e, he, rfl⟩, h4⟩
  have hc : (GetPrintableSize s).cols = 0 ∨
      ∃ p, (s.find p).isSome = true ∧ (GetPrintableSize s).cols = p.col + 1 := by
    rcases h5 with h5 | ⟨e, he, h5⟩
    · exact Or.inl h5
    · exact Or.inr ⟨e.1, (stored_iff_mem s e.1).2 ⟨e, he, rfl⟩, h5⟩
  refine ⟨?_, hr, hc, ?_⟩
  · intro p hp
    obtain ⟨e, he, hep⟩ := (stored_iff_mem s p).1 hp
    subst hep
    exact h3 e he
  · intro hnone
    have hr0 : (GetPrintableSize s).rows = 0 := by
      rcases hr with h | ⟨p, hp, _⟩
      · exact h
      · simp [hnone p] at hp
    have hc0 : (GetPrintableSize s).cols = 0 := by
      rcases hc with h | ⟨p, hp, _⟩
      · exact h
      · simp [hnone p] at hp
    cases hsz : GetPrintableSize s with
    | mk r c =>
      rw [hsz] at hr0 hc0
      simp only at hr0 hc0
      rw [hr0, hc0]

end

/-- C8 fails as stated: after `A1 := "=B2"` on the empty sheet the only cell with a
non-empty text is A1, so the rectangle of the texts is (1, 1), yet `GetPrintableSize`
returns (2, 2) because of the `Empty` cell stored at B2 for the reference. -/
theorem GetPrintableSize_counts_empty_cells :
    (SetCell plainLib 1 [] A1 "=B2").1 = .ok () ∧
    ((SetCell plainLib 1 [] A1 "=B2").2.find B2).map (Cell.GetText plainLib) = some "" ∧
    textPrintableSize plainLib (SetCell plainLib 1 [] A1 "=B2").2 = ⟨1, 1⟩ ∧
    GetPrintableSize (SetCell plainLib 1 [] A1 "=B2").2 = ⟨2, 2⟩ := by
  decide

/-! ## The scenarios -/

/-- C4 fails as stated: after `A1 := "=B1"` and `B1 := "=C1"` the rejected call
`SetCell(C1, "=A1")` does not leave C1 absent: `GetCell(C1)` is not the null pointer. -/
theorem cycle_scenario_C1_is_stored :
    (SetCell plainLib 3 chainSheet C1 "=A1").1 = .error .CircularDependencyException ∧
    GetCell (SetCell plainLib 3 chainSheet C1 "=A1").2 C1 ≠ .ok none := by
  decide

/-- C4, as the code has it: after `A1 := "=B1"` and `B1 := "=C1"`, the call
`SetCell(C1, "=A1")` raises `CircularDependencyException` and leaves the sheet as it was
before the call; `GetCell(C1)` returns, before and after, the `Empty` cell that
`B1 := "=C1"` stored for its reference. -/
theorem cycle_scenario :
    SetCell plainLib 3 chainSheet C1 "=A1" = (.error .CircularDependencyException, chainSheet) ∧
    GetCell chainSheet C1 = .ok (some emptyCell) ∧
    (chainSheet.find C1).map (Cell.GetText plainLib) = some "" := by
  decide

/-- C3, the failing input: on the empty sheet `SetCell(B1, "=A1+B1")` raises
`CircularDependencyException` and leaves an `Empty` cell stored at A1; the printable size
grows from (0, 0) to (1, 1). -/
theorem failed_SetCell_leaves_cell :
    SetCell plainLib 1 [] B1 "=A1+B1" =
      (.error .CircularDependencyException, [(A1, emptyCell)]) ∧
    GetPrintableSize ([] : Sheet ℚ PlainAST) = ⟨0, 0⟩ ∧
    GetPrintableSize (SetCell plainLib 1 [] B1 "=A1+B1").2 = ⟨1, 1⟩ := by
  decide

/-- C5, the failing inputs.  After `A1 := "10"`, `A2 := "=A1+5"`, `A3 := "=A2*2"` the value
of A3 is the error `Value`; after `A1 := "20"` the formula cells A2 and A3, which read from
A1, still hold their cached values, and the value of A3 is again the error `Value`.  After
`A1 := "=7"`, `A2 := "=A1"` and a read of A2, the call `A1 := "=8"` leaves the cached value
of A2: A1 reads 8, A2 still 7. -/
theorem stale_cache_after_SetCell :
    (GetValue plainLib 2 textChainSheet A3).1 = .ok (.error .Value) ∧
    (SetCell plainLib 2 (GetValue plainLib 2 textChainSheet A3).2 A1 "20").1 = .ok () ∧
    cachedValue (SetCell plainLib 2 (GetValue plainLib 2 textChainSheet A3).2 A1 "20").2 A2 =
      some (.error .Value) ∧
    cachedValue (SetCell plainLib 2 (GetValue plainLib 2 textChainSheet A3).2 A1 "20").2 A3 =
      some (.error .Value) ∧
    (GetValue plainLib 2
      (SetCell plainLib 2 (GetValue plainLib 2 textChainSheet A3).2 A1 "20").2 A3).1 =
        .ok (.error .Value) ∧
    (GetValue plainLib 1 (SetCell plainLib 1 (SetCell plainLib 1 [] A1 "=7").2 A2 "=A1").2 A2).1 =
      .ok (.number 7) ∧
    (SetCell plainLib 1 staleSheet A1 "=8").1 = .ok () ∧
    cachedValue (SetCell plainLib 1 staleSheet A1 "=8").2 A2 = some (.number 7) ∧
    (GetValue plainLib 1 (SetCell plainLib 1 staleSheet A1 "=8").2 A1).1 = .ok (.number 8) ∧
    (GetValue plainLib 1 (SetCell plainLib 1 staleSheet A1 "=8").2 A2).1 = .ok (.number 7) := by
  decide

/-- C6, the failing input: after `A1 := "3.14"` and `B1 := "=A1+1"` the value of B1 is the
error `Value`, although the text of A1 is a number; A1 is a cell of type `TEXT`. -/
theorem text_reference_is_value_error :
    (coercionSheet.find A1).map Cell.GetType = some .TEXT ∧
    (GetValue plainLib 2 coercionSheet A2).1 = .ok (.text "hello") ∧
    (GetValue plainLib 2 coercionSheet B1).1 = .ok (.error .Value) ∧
    (GetValue plainLib 2 coercionSheet B2).1 = .ok (.error .Value) := by
  decide

/-- C7, the failing input: after `A1 := "=B1"` and `ClearCell(B1)` the cell A1 is still
stored and B1 is absent, and `GetValue` on A1 dereferences the null pointer that `GetCell`
returns for B1. -/
theorem GetValue_after_ClearCell :
    (danglingSheet.find A1).map (Cell.GetText plainLib) = some "=B1" ∧
    GetCell danglingSheet B1 = .ok none ∧
    (GetValue plainLib 2 danglingSheet A1).1 = .error .NullDereference := by
  decide

/-- C1, the failing input: after `A1 := "=B1"` and `ClearCell(B1)` the sheet is acyclic, the
text `C1` parses to a formula whose referenced positions are C1 alone, and A1 cannot be
reached from C1; yet `SetCell(A1, "=C1")` does not return: `InvalidateCellsByPos`
dereferences the null pointer that `GetCell` returns for B1. -/
theorem SetCell_after_ClearCell :
    Acyclic danglingSheet ∧ A1.IsValid = true ∧
    (danglingSheet.find A1).map Cell.GetReferencedCells = some [B1] ∧
    danglingSheet.find B1 = none ∧
    (parsePlain "C1").map (fun a => toSet a.cells) = some [C1] ∧
    ¬ Relation.ReflTransGen (edge danglingSheet) C1 A1 ∧
    (SetCell plainLib 2 danglingSheet A1 "=C1").1 = .error .NullDereference := by
  refine ⟨?_, by decide, by decide, by decide, by decide, ?_, by decide⟩
  · exact (Reachable.inv plainLib_cellsValid plainLib_reparses
      (Reachable.clearCell B1
        (Reachable.setCell 1 A1 "=B1" Reachable.empty (by decide) (by decide)))).1
  · intro h
    rcases Relation.ReflTransGen.cases_head h with h | ⟨y, hy, _⟩
    · exact absurd h (by decide)
    · have hy1 : y ∈ refsAt danglingSheet C1 := hy
      have hnil : refsAt danglingSheet C1 = [] := by decide
      rw [hnil] at hy1
      cases hy1

/-- C9 fails as stated: the empty expression does not parse, yet `SetCell(A1, "=")` raises
nothing and stores the text `=`. -/
theorem SetCell_formula_sign_alone :
    parsePlain "" = none ∧
    SetCell plainLib 0 [] A1 "=" = (.ok (), [(A1, ⟨.TextImpl "=", []⟩)]) := by
  decide

/-! ## Termination: the references of an acyclic sheet are well founded -/

section
variable {F AST : Type}

theorem stored_of_edge {s : Sheet F AST} {p q : Position} (h : edge s p q) :
    (s.find p).isSome = true := by
  unfold edge refsAt at h
  cases hf : s.find p with
  | none => simp [hf] at h
  | some c => rfl

/-- In an acyclic sheet the references are well founded: a sheet stores finitely many
cells. -/
theorem acc_of_acyclic {s : Sheet F AST} (hac : Acyclic s) :
    ∀ p, Acc (fun q p => edge s p q) p := by
  let K := { p : Position // (s.find p).isSome = true }
  have hfin : Finite K := by
    have : Finite { p : Position // p ∈ s.map Prod.fst } := inferInstance
    exact Finite.of_injective
      (fun k : K => (⟨k.1, (find_isSome_iff s k.1).1 k.2⟩ : { p // p ∈ s.map Prod.fst }))
      (fun a b hab => Subtype.ext (by simpa using congrArg Subtype.val hab))
  let r : K → K → Prop := fun a b => Relation.TransGen (edge s) b.1 a.1
  have htrans : IsTrans K r := ⟨fun a b c hab hbc => Relation.TransGen.trans hbc hab⟩
  have hirr : IsIrrefl K r := ⟨fun a h => hac a.1 h⟩
  have hwf : WellFounded r := Finite.wellFounded_of_trans_of_irrefl r
  have hstored : ∀ k : K, Acc (fun q p => edge s p q) k.1 := by
    intro k
    induction k using hwf.induction with
    | _ k ih =>
      refine Acc.intro _ (fun q hq => ?_)
      by_cases hs : (s.find q).isSome = true
      · exact ih ⟨q, hs⟩ (Relation.TransGen.single hq)
      · exact Acc.intro _ (fun q1 hq1 => absurd (stored_of_edge hq1) hs)
  intro p
  by_cases hs : (s.find p).isSome = true
  · exact hstored ⟨p, hs⟩
  · exact Acc.intro _ (fun q hq => absurd (stored_of_edge hq) hs)

end

/-! ## `InvalidateCellsByPos` returns -/

section
variable {F AST : Type}

theorem GetDependencedCellByPos_eq (s : Sheet F AST) (pos : Position) :
    GetDependencedCellByPos s pos = if pos.IsValid = true then refsAt s pos else [] := by
  unfold GetDependencedCellByPos refsAt
  rfl

theorem InvalidateLoop_returns {s : Sheet F AST} (l : List Position)
    (hl : ∀ q ∈ l, q.IsValid = true ∧ (s.find q).isSome = true ∧
      ∃ N, ∀ n, N ≤ n → ∀ s1, CacheOnly s s1 → (InvalidateCellsByPos n s1 q).1 = .ok ()) :
    ∃ N, ∀ n, N ≤ n → ∀ s1, CacheOnly s s1 →
      (InvalidateLoop (InvalidateCellsByPos n) l s1).1 = .ok () := by
  induction l with
  | nil => exact ⟨0, fun n _ s1 _ => rfl⟩
  | cons q rest ih =>
    obtain ⟨hv, hst, Nq, hq⟩ := hl q (List.mem_cons_self _ _)
    obtain ⟨Nr, hr⟩ := ih (fun x hx => hl x (List.mem_cons_of_mem _ hx))
    refine ⟨max Nq Nr, fun n hn s1 hs1 => ?_⟩
    have hn1 : Nq ≤ n := le_trans (le_max_left _ _) hn
    have hn2 : Nr ≤ n := le_trans (le_max_right _ _) hn
    unfold InvalidateLoop
    simp only [hv, if_true]
    cases hf : s1.find q with
    | none =>
      have := (hs1.find_none q).1 hf
      simp [this] at hst
    | some cell =>
      simp only
      have hs2 : CacheOnly s (s1.insert q cell.InvalidateCache) :=
        hs1.comp_cache (CacheOnly.insert_invalidate hf)
      have hres := hq n hn1 _ hs2
      have hco := InvalidateCellsByPos_cacheOnly n (s1.insert q cell.InvalidateCache) q
      generalize InvalidateCellsByPos n (s1.insert q cell.InvalidateCache) q = res
        at hres hco
      obtain ⟨r, s3⟩ := res
      simp only at hres hco
      subst hres
      simp only
      exact hr n hn2 s3 (hs2.comp_cache hco)

/-- In an acyclic sheet `InvalidateCellsByPos(pos)` returns when every position reached from
`pos` is valid and stored. -/
theorem InvalidateCellsByPos_returns {s : Sheet F AST} (hac : Acyclic s) (pos : Position)
    (hclosed : ∀ q, Relation.TransGen (edge s) pos q →
      q.IsValid = true ∧ (s.find q).isSome = true) :
    ∃ N, ∀ n, N ≤ n → ∀ s1, CacheOnly s s1 → (InvalidateCellsByPos n s1 pos).1 = .ok () := by
  induction acc_of_acyclic hac pos with
  | intro p _ ih =>
    have hl : ∀ q ∈ refsAt s p, q.IsValid = true ∧ (s.find q).isSome = true ∧
        ∃ N, ∀ n, N ≤ n → ∀ s1, CacheOnly s s1 →
          (InvalidateCellsByPos n s1 q).1 = .ok () := by
      intro q hq
      obtain ⟨hv, hst⟩ := hclosed q (Relation.TransGen.single hq)
      exact ⟨hv, hst, ih q hq (fun x hx => hclosed x (Relation.TransGen.head hq hx))⟩
    obtain ⟨N, hN⟩ := InvalidateLoop_returns (refsAt s p) hl
    refine ⟨N + 1, fun n hn s1 hs1 => ?_⟩
    obtain ⟨m, rfl⟩ : ∃ m, n = m + 1 := ⟨n - 1, by omega⟩
    unfold InvalidateCellsByPos
    rw [GetDependencedCellByPos_eq]
    by_cases hv : p.IsValid = true
    · simp only [hv, if_true]
      rw [(hs1.to_keeps p).refs_eq]
      exact hN m (by omega) s1 hs1
    · simp only [hv]
      rfl

end

/-! ## A formula that fails to parse -/

section
variable {F AST : Type}

theorem formula_text_data (e : String) : ("=" ++ e).data = FORMULA_SIGN :: e.data := by
  simp [FORMULA_SIGN]

theorem data_ne_nil {e : String} (he : e ≠ "") : e.data ≠ [] := by
  intro h
  apply he
  exact String.ext h

/-- `Set` on the formula sign followed by a non-empty text that does not parse throws. -/
theorem Cell.Set_parse_failure (L : FormulaLib F AST) (c : Cell F AST) {e : String}
    (he : e ≠ "") (hparse : L.ParseFormulaAST e = none) :
    Cell.Set L c ("=" ++ e) = .error .FormulaException := by
  unfold Cell.Set
  rw [formula_text_data]
  simp [data_ne_nil he, ParseFormula, hparse]

/-- A content built by `Set` does not have the text of a formula that fails to parse. -/
theorem text_ne_of_parse_failure {L : FormulaLib F AST} (hR : LibReparses L) {i : Impl F AST}
    (hi : i.FromSet L) {e : String} (he : e ≠ "") (hparse : L.ParseFormulaAST e = none) :
    i.ImplGetText L ≠ "=" ++ e := by
  intro h
  have hd := congrArg String.data h
  rw [formula_text_data] at hd
  cases i with
  | EmptyImpl => simp [Impl.ImplGetText] at hd
  | TextImpl t =>
    obtain ⟨ch, rest, ht, hc⟩ := hi
    simp only [Impl.ImplGetText] at hd
    rw [ht] at hd
    simp only [List.cons.injEq] at hd
    rcases hc with hc | hc
    · exact hc hd.1
    · exact data_ne_nil he (hd.2 ▸ hc)
  | FormulaImpl f cache =>
    obtain ⟨e0, he0⟩ := hi
    obtain ⟨a, ha, hfa⟩ := ParseFormula_some he0
    subst hfa
    obtain ⟨a1, ha1, _, _⟩ := hR e0 a ha
    simp only [Impl.ImplGetText, Formula.GetExpression, List.cons.injEq, true_and] at hd
    have : L.PrintFormula a = e := String.ext hd
    rw [this, hparse] at ha1
    cases ha1

end

theorem find_some_mem {F AST : Type} {s : Sheet F AST} {p : Position} {c : Cell F AST}
    (h : s.find p = some c) : (p, c) ∈ s := by
  induction s with
  | nil => simp [Sheet.find] at h
  | cons e rest ih =>
    obtain ⟨q, d⟩ := e
    by_cases hq : q = p
    · subst hq
      simp only [Sheet.find, if_true, Option.some.injEq] at h
      subst h
      exact List.mem_cons_self _ _
    · simp only [Sheet.find, hq, if_false] at h
      exact List.mem_cons_of_mem _ (ih h)

theorem refClosed_of_check {F AST : Type} {s : Sheet F AST} (h : refClosedCheck s = true) :
    RefClosed s := by
  intro p q hpq
  unfold edge refsAt at hpq
  cases hf : s.find p with
  | none => simp [hf] at hpq
  | some c =>
    simp only [hf] at hpq
    unfold refClosedCheck at h
    rw [List.all_eq_true] at h
    have := h (p, c) (find_some_mem hf)
    rw [List.all_eq_true] at this
    exact this q hpq

/-- C9, as the code has it: for every sheet that satisfies the invariant of the reachable
sheets, every valid position `pos` from whose cell every position reached through
references is stored, and every non-empty text `e` that fails to parse, `SetCell(pos,
"=" + e)` raises `FormulaException`, given enough fuel, and leaves the stored positions
and the text of every stored cell as they were. -/
theorem SetCell_parse_failure {F AST : Type} (L : FormulaLib F AST) (hR : LibReparses L)
    (s : Sheet F AST) (hs : SheetInv L s) (pos : Position) (hv : pos.IsValid = true)
    (e : String) (he : e ≠ "") (hparse : L.ParseFormulaAST e = none)
    (hclosed : ∀ q, Relation.TransGen (edge s) pos q → (s.find q).isSome = true) :
    ∃ N, ∀ fuel, N ≤ fuel →
      (SetCell L fuel s pos ("=" ++ e)).1 = .error .FormulaException ∧
      ∀ p, ((SetCell L fuel s pos ("=" ++ e)).2.find p).map (Cell.GetText L) =
        (s.find p).map (Cell.GetText L) := by
  have hcl : ∀ q, Relation.TransGen (edge s) pos q →
      q.IsValid = true ∧ (s.find q).isSome = true := by
    intro q hq
    refine ⟨?_, hclosed q hq⟩
    rcases Relation.TransGen.tail'_iff.1 hq with ⟨x, _, hx⟩
    exact hs.2.1 x q hx
  obtain ⟨N, hN⟩ := InvalidateCellsByPos_returns hs.1 pos hcl
  refine ⟨N, fun fuel hfuel => ?_⟩
  unfold SetCell SetCellWith
  simp only [hv, if_true]
  cases hfind : s.find pos with
  | none =>
    simp only [Cell.new, Cell.Set_parse_failure L _ he hparse]
    exact ⟨trivial, fun p => trivial⟩
  | some existing_cell =>
    have htext : existing_cell.GetText L ≠ "=" ++ e :=
      text_ne_of_parse_failure hR (hs.2.2.1 pos _ hfind) he hparse
    simp only [htext, if_false]
    have hres := hN fuel hfuel s (CacheOnly.same_cache s)
    have hco := InvalidateCellsByPos_cacheOnly fuel s pos
    generalize InvalidateCellsByPos fuel s pos = res at hres hco
    obtain ⟨r, s1⟩ := res
    simp only at hres hco
    subst hres
    simp only [Cell.Set_parse_failure L _ he hparse]
    refine ⟨trivial, fun p => ?_⟩
    rw [find_insert]
    by_cases hp : p = pos
    · subst hp
      simp only [if_true, Option.map_some', hfind, Option.some.injEq]
      have htx := hco.text L p
      rw [hfind] at htx
      cases hf1 : s1.find p with
      | none => simp [hf1] at htx
      | some c1 =>
        rw [hf1] at htx
        simp only [Option.map_some', Option.some.injEq] at htx
        simpa [Sheet.cellAt, hf1, Cell.DeleteDependencedCells, Cell.GetText] using htx
    · simp only [hp, if_false]
      exact hco.text L p

/-- C9 at the cell A1 of the sheet `A1 := "=B1"`, `B1 := "=C1"` and the text `=+`. -/
theorem SetCell_parse_failure_witness :
    ∃ N, ∀ fuel, N ≤ fuel →
      (SetCell plainLib fuel chainSheet A1 ("=" ++ "+")).1 = .error .FormulaException ∧
      ∀ p, ((SetCell plainLib fuel chainSheet A1 ("=" ++ "+")).2.find p).map
          (Cell.GetText plainLib) = (chainSheet.find p).map (Cell.GetText plainLib) :=
  SetCell_parse_failure plainLib plainLib_reparses chainSheet
    (Reachable.inv plainLib_cellsValid plainLib_reparses
      (Reachable.setCell 2 B1 "=C1"
        (Reachable.setCell 2 A1 "=B1" Reachable.empty (by decide) (by decide))
        (by decide) (by decide)))
    A1 (by decide) "+" (by decide) (by decide)
    (fun q hq => by
      rcases Relation.TransGen.tail'_iff.1 hq with ⟨x, _, hx⟩
      exact refClosed_of_check (by decide) x q hx)

/-! ## The search of `hasCircularDependency` returns and is complete -/

section
variable {F AST : Type}

theorem uniform_bound {α : Type} (Q : α → Nat → Prop) (l : List α)
    (h : ∀ x ∈ l, ∃ N, ∀ n, N ≤ n → Q x n) : ∃ N, ∀ n, N ≤ n → ∀ x ∈ l, Q x n := by
  induction l with
  | nil => exact ⟨0, fun n _ x hx => by cases hx⟩
  | cons a l ih =>
    obtain ⟨Na, ha⟩ := h a (List.mem_cons_self _ _)
    obtain ⟨Nl, hl⟩ := ih (fun x hx => h x (List.mem_cons_of_mem _ hx))
    refine ⟨max Na Nl, fun n hn x hx => ?_⟩
    rcases List.mem_cons.1 hx with hx | hx
    · subst hx; exact ha n (le_trans (le_max_left _ _) hn)
    · exact hl n (le_trans (le_max_right _ _) hn) x hx

theorem reach_iff_head (s : Sheet F AST) (x pos : Position) :
    Relation.ReflTransGen (edge s) x pos ↔
      x = pos ∨ ∃ r ∈ refsAt s x, Relation.ReflTransGen (edge s) r pos := by
  constructor
  · intro h
    rcases Relation.ReflTransGen.cases_head h with h | ⟨r, hr, hrp⟩
    · exact Or.inl h
    · exact Or.inr ⟨r, hr, hrp⟩
  · rintro (h | ⟨r, hr, hrp⟩)
    · subst h; exact Relation.ReflTransGen.refl
    · exact Relation.ReflTransGen.head hr hrp

/-- The search over a list whose members are searched completely by the recursive call. -/
theorem hasCircularLoop_total (L : FormulaLib F AST) (m : Nat) (s : Sheet F AST)
    (main_cell : Option Position) (pos : Position)
    (hmain : main_cell = none ∨ main_cell = some pos) :
    ∀ (l : List Position),
      (∀ y ∈ l, y.IsValid = true ∧ (y ≠ pos → ∀ s1 : Sheet F AST,
        (∀ p, p ≠ pos → refsAt s1 p = refsAt s p) →
        ∃ b, (hasCircularDependency L m (refsAt s y) main_cell pos s1).1 = .ok b ∧
          (b = true ↔ ∃ r ∈ refsAt s y, Relation.ReflTransGen (edge s) r pos))) →
      ∀ s1 : Sheet F AST, (∀ p, p ≠ pos → refsAt s1 p = refsAt s p) →
        ∃ b, (hasCircularLoop
            (SetCellWith L (hasCircularDependency L m) (InvalidateCellsByPos m))
            (fun refs s2 => hasCircularDependency L m refs main_cell pos s2)
            main_cell pos l s1).1 = .ok b ∧
          (b = true ↔ ∃ x ∈ l, Relation.ReflTransGen (edge s) x pos) := by
  intro l
  induction l with
  | nil =>
    intro _ s1 _
    exact ⟨false, rfl, by simp⟩
  | cons y rest ih =>
    intro hl s1 hrel
    obtain ⟨hv, hy⟩ := hl y (List.mem_cons_self _ _)
    have hrest := ih (fun x hx => hl x (List.mem_cons_of_mem _ hx))
    unfold hasCircularLoop
    simp only [hv, if_true]
    by_cases hpos : pos = y
    · simp only [hpos, if_true]
      refine ⟨true, rfl, ?_⟩
      simp only [true_iff]
      exact ⟨y, List.mem_cons_self _ _, Relation.ReflTransGen.refl⟩
    · simp only [hpos, if_false]
      have hyne : y ≠ pos := Ne.symm hpos
      -- the state after the missing cell has been stored
      obtain ⟨s2, hmat, hext2, hst2⟩ : ∃ s2,
          (match s1.find y with
            | some _ => (Except.ok (), s1)
            | none => SetCellWith L (hasCircularDependency L m) (InvalidateCellsByPos m)
                s1 y "") = (Except.ok (), s2) ∧ Ext pos s1 s2 ∧
            (s2.find y).isSome = true := by
        cases hf : s1.find y with
        | some c => exact ⟨s1, rfl, Ext.same_ext _ _, by simp [hf]⟩
        | none =>
          exact ⟨_, SetCell_empty_absent L m s1 y hv hf, Ext.insert_empty hyne hv hf,
            by simp [find_insert_self]⟩
      rw [hmat]
      simp only
      have hrel2 : ∀ p, p ≠ pos → refsAt s2 p = refsAt s p :=
        fun p hp => (hext2.refsAt_eq p).trans (hrel p hp)
      cases hf2 : s2.find y with
      | none => simp [hf2] at hst2
      | some ref_cell =>
        simp only
        have hmy : main_cell ≠ some y := by
          rcases hmain with h | h
          · rw [h]; simp
          · rw [h]; intro h2; exact hpos (Option.some.inj h2)
        simp only [hmy, if_false]
        have hrefs : ref_cell.GetReferencedCells = refsAt s y := by
          rw [← hrel2 y hyne]
          simp [refsAt, hf2]
        rw [hrefs]
        obtain ⟨b, hb, hbiff⟩ := hy hyne s2 hrel2
        have hpost := hasCircularDependency_post L m main_cell pos (refsAt s y) s2
        generalize hasCircularDependency L m (refsAt s y) main_cell pos s2 = res at hb hpost
        obtain ⟨r, s3⟩ := res
        simp only at hb
        subst hb
        have hrel3 : ∀ p, p ≠ pos → refsAt s3 p = refsAt s p :=
          fun p hp => (hpost.1.refsAt_eq p).trans (hrel2 p hp)
        cases b with
        | true =>
          simp only
          refine ⟨true, rfl, ?_⟩
          simp only [true_iff]
          obtain ⟨r, hr, hrp⟩ := hbiff.1 rfl
          exact ⟨y, List.mem_cons_self _ _, Relation.ReflTransGen.head hr hrp⟩
        | false =>
          simp only
          obtain ⟨b2, hb2, hb2iff⟩ := hrest s3 hrel3
          refine ⟨b2, hb2, ?_⟩
          rw [hb2iff]
          constructor
          · rintro ⟨x, hx, hxp⟩
            exact ⟨x, List.mem_cons_of_mem _ hx, hxp⟩
          · rintro ⟨x, hx, hxp⟩
            rcases List.mem_cons.1 hx with hx | hx
            · subst hx
              rcases (reach_iff_head s x pos).1 hxp with h | h
              · exact absurd h hyne
              · have := hbiff.2 h
                cases this
            · exact ⟨x, hx, hxp⟩

end

section
variable {F AST : Type}

/-- In an acyclic sheet with valid references the search over any list of valid positions
returns, given enough fuel, and returns `true` exactly when `pos` is reached from the
list. -/
theorem hasCircularDependency_total (L : FormulaLib F AST) {s : Sheet F AST} (hac : Acyclic s)
    (hrv : RefsValid s) (main_cell : Option Position) (pos : Position)
    (hmain : main_cell = none ∨ main_cell = some pos) (l : List Position)
    (hl : ∀ x ∈ l, x.IsValid = true) :
    ∃ N, ∀ m, N ≤ m → ∀ s1 : Sheet F AST, (∀ p, p ≠ pos → refsAt s1 p = refsAt s p) →
      ∃ b, (hasCircularDependency L m l main_cell pos s1).1 = .ok b ∧
        (b = true ↔ ∃ x ∈ l, Relation.ReflTransGen (edge s) x pos) := by
  have hlist : ∀ l : List Position, (∀ x ∈ l, x.IsValid = true) →
      (∀ y ∈ l, ∃ N, ∀ m, N ≤ m → ∀ s1 : Sheet F AST,
        (∀ p, p ≠ pos → refsAt s1 p = refsAt s p) →
        ∃ b, (hasCircularDependency L m (refsAt s y) main_cell pos s1).1 = .ok b ∧
          (b = true ↔ ∃ r ∈ refsAt s y, Relation.ReflTransGen (edge s) r pos)) →
      ∃ N, ∀ m, N ≤ m → ∀ s1 : Sheet F AST, (∀ p, p ≠ pos → refsAt s1 p = refsAt s p) →
        ∃ b, (hasCircularDependency L m l main_cell pos s1).1 = .ok b ∧
          (b = true ↔ ∃ x ∈ l, Relation.ReflTransGen (edge s) x pos) := by
    intro l hl hnodes
    obtain ⟨N, hN⟩ := uniform_bound
      (fun y m => ∀ s1 : Sheet F AST, (∀ p, p ≠ pos → refsAt s1 p = refsAt s p) →
        ∃ b, (hasCircularDependency L m (refsAt s y) main_cell pos s1).1 = .ok b ∧
          (b = true ↔ ∃ r ∈ refsAt s y, Relation.ReflTransGen (edge s) r pos)) l hnodes
    refine ⟨N + 1, fun m hm s1 hrel => ?_⟩
    obtain ⟨k, rfl⟩ : ∃ k, m = k + 1 := ⟨m - 1, by omega⟩
    unfold hasCircularDependency
    exact hasCircularLoop_total L k s main_cell pos hmain l
      (fun y hy => ⟨hl y hy, fun _ => hN k (by omega) y hy⟩) s1 hrel
  have hnode : ∀ y, ∃ N, ∀ m, N ≤ m → ∀ s1 : Sheet F AST,
      (∀ p, p ≠ pos → refsAt s1 p = refsAt s p) →
      ∃ b, (hasCircularDependency L m (refsAt s y) main_cell pos s1).1 = .ok b ∧
        (b = true ↔ ∃ r ∈ refsAt s y, Relation.ReflTransGen (edge s) r pos) := by
    intro y
    induction acc_of_acyclic hac y with
    | intro y _ ih =>
      exact hlist (refsAt s y) (fun z hz => hrv y z hz) (fun z hz => ih z hz)
  exact hlist l hl (fun y _ => hnode y)

theorem Cell.Set_formula (L : FormulaLib F AST) (c : Cell F AST) {e : String} {a : AST}
    (he : e ≠ "") (hparse : L.ParseFormulaAST e = some a) :
    Cell.Set L c ("=" ++ e) =
      .ok { c with cell_value_ := .FormulaImpl ⟨a, L.GetCells a⟩ none } := by
  unfold Cell.Set
  rw [formula_text_data]
  simp [data_ne_nil he, ParseFormula, hparse]

/-- A stored content with the text of a formula references the cells of that formula. -/
theorem refs_of_text_eq {L : FormulaLib F AST} (hR : LibReparses L) {i : Impl F AST}
    (hi : i.FromSet L) {e : String} {a : AST} (he : e ≠ "")
    (hparse : L.ParseFormulaAST e = some a) (h : i.ImplGetText L = "=" ++ e) :
    i.GetReferencedCells = toSet (L.GetCells a) := by
  have hd := congrArg String.data h
  rw [formula_text_data] at hd
  cases i with
  | EmptyImpl => simp [Impl.ImplGetText] at hd
  | TextImpl t =>
    obtain ⟨ch, rest, ht, hc⟩ := hi
    simp only [Impl.ImplGetText] at hd
    rw [ht] at hd
    simp only [List.cons.injEq] at hd
    rcases hc with hc | hc
    · exact absurd hd.1 hc
    · exact absurd (hd.2 ▸ hc) (data_ne_nil he)
  | FormulaImpl f cache =>
    obtain ⟨e0, he0⟩ := hi
    obtain ⟨a0, ha0, hfa⟩ := ParseFormula_some he0
    subst hfa
    obtain ⟨a1, ha1, hcells, _⟩ := hR e0 a0 ha0
    simp only [Impl.ImplGetText, Formula.GetExpression, List.cons.injEq, true_and] at hd
    have : L.PrintFormula a0 = e := String.ext hd
    rw [this, hparse] at ha1
    cases ha1
    simp [Impl.GetReferencedCells, Formula.GetReferencedCells, hcells]

end

/-! ## `SetCell` raises `CircularDependencyException` exactly on a cycle -/

/-- Where `InvalidateCellsByPos` meets no missing cell, the exception is raised exactly on a
cycle: for every sheet that satisfies the invariant of the reachable sheets, every valid position
`pos` from whose cell every position reached through references is stored, and every
non-empty text `e` that parses to an expression `a`, the call `SetCell(pos, "=" + e)`,
given enough fuel, raises `CircularDependencyException` when `pos` is reached from a
referenced position of `a` in zero or more steps, and returns without raising when it is
not. -/
theorem SetCell_circular_iff {F AST : Type} (L : FormulaLib F AST) (hV : LibCellsValid L)
    (hR : LibReparses L) (s : Sheet F AST) (hs : SheetInv L s) (pos : Position)
    (hv : pos.IsValid = true) (e : String) (he : e ≠ "") (a : AST)
    (hparse : L.ParseFormulaAST e = some a)
    (hclosed : ∀ q, Relation.TransGen (edge s) pos q → (s.find q).isSome = true) :
    ∃ N, ∀ fuel, N ≤ fuel →
      ((∃ r ∈ toSet (L.GetCells a), Relation.ReflTransGen (edge s) r pos) →
        (SetCell L fuel s pos ("=" ++ e)).1 = .error .CircularDependencyException) ∧
      ((¬ ∃ r ∈ toSet (L.GetCells a), Relation.ReflTransGen (edge s) r pos) →
        (SetCell L fuel s pos ("=" ++ e)).1 = .ok ()) := by
  have hcl : ∀ q, Relation.TransGen (edge s) pos q →
      q.IsValid = true ∧ (s.find q).isSome = true := by
    intro q hq
    refine ⟨?_, hclosed q hq⟩
    rcases Relation.TransGen.tail'_iff.1 hq with ⟨x, _, hx⟩
    exact hs.2.1 x q hx
  have hvalid : ∀ x ∈ toSet (L.GetCells a), x.IsValid = true :=
    fun x hx => hV e a hparse x (mem_of_mem_toSet hx)
  obtain ⟨N1, hN1⟩ := InvalidateCellsByPos_returns hs.1 pos hcl
  obtain ⟨N2, hN2⟩ := hasCircularDependency_total L hs.1 hs.2.1 (some pos) pos (Or.inr rfl)
    (toSet (L.GetCells a)) hvalid
  obtain ⟨N3, hN3⟩ := hasCircularDependency_total L hs.1 hs.2.1 none pos (Or.inl rfl)
    (toSet (L.GetCells a)) hvalid
  refine ⟨max N1 (max N2 N3), fun fuel hfuel => ?_⟩
  have hf1 : N1 ≤ fuel := le_trans (le_max_left _ _) hfuel
  have hf2 : N2 ≤ fuel := le_trans (le_trans (le_max_left _ _) (le_max_right _ _)) hfuel
  have hf3 : N3 ≤ fuel := le_trans (le_trans (le_max_right _ _) (le_max_right _ _)) hfuel
  unfold SetCell SetCellWith
  simp only [hv, if_true]
  cases hfind : s.find pos with
  | none =>
    simp only [Cell.new, Cell.Set_formula L _ he hparse]
    obtain ⟨b, hb, hbiff⟩ := hN3 fuel hf3 s (fun p _ => rfl)
    have hrefs : Cell.GetReferencedCells
        ({ cell_value_ := Impl.FormulaImpl ⟨a, L.GetCells a⟩ none,
           dependenced_cells_ := [] } : Cell F AST) = toSet (L.GetCells a) := rfl
    rw [hrefs]
    generalize hasCircularDependency L fuel (toSet (L.GetCells a)) none pos s = res at hb
    obtain ⟨r, s1⟩ := res
    simp only at hb
    subst hb
    cases b with
    | true =>
      simp only
      exact ⟨fun _ => by trivial, fun h => absurd (hbiff.1 rfl) h⟩
    | false =>
      simp only
      refine ⟨fun h => ?_, fun _ => by trivial⟩
      have := hbiff.2 h
      cases this
  | some existing_cell =>
    simp only
    by_cases htext : existing_cell.GetText L = "=" ++ e
    · simp only [htext, if_true]
      have hrefs := refs_of_text_eq hR (hs.2.2.1 pos _ hfind) he hparse htext
      have hno : ¬ ∃ r ∈ toSet (L.GetCells a), Relation.ReflTransGen (edge s) r pos := by
        rintro ⟨r, hr, hrp⟩
        apply hs.1 pos
        apply Relation.TransGen.head' _ hrp
        simp only [edge, refsAt, hfind, Cell.GetReferencedCells]
        rw [hrefs]; exact hr
      exact ⟨fun h => absurd h hno, fun _ => by trivial⟩
    · simp only [htext, if_false]
      have hres := hN1 fuel hf1 s (CacheOnly.same_cache s)
      have hco := InvalidateCellsByPos_cacheOnly fuel s pos
      generalize InvalidateCellsByPos fuel s pos = res at hres hco
      obtain ⟨r, s1⟩ := res
      simp only at hres hco
      subst hres
      cases hset : (s1.cellAt pos existing_cell).DeleteDependencedCells.Set L ("=" ++ e) with
      | error e1 =>
        rw [Cell.Set_formula L _ he hparse] at hset
        cases hset
      | ok c3 =>
      simp only [hset]
      have hrefs : c3.GetReferencedCells = toSet (L.GetCells a) := by
        rw [Cell.Set_formula L _ he hparse] at hset
        cases hset
        rfl
      rw [hrefs]
      have hrel : ∀ p, p ≠ pos →
          refsAt ((s1.insert pos (s1.cellAt pos existing_cell).DeleteDependencedCells).insert
            pos c3) p = refsAt s p := by
        intro p hp
        rw [refsAt_insert, refsAt_insert]
        simp only [hp, if_false]
        exact (hco.to_keeps p).refs_eq
      obtain ⟨b, hb, hbiff⟩ := hN2 fuel hf2 _ hrel
      generalize hasCircularDependency L fuel (toSet (L.GetCells a)) (some pos) pos
        ((s1.insert pos (s1.cellAt pos existing_cell).DeleteDependencedCells).insert pos c3) =
        res at hb
      obtain ⟨r, s4⟩ := res
      simp only at hb
      subst hb
      cases b with
      | true =>
        simp only
        obtain ⟨c5, hc5, _, _⟩ :=
          Cell.Set_GetText hR existing_cell.cell_value_ (hs.2.2.1 pos _ hfind)
            (s4.cellAt pos c3)
        have hc5' : (s4.cellAt pos c3).Set L (existing_cell.GetText L) = .ok c5 := hc5
        simp only [hc5']
        exact ⟨fun _ => by trivial, fun h => absurd (hbiff.1 rfl) h⟩
      | false =>
        simp only
        refine ⟨fun h => ?_, fun _ => by trivial⟩
        have := hbiff.2 h
        cases this

/-- The two cases of `SetCell_circular_iff` on the sheet `A1 := "=B1"`, `B1 := "=C1"`: the
text `=A1` at C1 closes a cycle, the text `=A2` at C1 does not. -/
theorem SetCell_circular_iff_witness :
    (∃ N, ∀ fuel, N ≤ fuel →
      (SetCell plainLib fuel chainSheet C1 ("=" ++ "A1")).1 =
        .error .CircularDependencyException) ∧
    (∃ N, ∀ fuel, N ≤ fuel → (SetCell plainLib fuel chainSheet C1 ("=" ++ "A2")).1 = .ok ()) := by
  have hinv : SheetInv plainLib chainSheet :=
    Reachable.inv plainLib_cellsValid plainLib_reparses
      (Reachable.setCell 2 B1 "=C1"
        (Reachable.setCell 2 A1 "=B1" Reachable.empty (by decide) (by decide))
        (by decide) (by decide))
  have hclosed : ∀ q, Relation.TransGen (edge chainSheet) C1 q →
      (chainSheet.find q).isSome = true := by
    intro q hq
    rcases Relation.TransGen.tail'_iff.1 hq with ⟨x, _, hx⟩
    exact refClosed_of_check (by decide) x q hx
  constructor
  · obtain ⟨N, hN⟩ := SetCell_circular_iff plainLib plainLib_cellsValid plainLib_reparses
      chainSheet hinv C1 (by decide) "A1" (by decide) ⟨"A1", .cell A1 rfl, []⟩ (by decide)
      hclosed
    refine ⟨N, fun fuel hfuel => (hN fuel hfuel).1 ⟨A1, by decide, ?_⟩⟩
    have h1 : edge chainSheet A1 B1 := by unfold edge; decide
    have h2 : edge chainSheet B1 C1 := by unfold edge; decide
    exact Relation.ReflTransGen.head h1 (Relation.ReflTransGen.head h2 Relation.ReflTransGen.refl)
  · obtain ⟨N, hN⟩ := SetCell_circular_iff plainLib plainLib_cellsValid plainLib_reparses
      chainSheet hinv C1 (by decide) "A2" (by decide) ⟨"A2", .cell A2 rfl, []⟩ (by decide)
      hclosed
    refine ⟨N, fun fuel hfuel => (hN fuel hfuel).2 ?_⟩
    rintro ⟨r, hr, hreach⟩
    have hrA2 : r = A2 := by
      have : r ∈ [A2] := hr
      simpa using this
    subst hrA2
    rcases Relation.ReflTransGen.cases_head hreach with h | ⟨y, hy, _⟩
    · exact absurd h (by decide)
    · have : y ∈ refsAt chainSheet A2 := hy
      have hnil : refsAt chainSheet A2 = [] := by decide
      rw [hnil] at this
      cases this

/-! ## Invalid positions, `GetCell` and `ClearCell` -/

/-- C11: for every sheet and every invalid position, `SetCell`, `GetCell` and `ClearCell`
raise `InvalidPositionException` and leave the sheet as it was; for every valid position
`GetCell` raises nothing and returns the stored cell, or the null pointer when no cell is
stored. -/
theorem invalid_position_rejected {F AST : Type} (L : FormulaLib F AST) (fuel : Nat)
    (s : Sheet F AST) (pos : Position) (text : String) :
    (pos.IsValid = false →
      SetCell L fuel s pos text = (.error .InvalidPositionException, s) ∧
      GetCell s pos = .error .InvalidPositionException ∧
      ClearCell s pos = (.error .InvalidPositionException, s)) ∧
    (pos.IsValid = true → GetCell s pos = .ok (s.find pos)) := by
  constructor
  · intro hv
    simp [SetCell, SetCellWith, GetCell, ClearCell, hv]
  · intro hv
    simp [GetCell, hv]

theorem mem_erase {F AST : Type} {s : Sheet F AST} {pos : Position}
    {e : Position × Cell F AST} (h : e ∈ s.erase pos) : e ∈ s := by
  unfold Sheet.erase at h
  exact (List.mem_filter.1 h).1

theorem GetPrintableSize_mono {F AST : Type} {s s1 : Sheet F AST}
    (h : ∀ e ∈ s1, e ∈ s) :
    (GetPrintableSize s1).rows ≤ (GetPrintableSize s).rows ∧
    (GetPrintableSize s1).cols ≤ (GetPrintableSize s).cols := by
  obtain ⟨⟨h0r, h0c⟩, hin, _, _⟩ := foldl_size s ⟨0, 0⟩
  obtain ⟨_, _, hr, hc⟩ := foldl_size s1 ⟨0, 0⟩
  constructor
  · rcases hr with hr | ⟨e, he, hr⟩
    · exact hr ▸ h0r
    · exact hr ▸ (hin e (h e he)).1
  · rcases hc with hc | ⟨e, he, hc⟩
    · exact hc ▸ h0c
    · exact hc ▸ (hin e (h e he)).2

/-- C12: for every sheet and valid position `pos`, `ClearCell(pos)` returns, afterwards
`GetCell(pos)` is the null pointer, every other position holds what it held before (the
same cell, so the same text), and neither side of the printable size has grown. -/
theorem ClearCell_removes {F AST : Type} (s : Sheet F AST) (pos : Position)
    (hv : pos.IsValid = true) :
    (ClearCell s pos).1 = .ok () ∧
    GetCell (ClearCell s pos).2 pos = .ok none ∧
    (∀ q, q ≠ pos → (ClearCell s pos).2.find q = s.find q) ∧
    (GetPrintableSize (ClearCell s pos).2).rows ≤ (GetPrintableSize s).rows ∧
    (GetPrintableSize (ClearCell s pos).2).cols ≤ (GetPrintableSize s).cols := by
  unfold ClearCell
  simp only [hv, if_true]
  cases hf : s.find pos with
  | none =>
    simp only [Option.isSome_none, Bool.false_eq_true, if_false, GetCell, hv, if_true, hf]
    exact ⟨trivial, trivial, fun _ _ => trivial, le_refl _, le_refl _⟩
  | some c =>
    simp only [Option.isSome_some, if_true, GetCell, hv]
    refine ⟨trivial, ?_, ?_, GetPrintableSize_mono (fun e he => mem_erase he)⟩
    · rw [find_erase]; simp
    · intro q hq
      rw [find_erase]; simp [hq]

/-- C12 on the sheet `A1 := "=B1"`, `B1 := "=C1"`, clearing B1. -/
theorem ClearCell_removes_witness :
    (ClearCell chainSheet B1).1 = .ok () ∧
    GetCell (ClearCell chainSheet B1).2 B1 = .ok none ∧
    (∀ q, q ≠ B1 → (ClearCell chainSheet B1).2.find q = chainSheet.find q) ∧
    (GetPrintableSize (ClearCell chainSheet B1).2).rows ≤ (GetPrintableSize chainSheet).rows ∧
    (GetPrintableSize (ClearCell chainSheet B1).2).cols ≤ (GetPrintableSize chainSheet).cols :=
  ClearCell_removes chainSheet B1 (by decide)

/-! ## The three kinds of content -/

/-- C13: `Cell::Set(text)` classifies every text.  The empty text gives `Empty`; a text that
begins with the formula sign and has further characters gives the `Formula` parsed from the
text without its first character, with no cached value, or raises `FormulaException` when
that does not parse; every other text, the formula sign alone included, gives `Text` that
stores the text itself. -/
theorem Cell.Set_classifies {F AST : Type} (L : FormulaLib F AST) (c : Cell F AST)
    (text : String) :
    (text = "" → Cell.Set L c text = .ok { c with cell_value_ := .EmptyImpl }) ∧
    (∀ rest, text.data = FORMULA_SIGN :: rest → rest ≠ [] →
      Cell.Set L c text =
        match ParseFormula L (String.mk rest) with
        | some f => .ok { c with cell_value_ := .FormulaImpl f none }
        | none => .error .FormulaException) ∧
    (text ≠ "" → (∀ rest, text.data = FORMULA_SIGN :: rest → rest = []) →
      Cell.Set L c text = .ok { c with cell_value_ := .TextImpl text }) := by
  refine ⟨?_, ?_, ?_⟩
  · intro h
    subst h
    rfl
  · intro rest hd hr
    unfold Cell.Set
    rw [hd]
    simp only [hr, and_false, or_false, ne_eq, not_true_eq_false, if_false]
  · intro hne hrest
    unfold Cell.Set
    cases hd : text.data with
    | nil => exact absurd (String.ext hd) hne
    | cons ch rest =>
      simp only
      by_cases hc : ch = FORMULA_SIGN
      · subst hc
        have := hrest rest hd
        simp [this]
      · simp [hc]

/-- C14: for every text that `Cell::Set` stores as `Text` (it is never empty), `GetText`
returns the text itself, and `GetValue` of a cell of a sheet with that content returns the text without
its first character when it begins with the apostrophe, and the text itself otherwise. -/
theorem text_cell_text_and_value {F AST : Type} (L : FormulaLib F AST) (c c1 : Cell F AST)
    (text : String) (hset : Cell.Set L c text = .ok c1)
    (htype : c1.GetType = .TEXT) :
    c1.GetText L = text ∧
    ∀ (fuel : Nat) (s : Sheet F AST) (p : Position), s.find p = some c1 →
      (∀ rest, text.data = ESCAPE_SIGN :: rest →
        GetValue L fuel s p = (.ok (.text (String.mk rest)), s)) ∧
      ((∀ rest, text.data ≠ ESCAPE_SIGN :: rest) →
        GetValue L fuel s p = (.ok (.text text), s)) := by
  have hval : c1.cell_value_ = .TextImpl text := by
    rcases (Cell.Set_ok hset).2 with ⟨_, h⟩ | ⟨_, _, _, _, h⟩ | ⟨_, _, _, _, _, h⟩
    · rw [Cell.GetType, h] at htype; cases htype
    · exact h
    · rw [Cell.GetType, h] at htype; cases htype
  refine ⟨by rw [Cell.GetText, hval]; rfl, ?_⟩
  intro fuel s p hp
  have hget : GetValue L fuel s p = (.ok (.text (textValue text)), s) := by
    cases fuel <;> simp [GetValue, GetValueWith, hp, hval]
  constructor
  · intro rest hd
    rw [hget]
    simp [textValue, hd]
  · intro hno
    rw [hget]
    unfold textValue
    cases hd : text.data with
    | nil => rfl
    | cons ch rest =>
      simp only
      by_cases hc : ch = ESCAPE_SIGN
      · subst hc
        exact absurd hd (hno rest)
      · simp [hc]

/-- C14 on the text of the apostrophe followed by `hello`, stored at A2. -/
theorem text_cell_text_and_value_witness :
    Cell.GetText plainLib (⟨.TextImpl (String.mk (ESCAPE_SIGN :: "hello".data)), []⟩ :
      Cell ℚ PlainAST) = String.mk (ESCAPE_SIGN :: "hello".data) ∧
    GetValue plainLib 0 coercionSheet A2 = (.ok (.text "hello"), coercionSheet) := by
  have h := text_cell_text_and_value plainLib ⟨.EmptyImpl, []⟩
    ⟨.TextImpl (String.mk (ESCAPE_SIGN :: "hello".data)), []⟩
    (String.mk (ESCAPE_SIGN :: "hello".data)) (by decide) (by decide)
  exact ⟨h.1, (h.2 0 coercionSheet A2 (by decide)).1 "hello".data rfl⟩

/-! ## The referenced cells of a formula are sorted -/

theorem Position.lt_iff (a b : Position) :
    a.lt b = true ↔ a.row < b.row ∨ (a.row = b.row ∧ a.col < b.col) := by
  simp [Position.lt]

theorem Position.lt_irrefl (a : Position) : a.lt a = false := by
  simp [Position.lt]

theorem Position.lt_trans {a b c : Position} (h1 : a.lt b = true) (h2 : b.lt c = true) :
    a.lt c = true := by
  rw [Position.lt_iff] at *
  omega

theorem Position.eq_of_not_lt {a b : Position} (h1 : ¬ a.lt b = true) (h2 : ¬ b.lt a = true) :
    a = b := by
  rw [Position.lt_iff] at h1 h2
  cases a with
  | mk ar ac =>
    cases b with
    | mk br bc =>
      simp only at h1 h2
      have hr : ar = br := by omega
      have hc : ac = bc := by omega
      rw [hr, hc]

theorem mem_setInsert_iff {p q : Position} {l : List Position} :
    q ∈ setInsert p l ↔ q = p ∨ q ∈ l := by
  constructor
  · exact mem_setInsert
  · induction l with
    | nil => intro h; simpa [setInsert] using h
    | cons a l ih =>
      intro h
      unfold setInsert
      by_cases h1 : p.lt a = true
      · simp only [h1, if_true]
        rcases h with h | h
        · exact h ▸ List.mem_cons_self _ _
        · exact List.mem_cons_of_mem _ h
      · by_cases h2 : a.lt p = true
        · simp only [h1, h2, if_true, if_false]
          rcases h with h | h
          · exact List.mem_cons_of_mem _ (ih (Or.inl h))
          · rcases List.mem_cons.1 h with h | h
            · exact h ▸ List.mem_cons_self _ _
            · exact List.mem_cons_of_mem _ (ih (Or.inr h))
        · simp only [h1, h2, if_false]
          rcases h with h | h
          · rw [h, Position.eq_of_not_lt h1 h2]
            exact List.mem_cons_self _ _
          · exact h

theorem setInsert_sorted {p : Position} {l : List Position}
    (h : l.Pairwise (fun a b => a.lt b = true)) :
    (setInsert p l).Pairwise (fun a b => a.lt b = true) := by
  induction l with
  | nil => simp [setInsert]
  | cons a l ih =>
    obtain ⟨ha, hl⟩ := List.pairwise_cons.1 h
    unfold setInsert
    by_cases h1 : p.lt a = true
    · simp only [h1, if_true]
      refine List.pairwise_cons.2 ⟨?_, h⟩
      intro x hx
      rcases List.mem_cons.1 hx with hx | hx
      · rw [hx]; exact h1
      · exact Position.lt_trans h1 (ha x hx)
    · by_cases h2 : a.lt p = true
      · simp only [h1, h2, if_true, if_false]
        refine List.pairwise_cons.2 ⟨?_, ih hl⟩
        intro x hx
        rcases mem_setInsert hx with hx | hx
        · rw [hx]; exact h2
        · exact ha x hx
      · simp only [h1, h2, if_false]
        exact h

theorem foldl_setInsert_sorted (l acc : List Position)
    (h : acc.Pairwise (fun a b => a.lt b = true)) :
    (l.foldl (fun acc p => setInsert p acc) acc).Pairwise (fun a b => a.lt b = true) := by
  induction l generalizing acc with
  | nil => exact h
  | cons a l ih => exact ih _ (setInsert_sorted h)

theorem mem_foldl_setInsert_iff {q : Position} (l acc : List Position) :
    q ∈ l.foldl (fun acc p => setInsert p acc) acc ↔ q ∈ acc ∨ q ∈ l := by
  induction l generalizing acc with
  | nil => simp
  | cons a l ih =>
    simp only [List.foldl_cons, ih, mem_setInsert_iff, List.mem_cons]
    constructor
    · rintro ((h | h) | h)
      · exact Or.inr (Or.inl h)
      · exact Or.inl h
      · exact Or.inr (Or.inr h)
    · rintro (h | h | h)
      · exact Or.inl (Or.inr h)
      · exact Or.inl (Or.inl h)
      · exact Or.inr h

theorem toSet_sorted (l : List Position) :
    (toSet l).Pairwise (fun a b => a.lt b = true) :=
  foldl_setInsert_sorted l [] List.Pairwise.nil

theorem mem_toSet_iff {q : Position} {l : List Position} : q ∈ toSet l ↔ q ∈ l := by
  unfold toSet
  rw [mem_foldl_setInsert_iff]
  simp

/-- C17: for every parsed formula, `GetReferencedCells()` is strictly increasing in the order
of the positions, hence without duplicates, and its members are exactly the positions that
`GetCells()` of the parsed expression reports. -/
theorem GetReferencedCells_sorted {F AST : Type} (L : FormulaLib F AST) (e : String)
    (f : Formula AST) (h : ParseFormula L e = some f) :
    f.GetReferencedCells.Pairwise (fun a b => a.lt b = true) ∧
    f.GetReferencedCells.Nodup ∧
    ∀ p, p ∈ f.GetReferencedCells ↔ p ∈ L.GetCells f.ast_ := by
  obtain ⟨a, _, hf⟩ := ParseFormula_some h
  subst hf
  refine ⟨toSet_sorted _, ?_, fun p => mem_toSet_iff⟩
  refine List.Pairwise.imp ?_ (toSet_sorted (L.GetCells a))
  intro x y hxy hne
  rw [hne, Position.lt_irrefl] at hxy
  cases hxy

/-- C17 on the expression `B1+A1+B1`, whose referenced cells are A1, B1. -/
theorem GetReferencedCells_sorted_witness :
    ∃ f, ParseFormula plainLib "B1+A1+B1" = some f ∧
      plainLib.GetCells f.ast_ = [B1, A1, B1] ∧ f.GetReferencedCells = [A1, B1] ∧
      f.GetReferencedCells.Pairwise (fun a b => a.lt b = true) ∧
      f.GetReferencedCells.Nodup ∧
      ∀ p, p ∈ f.GetReferencedCells ↔ p ∈ plainLib.GetCells f.ast_ :=
  ⟨⟨⟨"B1+A1+B1", .cell B1 rfl, [('+', .cell A1 rfl), ('+', .cell B1 rfl)]⟩, [B1, A1, B1]⟩,
    by decide, by decide, by decide,
    GetReferencedCells_sorted plainLib "B1+A1+B1" _ (by decide)⟩

/-! ## Printing the texts -/

section
variable {F AST : Type}

theorem push_eq_append (s : String) (c : Char) : s.push c = s ++ String.singleton c := by
  apply String.ext
  simp [String.singleton]

theorem intercalate_go_append (x y sep : String) (l : List String) :
    String.intercalate.go (x ++ y) sep l = x ++ String.intercalate.go y sep l := by
  induction l generalizing y with
  | nil => rfl
  | cons a l ih =>
    simp only [String.intercalate.go]
    rw [String.append_assoc, String.append_assoc, ih, String.append_assoc]

theorem foldl_append_string (l : List String) (acc : String) :
    l.foldl (fun r s => r ++ s) acc = acc ++ l.foldl (fun r s => r ++ s) "" := by
  induction l generalizing acc with
  | nil => simp
  | cons a l ih =>
    simp only [List.foldl_cons, String.empty_append]
    rw [ih, ih a, String.append_assoc]

theorem mem_intRange {n i : Int} (h : i ∈ intRange n) : 0 ≤ i ∧ i < n := by
  unfold intRange at h
  obtain ⟨k, hk, rfl⟩ := List.mem_map.1 h
  have hk1 := List.mem_range.1 hk
  constructor
  · exact Int.ofNat_nonneg k
  · have : (k : Int) < (n.toNat : Int) := by exact_mod_cast hk1
    have h2 : (n.toNat : Int) = max n 0 := Int.toNat_eq_max n
    have : Int.ofNat k < max n 0 := by rw [← h2]; exact this
    rcases max_cases n 0 with ⟨hm, _⟩ | ⟨hm, _⟩
    · rw [hm] at this; exact this
    · rw [hm] at this
      have := Int.ofNat_nonneg k
      omega

theorem GetCell_textAt (L : FormulaLib F AST) (s : Sheet F AST) {p : Position}
    (hv : p.IsValid = true) :
    (GetCell s p = .ok none ∧ textAt L s p = "") ∨
    (∃ c, GetCell s p = .ok (some c) ∧ textAt L s p = c.GetText L) := by
  unfold GetCell textAt
  simp only [hv, if_true]
  cases s.find p with
  | none => exact Or.inl ⟨rfl, rfl⟩
  | some c => exact Or.inr ⟨c, rfl, rfl⟩

/-- The inner loop after the first column: every further text follows a tab. -/
theorem PrintTextsCols_rest (L : FormulaLib F AST) (s : Sheet F AST) (row : Int)
    (cols : List Int) (hv : ∀ col ∈ cols, (⟨row, col⟩ : Position).IsValid = true)
    (output : String) :
    PrintTextsCols L s row cols true output =
      (.ok (), String.intercalate.go output "\t"
        (cols.map (fun col => textAt L s ⟨row, col⟩))) := by
  induction cols generalizing output with
  | nil => rfl
  | cons col rest ih =>
    have hrest : ∀ c ∈ rest, (⟨row, c⟩ : Position).IsValid = true :=
      fun c hc => hv c (List.mem_cons_of_mem _ hc)
    unfold PrintTextsCols
    simp only [if_true, List.map_cons, String.intercalate.go]
    rcases GetCell_textAt L s (hv col (List.mem_cons_self _ _)) with ⟨hg, ht⟩ | ⟨c, hg, ht⟩
    · rw [hg, ht]
      simp only
      rw [ih hrest, push_eq_append]
      simp [String.singleton]
      rfl
    · rw [hg, ht]
      simp only
      rw [ih hrest, push_eq_append]
      rfl

/-- The inner loop: the texts of the columns joined by a tab. -/
theorem PrintTextsCols_row (L : FormulaLib F AST) (s : Sheet F AST) (row : Int)
    (cols : List Int) (hv : ∀ col ∈ cols, (⟨row, col⟩ : Position).IsValid = true)
    (output : String) :
    PrintTextsCols L s row cols false output =
      (.ok (), output ++ String.intercalate "\t"
        (cols.map (fun col => textAt L s ⟨row, col⟩))) := by
  cases cols with
  | nil => simp [PrintTextsCols, String.intercalate]
  | cons col rest =>
    have hrest : ∀ c ∈ rest, (⟨row, c⟩ : Position).IsValid = true :=
      fun c hc => hv c (List.mem_cons_of_mem _ hc)
    unfold PrintTextsCols
    simp only [Bool.false_eq_true, if_false, List.map_cons, String.intercalate]
    rcases GetCell_textAt L s (hv col (List.mem_cons_self _ _)) with ⟨hg, ht⟩ | ⟨c, hg, ht⟩
    · rw [hg, ht]
      simp only
      rw [PrintTextsCols_rest L s row rest hrest]
      have := intercalate_go_append output "" "\t"
        (rest.map (fun col => textAt L s ⟨row, col⟩))
      rw [String.append_empty] at this
      rw [this]
    · rw [hg, ht]
      simp only
      rw [PrintTextsCols_rest L s row rest hrest, intercalate_go_append]

/-- The outer loop: the rows one after the other, each followed by a newline. -/
theorem PrintTextsRows_rows (L : FormulaLib F AST) (s : Sheet F AST) (cols rows : List Int)
    (hv : ∀ row ∈ rows, ∀ col ∈ cols, (⟨row, col⟩ : Position).IsValid = true)
    (output : String) :
    PrintTextsRows L s cols rows output =
      (.ok (), output ++ String.join (rows.map (fun row =>
        String.intercalate "\t" (cols.map (fun col => textAt L s ⟨row, col⟩)) ++ "\n"))) := by
  induction rows generalizing output with
  | nil => simp [PrintTextsRows, String.join]
  | cons row rest ih =>
    unfold PrintTextsRows
    rw [PrintTextsCols_row L s row cols (hv row (List.mem_cons_self _ _))]
    simp only
    rw [ih (fun r hr => hv r (List.mem_cons_of_mem _ hr)), push_eq_append]
    simp only [String.join, List.map_cons, List.foldl_cons, String.empty_append]
    rw [foldl_append_string _ (String.intercalate _ _ ++ _)]
    simp only [String.append_assoc]
    rfl

theorem size_le_max {s : Sheet F AST} (hs : StoredValid s) :
    (GetPrintableSize s).rows ≤ MAX_ROWS ∧ (GetPrintableSize s).cols ≤ MAX_COLS := by
  obtain ⟨_, _, hr, hc⟩ := foldl_size s ⟨0, 0⟩
  have hvalid : ∀ e ∈ s, e.1.row < MAX_ROWS ∧ e.1.col < MAX_COLS := by
    intro e he
    have := hs e.1 ((stored_iff_mem s e.1).2 ⟨e, he, rfl⟩)
    simp only [Position.IsValid, Bool.and_eq_true, decide_eq_true_eq] at this
    exact ⟨this.1.2, this.2⟩
  constructor
  · rcases hr with hr | ⟨e, he, hr⟩
    · have h0 : (GetPrintableSize s).rows = 0 := hr
      rw [h0]; decide
    · have h1 : (GetPrintableSize s).rows = e.1.row + 1 := hr
      rw [h1]
      have := (hvalid e he).1
      omega
  · rcases hc with hc | ⟨e, he, hc⟩
    · have h0 : (GetPrintableSize s).cols = 0 := hc
      rw [h0]; decide
    · have h1 : (GetPrintableSize s).cols = e.1.col + 1 := hc
      rw [h1]
      have := (hvalid e he).2
      omega

/-- C16: for every sheet whose stored positions are valid, as they are in every reachable
sheet, `PrintTexts` returns and has written, for the rows 0 to R-1 of the printable size
(R, C) in order, the texts of the columns 0 to C-1 joined by a single tab and followed by
one newline, the text of a position being `GetText()` of the stored cell and the empty
string when no cell is stored. -/
theorem PrintTexts_output (L : FormulaLib F AST) (s : Sheet F AST) (hs : StoredValid s) :
    PrintTexts L s = (.ok (), printedTexts L s) := by
  unfold PrintTexts printedTexts
  rw [PrintTextsRows_rows, String.empty_append]
  intro row hrow col hcol
  obtain ⟨hr0, hr1⟩ := mem_intRange hrow
  obtain ⟨hc0, hc1⟩ := mem_intRange hcol
  obtain ⟨hmr, hmc⟩ := size_le_max hs
  simp only [Position.IsValid, Bool.and_eq_true, decide_eq_true_eq]
  exact ⟨⟨⟨hr0, hc0⟩, lt_of_lt_of_le hr1 hmr⟩, lt_of_lt_of_le hc1 hmc⟩

end

/-- C16 on the empty sheet and on the sheet after `B2 := "hi"`: the output is empty on the
first; on the second the printable size is (2, 2) and the output a tab, a newline, a tab,
`hi` and a newline. -/
theorem PrintTexts_output_witness :
    PrintTexts plainLib ([] : Sheet ℚ PlainAST) = (.ok (), "") ∧
    GetPrintableSize hiSheet = ⟨2, 2⟩ ∧
    printedTexts plainLib hiSheet = "\t\n\thi\n" ∧
    PrintTexts plainLib hiSheet = (.ok (), printedTexts plainLib hiSheet) :=
  ⟨by decide, by decide, by decide,
    PrintTexts_output plainLib hiSheet
      (Reachable.inv plainLib_cellsValid plainLib_reparses
        (Reachable.setCell 0 B2 "hi" Reachable.empty (by decide) (by decide))).2.2.2⟩

/-! ## The frame of `SetCell` -/

section
variable {F AST : Type}

/-- What `SetCell` leaves of every position other than `pos`, whatever its outcome. -/
theorem SetCell_keeps (L : FormulaLib F AST) (n : Nat) (s : Sheet F AST) (pos : Position)
    (text : String) : ∀ p, p ≠ pos → Keeps s (SetCell L n s pos text).2 p := by
  intro p hp
  unfold SetCell SetCellWith
  by_cases hv : pos.IsValid = true
  swap
  · simp only [hv]; exact Keeps.same s p
  simp only [hv, if_true]
  cases hfind : s.find pos with
  | none =>
    simp only
    cases hnew : Cell.new L text with
    | error e => exact Keeps.same s p
    | ok tmp =>
      simp only
      obtain ⟨hext, -, -⟩ :=
        hasCircularDependency_post L n none pos tmp.GetReferencedCells s
      generalize hasCircularDependency L n tmp.GetReferencedCells none pos s = res at hext ⊢
      obtain ⟨r, s1⟩ := res
      simp only at hext ⊢
      rcases r with e | b
      · exact hext.keeps p
      · cases b
        · exact (hext.keeps p).insert_off _ hp
        · exact hext.keeps p
  | some existing_cell =>
    simp only
    by_cases htext : existing_cell.GetText L = text
    · simp only [htext, if_true]; exact Keeps.same s p
    simp only [htext, if_false]
    have hco := InvalidateCellsByPos_cacheOnly n s pos
    generalize InvalidateCellsByPos n s pos = ri at hco ⊢
    obtain ⟨r1, s1⟩ := ri
    simp only at hco
    cases r1 with
    | error e => exact hco.to_keeps p
    | ok u =>
      simp only
      have hk2 : Keeps s (s1.insert pos (s1.cellAt pos existing_cell).DeleteDependencedCells) p :=
        (hco.to_keeps p).insert_off _ hp
      cases hset : (s1.cellAt pos existing_cell).DeleteDependencedCells.Set L text with
      | error e => exact hk2
      | ok c3 =>
        simp only
        obtain ⟨hext, -, -⟩ :=
          hasCircularDependency_post L n (some pos) pos c3.GetReferencedCells
            ((s1.insert pos (s1.cellAt pos existing_cell).DeleteDependencedCells).insert pos c3)
        generalize hasCircularDependency L n c3.GetReferencedCells (some pos) pos
          ((s1.insert pos (s1.cellAt pos existing_cell).DeleteDependencedCells).insert pos c3)
          = res at hext ⊢
        obtain ⟨r, s4⟩ := res
        simp only at hext ⊢
        have hk4 : Keeps s s4 p := (hk2.insert_off c3 hp).comp (hext.keeps p)
        rcases r with e | b
        · exact hk4
        · cases b
          · exact hk4.insert_off _ hp
          · simp only
            cases (s4.cellAt pos c3).Set L (existing_cell.GetText L) with
            | error e => exact hk4
            | ok c5 => exact hk4.insert_off _ hp

theorem Keeps.same_text (L : FormulaLib F AST) {s s1 : Sheet F AST} {p : Position}
    (h : Keeps s s1 p) {c : Cell F AST} (hc : s.find p = some c) :
    ∃ c1, s1.find p = some c1 ∧ c1.GetText L = c.GetText L := by
  rcases h with ⟨c0, c1, hc0, hc1, he⟩ | ⟨hn, _⟩
  · rw [hc] at hc0
    cases hc0
    exact ⟨c1, hc1, text_of_ResetCache_eq L he⟩
  · rw [hc] at hn; cases hn

end

/-- C19: the frame of `SetCell`.  For every sheet, position `pos` and text, and every
position `q` other than `pos` at which a cell is stored before the call, a cell is stored at
`q` after `SetCell(pos, text)` and its `GetText()` is the same as before, whether the call
returns or throws (and whatever bound is put on the depth of its recursion). -/
theorem SetCell_frame {F AST : Type} (L : FormulaLib F AST) (fuel : Nat) (s : Sheet F AST)
    (pos : Position) (text : String) (q : Position) (c : Cell F AST) (hq : q ≠ pos)
    (hc : s.find q = some c) :
    ∃ c1, (SetCell L fuel s pos text).2.find q = some c1 ∧ c1.GetText L = c.GetText L :=
  (SetCell_keeps L fuel s pos text q hq).same_text L hc

/-- C19 on the sheet after `A1 := "=B1"` and `B1 := "=C1"`: the rejected call
`SetCell(C1, "=A1")` leaves a cell with the same text at A1. -/
theorem SetCell_frame_witness :
    A1 ≠ C1 ∧ chainSheet.find A1 = some ((chainSheet.find A1).getD emptyCell) ∧
    ((chainSheet.find A1).getD emptyCell).GetText plainLib = "=B1" ∧
    ∃ c1, (SetCell plainLib 3 chainSheet C1 "=A1").2.find A1 = some c1 ∧
      c1.GetText plainLib = ((chainSheet.find A1).getD emptyCell).GetText plainLib :=
  ⟨by decide, by decide, by decide,
    SetCell_frame plainLib 3 chainSheet C1 "=A1" A1 _ (by decide) (by decide)⟩

/-! ## `SetCell` stores the missing referenced cells -/

section
variable {F AST : Type}

/-- A path that starts where no path of `E` reaches `pos` is a path of `E` when the two
relations agree off `pos`. -/
theorem reach_off {E E1 : Position → Position → Prop} {pos : Position}
    (hagree : ∀ a b, a ≠ pos → E1 a b → E a b) {x : Position}
    (hx : ∀ q, Relation.ReflTransGen E x q → q ≠ pos) {q : Position}
    (h : Relation.ReflTransGen E1 x q) : Relation.ReflTransGen E x q := by
  induction h with
  | refl => exact Relation.ReflTransGen.refl
  | tail _ hbc ih => exact Relation.ReflTransGen.tail ih (hagree _ _ (hx _ ih) hbc)

/-- A call of `SetCell` that returns and is not the call with the text the cell already has
stores at `pos` a cell made by `Cell::Set`, after a search that has found every position
reached from its referenced cells stored and other than `pos`. -/
theorem SetCell_ok_spec (L : FormulaLib F AST) (n : Nat) (s : Sheet F AST) (pos : Position)
    (text : String) (hok : (SetCell L n s pos text).1 = .ok ())
    (hchg : ∀ c, s.find pos = some c → c.GetText L ≠ text) :
    ∃ c0 c2 s4, Cell.Set L c0 text = .ok c2 ∧
      (SetCell L n s pos text).2 = s4.insert pos c2.addReferenced ∧
      ∀ x ∈ c2.GetReferencedCells, ∀ q, Relation.ReflTransGen (edge s4) x q →
        q ≠ pos ∧ (s4.find q).isSome = true := by
  unfold SetCell SetCellWith at hok ⊢
  by_cases hv : pos.IsValid = true
  swap
  · simp [hv] at hok
  simp only [hv, if_true] at hok ⊢
  cases hfind : s.find pos with
  | none =>
    simp only [hfind] at hok ⊢
    cases hnew : Cell.new L text with
    | error e => simp [hnew] at hok
    | ok tmp =>
      simp only [hnew] at hok ⊢
      obtain ⟨-, -, hsound⟩ :=
        hasCircularDependency_post L n none pos tmp.GetReferencedCells s
      generalize hasCircularDependency L n tmp.GetReferencedCells none pos s = res
        at hsound hok ⊢
      obtain ⟨r, s1⟩ := res
      simp only at hsound hok ⊢
      rcases r with e | b
      · simp at hok
      · cases b
        · exact ⟨_, tmp, s1, hnew, rfl, hsound rfl⟩
        · simp at hok
  | some existing_cell =>
    simp only [hfind] at hok ⊢
    have htext : ¬ existing_cell.GetText L = text := hchg existing_cell hfind
    simp only [htext, if_false] at hok ⊢
    generalize InvalidateCellsByPos n s pos = ri at hok ⊢
    obtain ⟨r1, s1⟩ := ri
    cases r1 with
    | error e => simp at hok
    | ok u =>
      simp only at hok ⊢
      cases hset : (s1.cellAt pos existing_cell).DeleteDependencedCells.Set L text with
      | error e => simp [hset] at hok
      | ok c3 =>
        simp only [hset] at hok ⊢
        obtain ⟨hext, -, hsound⟩ :=
          hasCircularDependency_post L n (some pos) pos c3.GetReferencedCells
            ((s1.insert pos (s1.cellAt pos existing_cell).DeleteDependencedCells).insert pos c3)
        generalize hasCircularDependency L n c3.GetReferencedCells (some pos) pos
          ((s1.insert pos (s1.cellAt pos existing_cell).DeleteDependencedCells).insert pos c3)
          = res at hext hsound hok ⊢
        obtain ⟨r, s4⟩ := res
        simp only at hext hsound hok ⊢
        have hc4 : s4.find pos = some c3 := by
          rw [hext.find_pos, find_insert_self]
        have hcell4 : s4.cellAt pos c3 = c3 := by simp [Sheet.cellAt, hc4]
        rcases r with e | b
        · simp at hok
        · cases b
          · simp only [hcell4]
            exact ⟨_, c3, s4, hset, rfl, hsound rfl⟩
          · simp only [hcell4] at hok
            cases hc5 : c3.Set L (existing_cell.GetText L) with
            | error e => simp [hc5] at hok
            | ok c5 => simp [hc5] at hok

theorem GetValue_empty (L : FormulaLib F AST) (k : Nat) {s : Sheet F AST} {q : Position}
    {d : List Position} (h : s.find q = some ⟨.EmptyImpl, d⟩) :
    GetValue L k s q = (.ok (.number L.zero), s) := by
  cases k <;> simp [GetValue, GetValueWith, h]

end

/-- C18 fails as stated: the sheet after `A1 := "=B1"` and `ClearCell(B1)` is acyclic and A1
is a valid position; `SetCell(A1, "=B1")` returns without raising and leaves the sheet as it
is, so the position B1, which the cell at A1 references, has no stored cell afterwards. -/
theorem SetCell_same_text_stores_nothing :
    Acyclic danglingSheet ∧ A1.IsValid = true ∧
    SetCell plainLib 2 danglingSheet A1 "=B1" = (.ok (), danglingSheet) ∧
    (danglingSheet.find A1).map Cell.GetReferencedCells = some [B1] ∧
    GetCell danglingSheet B1 = .ok none := by
  refine ⟨?_, by decide, by decide, by decide, by decide⟩
  exact (Reachable.inv plainLib_cellsValid plainLib_reparses
    (Reachable.clearCell B1
      (Reachable.setCell 1 A1 "=B1" Reachable.empty (by decide) (by decide)))).1

/-- C18, with the call on the text the cell already has left out.  For every sheet, position
`pos` and text: if `SetCell(pos, text)` returns without raising and no cell with this same
text was stored at `pos` before, then a cell made by `Cell::Set` from the text is stored at
`pos` afterwards, and every position in its `GetReferencedCells()`, and every position
referenced from them through any number of cells, has a stored cell afterwards; each such
position that had no cell before the call holds an `Empty` cell: its `GetText()` is the
empty string and its `GetValue()` is the number 0. -/
theorem SetCell_stores_referenced {F AST : Type} (L : FormulaLib F AST) (fuel k : Nat)
    (s : Sheet F AST) (pos : Position) (text : String)
    (hok : (SetCell L fuel s pos text).1 = .ok ())
    (hchg : ∀ c, s.find pos = some c → c.GetText L ≠ text) :
    ∃ c1, (SetCell L fuel s pos text).2.find pos = some c1 ∧
      (∃ c0 c2, Cell.Set L c0 text = .ok c2 ∧ c1.cell_value_ = c2.cell_value_) ∧
      ∀ x ∈ c1.GetReferencedCells, ∀ q,
        Relation.ReflTransGen (edge (SetCell L fuel s pos text).2) x q →
        ∃ cq, (SetCell L fuel s pos text).2.find q = some cq ∧
          (s.find q = none →
            cq.GetType = .EMPTY ∧ cq.GetText L = "" ∧
            GetValue L k (SetCell L fuel s pos text).2 q =
              (.ok (.number L.zero), (SetCell L fuel s pos text).2)) := by
  obtain ⟨c0, c2, s4, hset, hres, hsound⟩ := SetCell_ok_spec L fuel s pos text hok hchg
  have hkeep := SetCell_keeps L fuel s pos text
  rw [hres] at hkeep ⊢
  refine ⟨c2.addReferenced, find_insert_self _ _ _, ⟨c0, c2, hset, addReferenced_value c2⟩, ?_⟩
  intro x hx q hxq
  rw [addReferenced_refs] at hx
  have hoff : ∀ a b, a ≠ pos → edge (s4.insert pos c2.addReferenced) a b → edge s4 a b := by
    intro a b ha hab
    unfold edge at hab ⊢
    rw [refsAt_insert] at hab
    simpa [ha] using hab
  have hq := hsound x hx q (reach_off hoff (fun q hq => (hsound x hx q hq).1) hxq)
  have hfq : (s4.insert pos c2.addReferenced).find q = s4.find q := find_insert_ne _ _ _ _ hq.1
  cases hc : s4.find q with
  | none => rw [hc] at hq; simp at hq
  | some cq =>
    refine ⟨cq, hfq.trans hc, ?_⟩
    intro hn
    rcases hkeep q hq.1 with ⟨c, _, hcq, _, _⟩ | ⟨_, hn1 | ⟨_, d, hd⟩⟩
    · rw [hn] at hcq; cases hcq
    · rw [hfq, hc] at hn1; cases hn1
    · have hcq : cq = ⟨.EmptyImpl, d⟩ := by
        rw [hfq, hc] at hd
        exact Option.some.inj hd
      subst hcq
      exact ⟨rfl, rfl, GetValue_empty L k hd⟩

/-- C18 on the sheet after `A1 := "=B1"`, `B1 := "=C1"` and `ClearCell(C1)`: the call
`SetCell(A2, "=A1")` returns, A2 was absent and C1, reached from A2 through A1 and B1, had
no cell. -/
theorem SetCell_stores_referenced_witness :
    (SetCell plainLib 3 clearedChainSheet A2 "=A1").1 = .ok () ∧
    clearedChainSheet.find A2 = none ∧ clearedChainSheet.find C1 = none ∧
    (SetCell plainLib 3 clearedChainSheet A2 "=A1").2.find C1 = some emptyCell ∧
    ∃ c1, (SetCell plainLib 3 clearedChainSheet A2 "=A1").2.find A2 = some c1 ∧
      (∃ c0 c2, Cell.Set plainLib c0 "=A1" = .ok c2 ∧ c1.cell_value_ = c2.cell_value_) ∧
      ∀ x ∈ c1.GetReferencedCells, ∀ q,
        Relation.ReflTransGen (edge (SetCell plainLib 3 clearedChainSheet A2 "=A1").2) x q →
        ∃ cq, (SetCell plainLib 3 clearedChainSheet A2 "=A1").2.find q = some cq ∧
          (clearedChainSheet.find q = none →
            cq.GetType = .EMPTY ∧ cq.GetText plainLib = "" ∧
            GetValue plainLib 0 (SetCell plainLib 3 clearedChainSheet A2 "=A1").2 q =
              (.ok (.number plainLib.zero), (SetCell plainLib 3 clearedChainSheet A2 "=A1").2)) :=
  ⟨by decide, by decide, by decide, by decide,
    SetCell_stores_referenced plainLib 3 0 clearedChainSheet A2 "=A1" (by decide)
      (fun _ h => Option.noConfusion
        ((show clearedChainSheet.find A2 = none by decide).symm.trans h))⟩

/-! ## The referenced cells stay stored under `SetCell` -/

section
variable {F AST : Type}

theorem RefClosed.keep_off {s s1 : Sheet F AST} {pos : Position} (h : RefClosed s)
    (hk : ∀ p, p ≠ pos → Keeps s s1 p)
    (hst : (s.find pos).isSome = true → (s1.find pos).isSome = true)
    (hrefs : ∀ q ∈ refsAt s1 pos, q ∈ refsAt s pos) : RefClosed s1 := by
  intro p q hpq
  have hsq : edge s p q := by
    by_cases hp : p = pos
    · subst hp; exact hrefs q hpq
    · unfold edge at hpq ⊢
      rw [← (hk p hp).refs_eq]; exact hpq
  have hq := h p q hsq
  by_cases hqp : q = pos
  · subst hqp; exact hst hq
  · exact (hk q hqp).still_stored hq

theorem RefClosed.keep {s s1 : Sheet F AST} (h : RefClosed s) (hk : ∀ p, Keeps s s1 p) :
    RefClosed s1 := by
  intro p q hpq
  unfold edge at hpq
  rw [(hk p).refs_eq] at hpq
  exact (hk q).still_stored (h p q hpq)

theorem RefClosed.cacheOnly {s s1 : Sheet F AST} (h : RefClosed s) (hco : CacheOnly s s1) :
    RefClosed s1 :=
  h.keep hco.to_keeps

theorem RefClosed.insert_stored {s s4 : Sheet F AST} {pos : Position} {c : Cell F AST}
    (h : RefClosed s) (hk : ∀ p, p ≠ pos → Keeps s s4 p)
    (hc : ∀ x ∈ c.GetReferencedCells, (s4.find x).isSome = true) :
    RefClosed (s4.insert pos c) := by
  intro p q hpq
  unfold edge at hpq
  rw [refsAt_insert] at hpq
  rw [find_insert]
  by_cases hqp : q = pos
  · simp [hqp]
  · simp only [hqp, if_false]
    by_cases hp : p = pos
    · simp only [hp, if_true] at hpq
      exact hc q hpq
    · simp only [hp, if_false] at hpq
      rw [(hk p hp).refs_eq] at hpq
      exact (hk q hqp).still_stored (h p q hpq)

theorem SetCell_refClosed (L : FormulaLib F AST) (hV : LibCellsValid L) (hR : LibReparses L)
    (n : Nat) (s : Sheet F AST) (pos : Position) (text : String) (h : SheetInv L s)
    (hc : RefClosed s) (hfuel : (SetCell L n s pos text).1 ≠ .error .OutOfFuel) :
    RefClosed (SetCell L n s pos text).2 := by
  unfold SetCell SetCellWith at hfuel ⊢
  by_cases hv : pos.IsValid = true
  swap
  · simp only [hv]; exact hc
  simp only [hv, if_true] at hfuel ⊢
  cases hfind : s.find pos with
  | none =>
    simp only [hfind] at hfuel ⊢
    cases hnew : Cell.new L text with
    | error e => exact hc
    | ok tmp =>
      simp only [hnew] at hfuel ⊢
      obtain ⟨hext, -, hsound⟩ :=
        hasCircularDependency_post L n none pos tmp.GetReferencedCells s
      generalize hasCircularDependency L n tmp.GetReferencedCells none pos s = res
        at hext hsound hfuel ⊢
      obtain ⟨r, s1⟩ := res
      simp only at hext hsound hfuel ⊢
      rcases r with e | b
      · exact hc.keep hext.keeps
      · cases b
        · apply RefClosed.insert_stored hc (fun p _ => hext.keeps p)
          rw [addReferenced_refs]
          intro x hx
          exact (hsound rfl x hx x Relation.ReflTransGen.refl).2
        · exact hc.keep hext.keeps
  | some existing_cell =>
    simp only [hfind] at hfuel ⊢
    by_cases htext : existing_cell.GetText L = text
    · simp only [htext, if_true]; exact hc
    simp only [htext, if_false] at hfuel ⊢
    have hco := InvalidateCellsByPos_cacheOnly n s pos
    generalize InvalidateCellsByPos n s pos = ri at hco hfuel ⊢
    obtain ⟨r1, s1⟩ := ri
    simp only at hco
    cases r1 with
    | error e => exact hc.keep hco.to_keeps
    | ok u =>
      simp only at hfuel ⊢
      obtain ⟨c1, hc1, he1⟩ : ∃ c1, s1.find pos = some c1 ∧
          c1.cell_value_.ResetCache = existing_cell.cell_value_.ResetCache := by
        rcases hco.to_keeps pos with ⟨c, c1, hc, hc1, he⟩ | ⟨hn, _⟩
        · rw [hfind] at hc; cases hc; exact ⟨c1, hc1, he⟩
        · rw [hfind] at hn; cases hn
      have hcell : s1.cellAt pos existing_cell = c1 := by simp [Sheet.cellAt, hc1]
      rw [hcell] at hfuel ⊢
      have hk2 : ∀ p, Keeps s (s1.insert pos c1.DeleteDependencedCells) p := by
        intro p
        exact (hco.to_keeps p).comp (Keeps.insert_same c1.DeleteDependencedCells hc1 rfl p)
      cases hset : c1.DeleteDependencedCells.Set L text with
      | error e => exact hc.keep hk2
      | ok c3 =>
        simp only [hset] at hfuel ⊢
        have hk3 : ∀ p, p ≠ pos →
            Keeps s ((s1.insert pos c1.DeleteDependencedCells).insert pos c3) p :=
          fun p hp => (hk2 p).insert_off c3 hp
        obtain ⟨hext, hres, hsound⟩ :=
          hasCircularDependency_post L n (some pos) pos c3.GetReferencedCells
            ((s1.insert pos c1.DeleteDependencedCells).insert pos c3)
        generalize hasCircularDependency L n c3.GetReferencedCells (some pos) pos
          ((s1.insert pos c1.DeleteDependencedCells).insert pos c3) = res
          at hext hres hsound hfuel ⊢
        obtain ⟨r, s4⟩ := res
        simp only at hext hres hsound hfuel ⊢
        have hk4 : ∀ p, p ≠ pos → Keeps s s4 p := fun p hp => (hk3 p hp).comp (hext.keeps p)
        have hc4 : s4.find pos = some c3 := by
          rw [hext.find_pos, find_insert_self]
        have hcell4 : s4.cellAt pos c3 = c3 := by simp [Sheet.cellAt, hc4]
        have hs3 : RefsValid ((s1.insert pos c1.DeleteDependencedCells).insert pos c3) := by
          intro p q hpq
          unfold edge at hpq
          rw [refsAt_insert] at hpq
          by_cases hp : p = pos
          · simp only [hp, if_true] at hpq
            exact Cell.Set_refs_valid hV hset q hpq
          · simp only [hp, if_false] at hpq
            rw [(hk2 p).refs_eq] at hpq
            exact h.2.1 p q hpq
        rcases hres with hr | hr | hr | ⟨hr, hinv⟩
        · subst hr
          simp only [hcell4] at hfuel ⊢
          obtain ⟨c5, hc5, _, hrefs5⟩ :=
            Cell.Set_GetText hR existing_cell.cell_value_ (h.2.2.1 pos _ hfind) c3
          have hc5' : c3.Set L (existing_cell.GetText L) = .ok c5 := hc5
          simp only [hc5']
          apply hc.keep_off (fun p hp => (hk4 p hp).insert_off c5 hp)
          · intro _
            simp [find_insert_self]
          · intro q hq
            rw [refsAt_insert] at hq
            simp only [if_true] at hq
            simpa [refsAt, hfind] using hrefs5 q hq
        · subst hr
          simp only [hcell4]
          apply RefClosed.insert_stored hc hk4
          rw [addReferenced_refs]
          intro x hx
          exact (hsound rfl x hx x Relation.ReflTransGen.refl).2
        · subst hr; exact absurd rfl hfuel
        · subst hr
          exact absurd ⟨Cell.Set_refs_valid hV hset, hs3⟩ hinv

end

/-! ## No dereference of a missing cell on a sheet whose referenced cells are stored -/

section
variable {F AST : Type}

theorem InvalidateLoop_no_null
    {recur : Sheet F AST → Position → Except Fault Unit × Sheet F AST}
    (hco : ∀ s pos, CacheOnly s (recur s pos).2)
    (hrec : ∀ s pos, RefClosed s → (recur s pos).1 ≠ .error .NullDereference) :
    ∀ (refs : List Position) (s : Sheet F AST), RefClosed s →
      (∀ q ∈ refs, (s.find q).isSome = true) →
      (InvalidateLoop recur refs s).1 ≠ .error .NullDereference := by
  intro refs
  induction refs with
  | nil => intro s _ _ h; cases h
  | cons cell_pos rest ih =>
    intro s hs hst
    unfold InvalidateLoop
    by_cases hv : cell_pos.IsValid = true
    swap
    · simp only [hv]
      intro h; cases h
    simp only [hv, if_true]
    cases hf : s.find cell_pos with
    | none =>
      have := hst cell_pos (List.mem_cons_self _ _)
      simp [hf] at this
    | some cell =>
      simp only
      have h1 : CacheOnly s (s.insert cell_pos cell.InvalidateCache) :=
        CacheOnly.insert_invalidate hf
      have h2 := hco (s.insert cell_pos cell.InvalidateCache) cell_pos
      have h3 := hrec (s.insert cell_pos cell.InvalidateCache) cell_pos (hs.cacheOnly h1)
      generalize recur (s.insert cell_pos cell.InvalidateCache) cell_pos = res at h2 h3 ⊢
      obtain ⟨r, s2⟩ := res
      simp only at h2 h3 ⊢
      cases r with
      | error e => exact h3
      | ok u =>
        simp only
        have h12 := h1.comp_cache h2
        apply ih s2 (hs.cacheOnly h12)
        intro q hq
        have hq0 := hst q (List.mem_cons_of_mem _ hq)
        cases hq2 : s2.find q with
        | none => rw [(h12.find_none q).1 hq2] at hq0; simp at hq0
        | some _ => rfl

/-- On a sheet whose referenced cells are stored `InvalidateCellsByPos` never dereferences a
missing cell. -/
theorem InvalidateCellsByPos_no_null (n : Nat) :
    ∀ (s : Sheet F AST) (pos : Position), RefClosed s →
      (InvalidateCellsByPos n s pos).1 ≠ .error .NullDereference := by
  induction n with
  | zero => intro s pos _ h; cases h
  | succ n ih =>
    intro s pos hs
    unfold InvalidateCellsByPos
    apply InvalidateLoop_no_null (InvalidateCellsByPos_cacheOnly n) ih _ s hs
    intro q hq
    rw [GetDependencedCellByPos_eq] at hq
    by_cases hv : pos.IsValid = true
    · simp only [hv, if_true] at hq
      exact hs pos q hq
    · simp [hv] at hq

theorem ResetCache_setCache (v : Value F) (i : Impl F AST) :
    (i.setCache v).ResetCache = i.ResetCache := by
  cases i <;> rfl

theorem setCache_cacheOnly (s : Sheet F AST) (self : Position) (v : Value F) :
    CacheOnly s (s.setCache self v) := by
  unfold Sheet.setCache
  cases hf : s.find self with
  | none => exact CacheOnly.same_cache s
  | some c =>
    intro p
    simp only
    rw [find_insert]
    by_cases hp : p = self
    · subst hp
      simp [hf, Cell.InvalidateCache, ResetCache_setCache]
    · simp [hp]

theorem cell_func_cacheOnly (L : FormulaLib F AST)
    {getValue : Sheet F AST → Position → Except Fault (Value F) × Sheet F AST}
    (h : ∀ s p, CacheOnly s (getValue s p).2) :
    ∀ p s, CacheOnly s (cell_func L getValue p s).2 := by
  intro p s
  unfold cell_func
  split
  · split
    · exact CacheOnly.same_cache s
    · have hg := h s p
      split <;> rename_i heq <;> rw [heq] at hg
      · exact hg
      · exact hg
      · split <;> exact hg
      · exact hg
  · exact CacheOnly.same_cache s

theorem runExecute_cacheOnly
    {lookup : Position → Sheet F AST → Except Fault (Except Category F) × Sheet F AST}
    (h : ∀ p s, CacheOnly s (lookup p s).2) :
    ∀ (r : Run F) (s : Sheet F AST), CacheOnly s (runExecute lookup r s).2 := by
  intro r
  induction r with
  | done r => intro s; exact CacheOnly.same_cache s
  | ask p k ih =>
    intro s
    unfold runExecute
    have hl := h p s
    split <;> rename_i heq <;> rw [heq] at hl
    · exact hl
    · exact hl
    · exact hl.comp_cache (ih _ _)

theorem GetValueWith_cacheOnly (L : FormulaLib F AST)
    {getValue : Sheet F AST → Position → Except Fault (Value F) × Sheet F AST}
    (h : ∀ s p, CacheOnly s (getValue s p).2) :
    ∀ s self, CacheOnly s (GetValueWith L getValue s self).2 := by
  intro s self
  unfold GetValueWith
  cases hf : s.find self with
  | none => exact CacheOnly.same_cache s
  | some c =>
    obtain ⟨i, d⟩ := c
    cases i with
    | EmptyImpl => exact CacheOnly.same_cache s
    | TextImpl t => exact CacheOnly.same_cache s
    | FormulaImpl f cache =>
      cases cache with
      | some v => exact CacheOnly.same_cache s
      | none =>
        simp only
        cases hasTextReference s f.GetReferencedCells with
        | error e => exact CacheOnly.same_cache s
        | ok b =>
          cases b with
          | true => exact setCache_cacheOnly _ _ _
          | false =>
            simp only
            have he : CacheOnly s (f.Evaluate L getValue s).2 :=
              runExecute_cacheOnly (cell_func_cacheOnly L h) _ s
            generalize f.Evaluate L getValue s = res at he ⊢
            obtain ⟨r, s1⟩ := res
            simp only at he
            rcases r with e | (fe | res)
            · exact he
            · exact he.comp_cache (setCache_cacheOnly _ _ _)
            · simp only
              split
              · exact he.comp_cache (setCache_cacheOnly _ _ _)
              · exact he.comp_cache (setCache_cacheOnly _ _ _)

/-- A call of `GetValue` changes caches only. -/
theorem GetValue_cacheOnly (L : FormulaLib F AST) (n : Nat) :
    ∀ (s : Sheet F AST) (p : Position), CacheOnly s (GetValue L n s p).2 := by
  induction n with
  | zero =>
    intro s p
    exact GetValueWith_cacheOnly L (fun s _ => CacheOnly.same_cache s) s p
  | succ n ih =>
    intro s p
    exact GetValueWith_cacheOnly L ih s p

theorem hasTextReference_no_null (s : Sheet F AST) :
    ∀ refs : List Position, (∀ q ∈ refs, (s.find q).isSome = true) →
      hasTextReference s refs ≠ .error .NullDereference := by
  intro refs
  induction refs with
  | nil => intro _ h; cases h
  | cons q rest ih =>
    intro hst
    unfold hasTextReference
    split
    · cases hf : s.find q with
      | none =>
        have := hst q (List.mem_cons_self _ _)
        simp [hf] at this
      | some c =>
        simp only
        split
        · intro h; cases h
        · exact ih (fun x hx => hst x (List.mem_cons_of_mem _ hx))
    · intro h; cases h

theorem cell_func_no_null (L : FormulaLib F AST)
    {getValue : Sheet F AST → Position → Except Fault (Value F) × Sheet F AST}
    (h : ∀ s p, RefClosed s → (s.find p).isSome = true →
      (getValue s p).1 ≠ .error .NullDereference) :
    ∀ p s, RefClosed s → (cell_func L getValue p s).1 ≠ .error .NullDereference := by
  intro p s hs
  unfold cell_func
  by_cases hv : p.IsValid = true
  swap
  · simp only [hv]; intro h; cases h
  simp only [hv, if_true]
  cases hf : s.find p with
  | none => intro h; cases h
  | some c =>
    simp only
    have hg := h s p hs (by simp [hf])
    generalize getValue s p = res at hg ⊢
    obtain ⟨r, s1⟩ := res
    simp only at hg
    rcases r with e | v
    · intro h; cases h; exact hg rfl
    · cases v with
      | number d => intro h; cases h
      | text str =>
        simp only
        cases L.stod str <;> (intro h; cases h)
      | error fe => intro h; cases h

theorem runExecute_no_null
    {lookup : Position → Sheet F AST → Except Fault (Except Category F) × Sheet F AST}
    (hco : ∀ p s, CacheOnly s (lookup p s).2)
    (h : ∀ p s, RefClosed s → (lookup p s).1 ≠ .error .NullDereference) :
    ∀ (r : Run F) (s : Sheet F AST), RefClosed s →
      (runExecute lookup r s).1 ≠ .error .NullDereference := by
  intro r
  induction r with
  | done r => intro s _ h; cases h
  | ask p k ih =>
    intro s hs
    unfold runExecute
    have hl := h p s hs
    have hc := hco p s
    split <;> rename_i heq <;> rw [heq] at hl hc
    · exact hl
    · intro h; cases h
    · exact ih _ _ (hs.cacheOnly hc)

theorem GetValueWith_no_null (L : FormulaLib F AST)
    {getValue : Sheet F AST → Position → Except Fault (Value F) × Sheet F AST}
    (hco : ∀ s p, CacheOnly s (getValue s p).2)
    (h : ∀ s p, RefClosed s → (s.find p).isSome = true →
      (getValue s p).1 ≠ .error .NullDereference) :
    ∀ s self, RefClosed s → (s.find self).isSome = true →
      (GetValueWith L getValue s self).1 ≠ .error .NullDereference := by
  intro s self hs hst
  unfold GetValueWith
  cases hf : s.find self with
  | none => simp [hf] at hst
  | some c =>
    obtain ⟨i, d⟩ := c
    cases i with
    | EmptyImpl => intro h; cases h
    | TextImpl t => intro h; cases h
    | FormulaImpl f cache =>
      cases cache with
      | some v => intro h; cases h
      | none =>
        simp only
        have hrefs : ∀ q ∈ f.GetReferencedCells, (s.find q).isSome = true := by
          intro q hq
          apply hs self q
          simp [edge, refsAt, hf, Cell.GetReferencedCells, Impl.GetReferencedCells, hq]
        have ht := hasTextReference_no_null s f.GetReferencedCells hrefs
        generalize hasTextReference s f.GetReferencedCells = tr at ht ⊢
        cases tr with
        | error e =>
          intro h; cases h; exact ht rfl
        | ok b =>
          cases b with
          | true => intro h; cases h
          | false =>
            simp only
            have he : (f.Evaluate L getValue s).1 ≠ .error .NullDereference :=
              runExecute_no_null (cell_func_cacheOnly L hco) (cell_func_no_null L h) _ s hs
            generalize f.Evaluate L getValue s = res at he ⊢
            obtain ⟨r, s1⟩ := res
            simp only at he
            rcases r with e | (fe | res)
            · intro h; cases h; exact he rfl
            · intro h; cases h
            · simp only
              split <;> (intro h; cases h)

/-- On a sheet whose referenced cells are stored `GetValue` on a stored cell never
dereferences a missing cell. -/
theorem GetValue_no_null (L : FormulaLib F AST) (n : Nat) :
    ∀ (s : Sheet F AST) (p : Position), RefClosed s → (s.find p).isSome = true →
      (GetValue L n s p).1 ≠ .error .NullDereference := by
  induction n with
  | zero =>
    intro s p hs hst
    exact GetValueWith_no_null L (fun s _ => CacheOnly.same_cache s)
      (fun _ _ _ _ h => by cases h) s p hs hst
  | succ n ih =>
    intro s p hs hst
    exact GetValueWith_no_null L (GetValue_cacheOnly L n) ih s p hs hst

/-- On a sheet whose referenced cells are stored `SetCell` never dereferences a missing
cell. -/
theorem SetCell_no_null (L : FormulaLib F AST) (n : Nat) (s : Sheet F AST) (pos : Position)
    (text : String) (hc : RefClosed s) :
    (SetCell L n s pos text).1 ≠ .error .NullDereference := by
  unfold SetCell SetCellWith
  by_cases hv : pos.IsValid = true
  swap
  · simp only [hv]; intro h; cases h
  simp only [hv, if_true]
  cases hfind : s.find pos with
  | none =>
    simp only
    cases hnew : Cell.new L text with
    | error e =>
      simp only
      intro h
      have h1 : e = .NullDereference := by cases h; rfl
      subst h1
      unfold Cell.new Cell.Set at hnew
      split at hnew
      · cases hnew
      · split at hnew
        · cases hnew
        · split at hnew <;> cases hnew
    | ok tmp =>
      simp only
      obtain ⟨-, hres, -⟩ :=
        hasCircularDependency_post L n none pos tmp.GetReferencedCells s
      generalize hasCircularDependency L n tmp.GetReferencedCells none pos s = res at hres ⊢
      obtain ⟨r, s1⟩ := res
      simp only at hres ⊢
      rcases hres with hr | hr | hr | ⟨hr, -⟩ <;> subst hr <;> (intro h; cases h)
  | some existing_cell =>
    simp only
    by_cases htext : existing_cell.GetText L = text
    · simp only [htext, if_true]; intro h; cases h
    simp only [htext, if_false]
    have hnn := InvalidateCellsByPos_no_null n s pos hc
    generalize InvalidateCellsByPos n s pos = ri at hnn ⊢
    obtain ⟨r1, s1⟩ := ri
    cases r1 with
    | error e => exact hnn
    | ok u =>
      simp only
      cases hset : (s1.cellAt pos existing_cell).DeleteDependencedCells.Set L text with
      | error e =>
        simp only
        intro h
        have h1 : e = .NullDereference := by cases h; rfl
        subst h1
        unfold Cell.Set at hset
        split at hset
        · cases hset
        · split at hset
          · cases hset
          · split at hset <;> cases hset
      | ok c3 =>
        simp only
        obtain ⟨-, hres, -⟩ :=
          hasCircularDependency_post L n (some pos) pos c3.GetReferencedCells
            ((s1.insert pos (s1.cellAt pos existing_cell).DeleteDependencedCells).insert pos c3)
        generalize hasCircularDependency L n c3.GetReferencedCells (some pos) pos
          ((s1.insert pos (s1.cellAt pos existing_cell).DeleteDependencedCells).insert pos c3)
          = res at hres ⊢
        obtain ⟨r, s4⟩ := res
        simp only at hres ⊢
        rcases hres with hr | hr | hr | ⟨hr, -⟩ <;> subst hr
        · simp only
          cases hc5 : (s4.cellAt pos c3).Set L (existing_cell.GetText L) with
          | error e =>
            simp only
            intro h
            have h1 : e = .NullDereference := by cases h; rfl
            subst h1
            unfold Cell.Set at hc5
            split at hc5
            · cases hc5
            · split at hc5
              · cases hc5
              · split at hc5 <;> cases hc5
          | ok c5 => intro h; cases h
        · intro h; cases h
        · intro h; cases h
        · intro h; cases h

end

/-! ## Reference closure is an invariant of `SetCell` -/

theorem SetReachable.inv_closed {F AST : Type} {L : FormulaLib F AST} (hV : LibCellsValid L)
    (hR : LibReparses L) {s : Sheet F AST} (h : SetReachable L s) :
    SheetInv L s ∧ RefClosed s := by
  induction h with
  | empty =>
    refine ⟨SheetInv.empty L, ?_⟩
    intro p q hpq
    simp [edge, refsAt, Sheet.find] at hpq
  | setCell fuel pos text _ hfuel ih =>
    exact ⟨SetCell_inv L hV hR fuel _ pos text ih.1 hfuel,
      SetCell_refClosed L hV hR fuel _ pos text ih.1 ih.2 hfuel⟩
  | @getValue s0 fuel pos _ ih =>
    have hco := GetValue_cacheOnly L fuel s0 pos
    exact ⟨ih.1.of_keeps hco.to_keeps, ih.2.cacheOnly hco⟩

/-- C20: reference closure is an invariant of `SetCell`.  The parser is assumed to name
valid cells only and to parse its own printed form again.  In every sheet reached from the
empty sheet by calls of `SetCell` that return or throw (and by reads of values), without
`ClearCell`, every position in `GetReferencedCells()` of a stored cell is a stored position;
and on such a sheet the unchecked dereferences never meet a missing cell:
`InvalidateCellsByPos`, `GetValue` on a stored cell and `SetCell` never dereference the null
pointer. -/
theorem refClosed_of_set_reachable {F AST : Type} (L : FormulaLib F AST)
    (hV : LibCellsValid L) (hR : LibReparses L) (s : Sheet F AST) (h : SetReachable L s) :
    RefClosed s ∧
    (∀ p c, s.find p = some c → ∀ q ∈ c.GetReferencedCells, (s.find q).isSome = true) ∧
    (∀ n pos, (InvalidateCellsByPos n s pos).1 ≠ .error .NullDereference) ∧
    (∀ n p, (s.find p).isSome = true → (GetValue L n s p).1 ≠ .error .NullDereference) ∧
    (∀ n pos text, (SetCell L n s pos text).1 ≠ .error .NullDereference) := by
  have hc : RefClosed s := (SetReachable.inv_closed hV hR h).2
  refine ⟨hc, ?_, ?_, ?_, ?_⟩
  · intro p c hp q hq
    apply hc p q
    simp [edge, refsAt, hp, hq]
  · intro n pos
    exact InvalidateCellsByPos_no_null n s pos hc
  · intro n p hp
    exact GetValue_no_null L n s p hc hp
  · intro n pos text
    exact SetCell_no_null L n s pos text hc

/-- C20 on the sheet after `A1 := "=B1"`, `B1 := "=C1"` and the rejected call
`SetCell(C1, "=A1")`. -/
theorem refClosed_of_set_reachable_witness :
    (SetCell plainLib 3 chainSheet C1 "=A1").1 = .error .CircularDependencyException ∧
    (chainSheet.find A1).map Cell.GetReferencedCells = some [B1] ∧
    RefClosed (SetCell plainLib 3 chainSheet C1 "=A1").2 ∧
    (∀ p c, (SetCell plainLib 3 chainSheet C1 "=A1").2.find p = some c →
      ∀ q ∈ c.GetReferencedCells,
        ((SetCell plainLib 3 chainSheet C1 "=A1").2.find q).isSome = true) ∧
    (∀ n pos, (InvalidateCellsByPos n (SetCell plainLib 3 chainSheet C1 "=A1").2 pos).1 ≠
      .error .NullDereference) ∧
    (∀ n p, ((SetCell plainLib 3 chainSheet C1 "=A1").2.find p).isSome = true →
      (GetValue plainLib n (SetCell plainLib 3 chainSheet C1 "=A1").2 p).1 ≠
        .error .NullDereference) ∧
    (∀ n pos text, (SetCell plainLib n (SetCell plainLib 3 chainSheet C1 "=A1").2 pos text).1 ≠
      .error .NullDereference) :=
  ⟨by decide, by decide,
    refClosed_of_set_reachable plainLib plainLib_cellsValid plainLib_reparses _
      (SetReachable.setCell 3 C1 "=A1"
        (SetReachable.setCell 2 B1 "=C1"
          (SetReachable.setCell 2 A1 "=B1" SetReachable.empty (by decide)) (by decide))
        (by decide))⟩

/-! ## The cache of a formula cell -/

section
variable {F AST : Type}

/-- A formula cell with a cached value returns it and leaves the sheet as it is. -/
theorem GetValue_cached (L : FormulaLib F AST) (n : Nat) {s : Sheet F AST} {p : Position}
    {f : Formula AST} {c : Value F} {d : List Position}
    (h : s.find p = some ⟨.FormulaImpl f (some c), d⟩) : GetValue L n s p = (.ok c, s) := by
  cases n <;> simp [GetValue, GetValueWith, h]

theorem setCache_find {s s1 : Sheet F AST} (hco : CacheOnly s s1) {p : Position}
    {f : Formula AST} {d : List Position} (h : s.find p = some ⟨.FormulaImpl f none, d⟩)
    (v : Value F) : (s1.setCache p v).find p = some ⟨.FormulaImpl f (some v), d⟩ := by
  have hp := hco p
  rw [h] at hp
  cases h1 : s1.find p with
  | none => rw [h1] at hp; simp at hp
  | some c1 =>
    rw [h1] at hp
    simp only [Option.map_some', Option.some.injEq, Cell.InvalidateCache] at hp
    obtain ⟨i1, d1⟩ := c1
    simp only [Cell.mk.injEq] at hp
    obtain ⟨hi, hd⟩ := hp
    subst hd
    unfold Sheet.setCache
    rw [h1]
    simp only
    rw [find_insert_self]
    cases i1 with
    | EmptyImpl => simp [Impl.ResetCache] at hi
    | TextImpl t => simp [Impl.ResetCache] at hi
    | FormulaImpl f1 cache1 =>
      simp only [Impl.ResetCache, Impl.FormulaImpl.injEq, and_true] at hi
      subst hi
      rfl

theorem GetValueWith_uncached (L : FormulaLib F AST)
    {getValue : Sheet F AST → Position → Except Fault (Value F) × Sheet F AST}
    (hg : ∀ s p, CacheOnly s (getValue s p).2)
    {s : Sheet F AST} {p : Position} {f : Formula AST} {d : List Position} {v : Value F}
    (h : s.find p = some ⟨.FormulaImpl f none, d⟩)
    (hv : (GetValueWith L getValue s p).1 = .ok v) :
    (∀ t, v ≠ .text t) ∧
    (GetValueWith L getValue s p).2.find p = some ⟨.FormulaImpl f (some v), d⟩ := by
  unfold GetValueWith at hv ⊢
  simp only [h] at hv ⊢
  generalize hasTextReference s f.GetReferencedCells = tr at hv ⊢
  cases tr with
  | error e => simp at hv
  | ok b =>
    cases b with
    | true =>
      simp only at hv ⊢
      cases hv
      exact ⟨(fun t ht => by cases ht), setCache_find (CacheOnly.same_cache s) h _⟩
    | false =>
      simp only at hv ⊢
      have he : CacheOnly s (f.Evaluate L getValue s).2 :=
        runExecute_cacheOnly (cell_func_cacheOnly L hg) _ s
      generalize f.Evaluate L getValue s = res at he hv ⊢
      obtain ⟨r, s1⟩ := res
      simp only at he
      rcases r with e | (fe | res)
      · simp at hv
      · simp only at hv ⊢
        cases hv
        exact ⟨(fun t ht => by cases ht), setCache_find he h _⟩
      · simp only at hv ⊢
        by_cases hinf : L.isinf res = true
        · simp only [hinf, if_true] at hv ⊢
          cases hv
          exact ⟨(fun t ht => by cases ht), setCache_find he h _⟩
        · simp only [hinf, if_false] at hv ⊢
          cases hv
          exact ⟨(fun t ht => by cases ht), setCache_find he h _⟩

/-- A formula cell without a cached value: when `GetValue` returns a value, it is a number
or an error, the cache of the cell holds it afterwards, and every further `GetValue`
returns it and leaves the sheet as it is. -/
theorem GetValue_uncached (L : FormulaLib F AST) (n : Nat) {s : Sheet F AST} {p : Position}
    {f : Formula AST} {d : List Position} {v : Value F}
    (h : s.find p = some ⟨.FormulaImpl f none, d⟩) (hv : (GetValue L n s p).1 = .ok v) :
    (∀ t, v ≠ .text t) ∧ cachedValue (GetValue L n s p).2 p = some v ∧
    ∀ m, GetValue L m (GetValue L n s p).2 p = (.ok v, (GetValue L n s p).2) := by
  have key : (∀ t, v ≠ .text t) ∧
      (GetValue L n s p).2.find p = some ⟨.FormulaImpl f (some v), d⟩ := by
    cases n with
    | zero => exact GetValueWith_uncached L (fun s _ => CacheOnly.same_cache s) h hv
    | succ n => exact GetValueWith_uncached L (GetValue_cacheOnly L n) h hv
  refine ⟨key.1, ?_, fun m => GetValue_cached L m key.2⟩
  simp [cachedValue, key.2]

end

/-- The two lemmas on the sheet after `A1 := "=7"` and `A2 := "=A1"`: the first read of A2
returns 7 and caches it. -/
theorem GetValue_uncached_example :
    (GetValue plainLib 1 (SetCell plainLib 1 (SetCell plainLib 1 [] A1 "=7").2 A2 "=A1").2 A2).1 =
      .ok (.number 7) ∧
    cachedValue staleSheet A2 = some (.number 7) ∧
    ∀ m, GetValue plainLib m staleSheet A2 = (.ok (.number 7), staleSheet) :=
  ⟨by decide,
    (GetValue_uncached plainLib 1
      (show (SetCell plainLib 1 (SetCell plainLib 1 [] A1 "=7").2 A2 "=A1").2.find A2 =
        some ⟨.FormulaImpl ⟨⟨"A1", .cell A1 (by decide), []⟩, [A1]⟩ none, [A1]⟩ by decide)
      (show _ = Except.ok (Value.number 7) by decide)).2⟩

/-- C15, the failing input: after `A1 := "=B1"` and `ClearCell(B1)` the cell A1 is a formula
cell without a cached value and B1 is absent; `GetValue` on A1 does not return a value,
whatever the bound on the depth of the recursion: the first loop of `ImplGetValue`
dereferences the null pointer that `GetCell` returns for B1, and no value is cached. -/
theorem GetValue_uncached_no_value :
    (danglingSheet.find A1).map Cell.GetType = some .FORMULA ∧
    (danglingSheet.find A1).map (fun c => c.cell_value_.isCacheValid) = some false ∧
    (danglingSheet.find A1).map Cell.GetReferencedCells = some [B1] ∧
    GetCell danglingSheet B1 = .ok none ∧
    ∀ n, GetValue plainLib n danglingSheet A1 = (.error .NullDereference, danglingSheet) := by
  refine ⟨by decide, by decide, by decide, by decide, ?_⟩
  intro n
  cases n <;> rfl

end Spreadsheet
